import Mathlib

/-! # instmon (p2-installer): option resolution, tokenizing, directory erasing and making, process waiting

A shallow embedding of `src/instmon/src/main.c` (the POSIX branches of its
conditional compilation; `get_clsid` exists under `_WIN32` only) followed by
theorems about it.

Conventions of the embedding
* A C string is a `List Char` without the terminating NUL (`CStr`).  The bytes of
  a file may include NUL bytes (`Char.ofNat 0`); the C string that a buffer filled
  from a file holds is `c_string` of its bytes.
* A `char *` that may be `NULL` is an `Option CStr`.
* `fail (...)` prints a message and calls `exit (1)`; a function that can reach it
  returns a result type with a constructor for that exit.
* A read outside an allocated object is undefined behaviour in C; the embedding
  reports it as a distinguished result instead of inventing a value.
* Loops whose bound is not a syntactic counter carry a fuel argument; theorems
  state that the fuel supplied by the wrappers is enough.
* `malloc` and `strdup` are taken to succeed (their failure branch calls `fail`).
* Characters that need an escape are written by code: `Char.ofNat 34` is the
  double quote, `Char.ofNat 9` the tab, `Char.ofNat 10` the newline.
* The file system and the process table are not part of the program: the
  directory tree under a path and the liveness of a process are inputs that
  carry the outcome of each system call made on them; `make_path` runs over an
  interface of the two system calls it makes.
* Constants declared in system headers (the `CSIDL_` identifiers) are taken as a
  parameter giving the value of each name.
-/

namespace Instmon

/-- C string: the characters before the terminating NUL. -/
abbrev CStr := List Char

/-! ## libc string helpers -/

/-- The libc `strpbrk (s, accept)`: `none` when no character of `accept` occurs in
`s`, otherwise the text before the first such character and the text starting
at it. -/
def strpbrk (accept : List Char) : CStr → Option (CStr × CStr)
  | [] => none
  | c :: cs =>
    if c ∈ accept then some ([], c :: cs)
    else
      match strpbrk accept cs with
      | none => none
      | some (pre, suf) => some (c :: pre, suf)

/-- The first step of libc `strtok`: skip every leading delimiter. -/
def skip_delims (delim : List Char) : CStr → CStr
  | [] => []
  | c :: cs => if c ∈ delim then skip_delims delim cs else c :: cs

/-- The libc `strtok (str, delim)` with its hidden cursor made explicit (`save`):
skips leading delimiters, returns `NULL` at the end of the text, otherwise
returns the token up to the next delimiter (which it overwrites with NUL) and
leaves the cursor just past that delimiter, or at the end of the text. -/
def strtok (str : Option CStr) (delim : List Char) (save : CStr) : Option CStr × CStr :=
  match skip_delims delim (match str with | some s => s | none => save) with
  | [] => (none, [])
  | c :: cs =>
    match strpbrk delim (c :: cs) with
    | none => (some (c :: cs), [])
    | some (tok, rest) => (some tok, rest.tail)

/-! ## trim_argument (main.c 176-202) -/

/-- The test `(*p == '\"') || (*p == ' ') || (*p == '\t')` of `trim_argument`. -/
def is_pad (c : Char) : Bool :=
  c == Char.ofNat 34 || c == ' ' || c == Char.ofNat 9

/-- The trailing loop of `trim_argument`: `ptr` is `stripped + p - 1`; each round
reads `*ptr`, and on a pad character stores NUL there (the string now ends at
index `p - 1`) and steps `ptr` back.  With `p = 0` the pointer is one before
the allocation and the read is out of bounds: `none`. -/
def trim_scan : Nat → CStr → Option CStr
  | 0, _ => none
  | p + 1, stripped =>
    match stripped[p]? with
    | none => none
    | some c => if is_pad c then trim_scan p (stripped.take p) else some stripped

/-- The function `trim_argument (s)` for a non-NULL `s`: skips the leading pad, copies
the rest, then runs the trailing loop from the last character.  `none` is the
out-of-bounds read of the trailing loop. -/
def trim_argument (s : CStr) : Option CStr :=
  let stripped := s.dropWhile is_pad
  let count := stripped.length
  trim_scan count stripped

/-! ## get_argument (main.c 1070-1094) -/

/-- The function `get_argument (arguments)`; the `static char *current` is passed in and
returned.  Result: the returned pointer and the new `current`. -/
def get_argument (arguments : Option CStr) (current : Option CStr) :
    Option CStr × Option CStr :=
  let current := match arguments with
    | some a => some a
    | none => current
  match current with
  | none => (none, none)
  | some cur =>
    match strpbrk [','] cur with
    | none => (some cur, none)
    | some (ret, pos) => (some ret, some pos.tail)

/-- The call pattern of `main`: one call `get_argument (first)` followed by
`n - 1` calls `get_argument (NULL)`; the list of returned pointers. -/
def get_argument_calls : Nat → Option CStr → Option CStr → List (Option CStr)
  | 0, _, _ => []
  | n + 1, first, current =>
    match get_argument first current with
    | (ret, current') => ret :: get_argument_calls n none current'

/-! ## internal_get_option, get_option (main.c 1107-1151) -/

/-- What a call of `internal_get_option` / `get_option` can do. -/
inductive Outcome
  /-- returns 0; `argument` is what was stored through the out parameter
  (`none` when the caller passed `NULL` for it) -/
  | ok (argument : Option CStr)
  /-- returns -1: the option is not present -/
  | absent
  /-- calls `fail ("%s option requires an argument.", name)`: the process exits -/
  | missing_argument
  /-- reads outside an allocated object (undefined behaviour) -/
  | out_of_bounds
  deriving DecidableEq, Repr

/-- The `for (index = start; index < argc; index ++)` loop of
`internal_get_option`; the fuel is the number of rounds left, `argc - index`. -/
def internal_get_option_loop (argv : List CStr) (argc : Nat) (name : CStr)
    (wantArgument : Bool) : Nat → Nat → Outcome
  | 0, _ => .absent
  | fuel + 1, index =>
    match argv[index]? with
    | none => .out_of_bounds
    | some arg =>
      if name = arg then
        if wantArgument then
          if index + 1 ≥ argc then .missing_argument
          else
            match argv[index + 1]? with
            | none => .out_of_bounds
            | some value =>
              match trim_argument value with
              | none => .out_of_bounds
              | some t => .ok (some t)
        else .ok none
      else internal_get_option_loop argv argc name wantArgument fuel (index + 1)

/-- The function `internal_get_option (argv, argc, start, name, argument)`;
`wantArgument` says whether `argument` is non-NULL. -/
def internal_get_option (argv : List CStr) (argc start : Nat) (name : CStr)
    (wantArgument : Bool) : Outcome :=
  internal_get_option_loop argv argc name wantArgument (argc - start) start

/-- The globals `fargv` and `fargc` of main.c. -/
structure Globals where
  fargv : List CStr
  fargc : Nat
  deriving DecidableEq, Repr

/-- The globals at program start: `fargv = NULL`, `fargc` zero-initialised. -/
def Globals.initial : Globals := ⟨[], 0⟩

/-- The function `get_option (argv, argc, name, argument)`. -/
def get_option (g : Globals) (argv : List CStr) (argc : Nat) (name : CStr)
    (wantArgument : Bool) : Outcome :=
  match internal_get_option argv argc 1 name wantArgument with
  | .absent => internal_get_option g.fargv g.fargc 0 name wantArgument
  | r => r

/-! ## read_file_options (main.c 1159-1232) -/

/-- The character loop of libc `fgets`: copies at most `room` characters and stops
after a newline or at the end of the stream; returns the buffer and the rest of
the stream. -/
def fgets_loop : Nat → List Char → CStr × List Char
  | 0, fp => ([], fp)
  | _ + 1, [] => ([], [])
  | room + 1, c :: fp =>
    if c = Char.ofNat 10 then ([c], fp)
    else
      match fgets_loop room fp with
      | (buffer, fp') => (c :: buffer, fp')

/-- The libc `fgets (buffer, size, fp)`: `none` (NULL) at the end of the stream,
otherwise at most `size - 1` characters. -/
def fgets (size : Nat) (fp : List Char) : Option (CStr × List Char) :=
  match fp with
  | [] => none
  | _ :: _ => some (fgets_loop (size - 1) fp)

/-- The C string a buffer holds: its characters before the first NUL byte.  A
file may hold NUL bytes; `fgets` stores them like any other character, while
`strlen`, `strpbrk` and `strcpy` stop at the first one. -/
def c_string (buffer : List Char) : CStr :=
  buffer.takeWhile (fun c => c != Char.ofNat 0)

/-- The first `while (fgets (buffer, 2048, fp) != NULL)` loop of
`read_file_options`, which counts `fargc`.  `none`: fuel exhausted. -/
def count_options : Nat → List Char → Nat → Option Nat
  | 0, _, _ => none
  | fuel + 1, fp, fargc =>
    match fgets 2048 fp with
    | none => some fargc
    | some (buffer, fp') =>
      let fargc := fargc + 1
      let fargc :=
        if (strpbrk [' ', Char.ofNat 9] (c_string buffer)).isSome then fargc + 1 else fargc
      count_options fuel fp' fargc

/-- The second `while (fgets (buffer, 2048, fp) != NULL)` loop of
`read_file_options`, which fills `fargv [index]`; the vector written so far is
the accumulator and `index` is its length.  `bytes` is what `fgets` stored and
`buffer` the C string in it.  Result `some none`: `buffer[length - 1]` is read
with `length` 0, one byte before `buffer` (the bytes read start with a NUL).
`none`: fuel exhausted. -/
def read_options : Nat → List Char → List CStr → Option (Option (List CStr))
  | 0, _, _ => none
  | fuel + 1, fp, fargv =>
    match fgets 2048 fp with
    | none => some (some fargv)
    | some (bytes, fp') =>
      let buffer := c_string bytes
      let length := buffer.length
      if length = 0 then some none
      else
        let buffer := if buffer[length - 1]? = some (Char.ofNat 10) then buffer.take (length - 1)
          else buffer
        match strpbrk [' ', Char.ofNat 9] buffer with
        | none => read_options fuel fp' (fargv ++ [buffer])
        | some (flag, sp) =>
          read_options fuel fp'
            (fargv ++ [flag, sp.dropWhile (fun c => c == ' ' || c == Char.ofNat 9)])

/-- What a call of `read_file_options` comes to: it returns, leaving the globals `g`,
or it reads outside `buffer`. -/
inductive Loaded
  | returned (result : Int) (g : Globals)
  | out_of_bounds
  deriving DecidableEq, Repr

/-- The function `read_file_options (path)` for a non-NULL path; `file` is what
`fopen (path, "r")` gives: `none` when the file cannot be opened, otherwise its
bytes (the same at both openings).  Each `fgets` consumes at least one
character, so the length of the text plus one is enough fuel for either loop;
`none`: fuel exhausted. -/
def read_file_options (file : Option (List Char)) (g : Globals) : Option Loaded :=
  match file with
  | none => some (.returned (-1) { g with fargc := 0 })
  | some text =>
    match count_options (text.length + 1) text 0 with
    | none => none
    | some fargc =>
      match read_options (text.length + 1) text [] with
      | none => none
      | some none => some .out_of_bounds
      | some (some fargv) => some (.returned 0 { fargv := fargv, fargc := fargc })

/-! ## wait_for_pid (main.c 513-544), the branch without `_WIN32` -/

/-- The `while (kill (pid, 0) != -1)` loop of `wait_for_pid`.  `alive k` says
whether the `k`-th call `kill (pid, 0)` (counted from 0) finds the process.
Result: the return value and the number of `kill` polls made; `none`: the loop
is still running when the fuel (a bound on the rounds observed) is used up.
`num_seconds` is declared as 0 and no statement of the loop assigns it. -/
def wait_for_pid_loop (alive : Nat → Bool) (max : Int) (num_seconds : Int) :
    Nat → Nat → Option (Int × Nat)
  | 0, _ => none
  | fuel + 1, polls =>
    if alive polls then
      -- sleep (1)
      if max ≠ -1 ∧ num_seconds ≥ max then some (-1, polls + 1)
      else wait_for_pid_loop alive max num_seconds fuel (polls + 1)
    else some (0, polls + 1)

/-- The function `wait_for_pid (pid, max)`. -/
def wait_for_pid (alive : Nat → Bool) (pid : Int) (max : Int) (fuel : Nat) :
    Option (Int × Nat) :=
  if pid ≠ -1 then wait_for_pid_loop alive max 0 fuel 0
  else some (0, 0)

/-! ## delete_directory (main.c 377-477), the branch without `_WIN32`

The file system below one path is a finite tree.  Every node carries the
simulated outcome of the system calls made on it, so that each failure branch
of the code can be taken. -/

/-- What `lstat` reports for an entry that is not a directory. -/
inductive LeafKind
  | regular
  | symlink
  | special
  deriving DecidableEq, Repr

mutual
/-- A file-system object as `lstat` sees it (links are not followed). -/
inductive Node
  /-- anything that is not a directory; `unlinkOk`: `unlink` on it succeeds -/
  | leaf (kind : LeafKind) (unlinkOk : Bool)
  /-- a directory; `openOk`: `opendir` on it succeeds; `rmdirOk`: `rmdir` on it
  succeeds once it is empty (on a non-empty directory `rmdir` always fails) -/
  | dir (openOk rmdirOk : Bool) (entries : Entries)
/-- The entries `readdir` yields for a directory, in its order, without the
`.` and `..` entries that the loop skips. -/
inductive Entries
  | nil
  /-- an entry; `statOk`: `lstat` on the child path succeeds -/
  | cons (name : CStr) (statOk : Bool) (node : Node) (rest : Entries)
end

deriving instance DecidableEq for Node, Entries

/-- An entry list after the call on one child: the child is still listed when
something is left of it. -/
def Entries.put (name : CStr) (statOk : Bool) : Option Node → Entries → Entries
  | none, rest => rest
  | some n, rest => .cons name statOk n rest

/-- The POSIX `rmdir`: succeeds (0) on an empty directory that may be removed,
fails (-1) otherwise.  Result: return value and what is left at the path. -/
def rmdir (openOk rmdirOk : Bool) : Entries → Int × Option Node
  | .nil => if rmdirOk then (0, none) else (-1, some (.dir openOk rmdirOk .nil))
  | .cons name statOk n rest => (-1, some (.dir openOk rmdirOk (.cons name statOk n rest)))

mutual
/-- The function `delete_directory (directory, emptyOnly)` for a non-NULL path, given
the node at the path `directory`.  `opendir` fails on a node that is not a
directory.  Result: the return value and what is left at that path (`none`:
nothing). -/
def delete_directory (emptyOnly : Bool) : Node → Int × Option Node
  | .leaf kind unlinkOk => (-1, some (.leaf kind unlinkOk))
  | .dir openOk rmdirOk entries =>
    if openOk then
      match delete_directory_loop emptyOnly entries with
      | (result, entries') =>
        if result = 0 then rmdir openOk rmdirOk entries'
        else (result, some (.dir openOk rmdirOk entries'))
    else (-1, some (.dir openOk rmdirOk entries))
/-- The `while ((entry = readdir (dir)))` loop of `delete_directory`.  Result:
`result` after the loop and the entries left in the directory. -/
def delete_directory_loop (emptyOnly : Bool) : Entries → Int × Entries
  | .nil => (0, .nil)
  | .cons name statOk node rest =>
    if statOk then
      match node with
      | .dir openOk rmdirOk entries =>
        match delete_directory emptyOnly (.dir openOk rmdirOk entries) with
        | (r, left) =>
          if r ≠ 0 then (-1, Entries.put name statOk left rest)
          else
            match delete_directory_loop emptyOnly rest with
            | (result, rest') => (result, Entries.put name statOk left rest')
      | .leaf kind unlinkOk =>
        if emptyOnly then (-1, .cons name statOk (.leaf kind unlinkOk) rest)
        else if unlinkOk then delete_directory_loop emptyOnly rest
        else (-1, .cons name statOk (.leaf kind unlinkOk) rest)
    else
      match delete_directory_loop emptyOnly rest with
      | (result, rest') => (result, .cons name statOk node rest')
end

/-! ## delete_directories (main.c 487-504) -/

/-- The `while (argument != NULL)` loop of `delete_directories`.  `del` is the
single-target delete acting on a state `σ`; `save` is the cursor of `strtok`.
`none`: fuel exhausted. -/
def delete_directories_loop {σ : Type} (del : CStr → Bool → σ → Int × σ) (emptyOnly : Bool) :
    Nat → Option CStr → CStr → Int → σ → Option (Int × σ)
  | 0, _, _, _, _ => none
  | _ + 1, none, _, result, st => some (result, st)
  | fuel + 1, some argument, save, result, st =>
    match del argument emptyOnly st with
    | (del_result, st') =>
      let result := if del_result ≠ 0 then -1 else result
      match strtok none [','] save with
      | (argument', save') => delete_directories_loop del emptyOnly fuel argument' save' result st'

/-- The function `delete_directories (directories, emptyOnly)` over a single-target
delete `del`.  Every token holds at least one character, so the length of the
list plus one is enough fuel. -/
def delete_directories {σ : Type} (del : CStr → Bool → σ → Int × σ) (directories : CStr)
    (emptyOnly : Bool) (st : σ) : Option (Int × σ) :=
  match strtok (some directories) [','] [] with
  | (argument, save) =>
    delete_directories_loop del emptyOnly (directories.length + 1) argument save 0 st

/-! ## file_exists, make_path (main.c 303-367), the branch without `_WIN32` -/

/-- The system calls `make_path` makes, acting on a file-system state `σ`. -/
structure PathSys (σ : Type) where
  /-- the return value of `stat (path, &s)` -/
  stat : CStr → σ → Int
  /-- the return value of `mkdir (path, mode)` and the state it leaves -/
  mkdir : CStr → σ → Int × σ

/-- The function `file_exists (filename)`: whether `stat` returns 0. -/
def file_exists {σ : Type} (sys : PathSys σ) (filename : CStr) (st : σ) : Bool :=
  sys.stat filename st == 0

/-- The `while ((sp = strchr (start, DIRSEPSTR[0])) != 0)` loop of `make_path`.
`pre` is the text of `path` before `start`, so that while `*sp` holds NUL the
string `path` reads `pre` followed by the text between `start` and `sp`.
Result: `result`, the string `path` as the loop leaves it (cut at `sp` after
a `break`, whole otherwise) and the state.  `none`: fuel exhausted. -/
def make_path_loop {σ : Type} (sys : PathSys σ) :
    Nat → CStr → CStr → σ → Option (Int × CStr × σ)
  | 0, _, _, _ => none
  | fuel + 1, pre, start, st =>
    match strpbrk ['/'] start with
    | none => some (0, pre ++ start, st)
    | some (seg, sp) =>
      let path := pre ++ seg
      if path.length != 0 && !file_exists sys path st then
        match sys.mkdir path st with
        | (r, st') =>
          if r ≠ 0 then some (-1, path, st')
          else make_path_loop sys fuel (path ++ ['/']) sp.tail st'
      else make_path_loop sys fuel (path ++ ['/']) sp.tail st

/-- The function `make_path (directory, mode)` for a non-NULL path.  Each round of the
loop moves `start` past one separator, so the length of the path plus one is
enough fuel. -/
def make_path {σ : Type} (sys : PathSys σ) (directory : CStr) (st : σ) : Option (Int × σ) :=
  match make_path_loop sys (directory.length + 1) [] directory st with
  | none => none
  | some (result, path, st') =>
    if !file_exists sys directory st' then
      match sys.mkdir path st' with
      | (r, st'') => some (if r ≠ 0 then -1 else result, st'')
    else some (result, st')

/-! ## delete_directory over paths with symbolic links (main.c 377-477)

A second embedding of the same function over a file system addressed by paths
in which an object may be a symbolic link and every system call resolves the
path it is given.  The test of an entry is `lstat` (the branch without `_WIN32`)
or `stat` (the `_WIN32` branch), chosen by `follow_links`. -/

namespace Linked

/-- A path from the root, as the list of its components; the child path
`concat (directory, DIRSEPSTR, entry->d_name)` is `directory ++ [name]`. -/
abbrev Path := List CStr

/-- What a path names. -/
inductive Kind
  | file
  | dir
  /-- a symbolic link and the path it holds -/
  | link (target : Path)
  deriving DecidableEq, Repr

/-- The file system: the objects and the path at which each one lies. -/
abbrev Store := List (Path × Kind)

/-- The object lying at a path, links not followed. -/
def kind_at : Store → Path → Option Kind
  | [], _ => none
  | (q, k) :: s, p => if q = p then some k else kind_at s p

/-- The store without the object at `p`. -/
def erase (p : Path) (s : Store) : Store :=
  s.filter (fun e => decide (e.1 ≠ p))

/-- Path resolution.  `cur` is where the walk stands, the last argument the
components still to walk.  A link met before the last component is always
followed; a link that is the last component is followed only when `follow` is
set.  Result: the path at which the object named lies; `none`: a component is
missing or not a directory, or the budget of steps is used up. -/
def walk (s : Store) (follow : Bool) : Nat → Path → Path → Option Path
  | 0, _, _ => none
  | _ + 1, cur, [] => some cur
  | fuel + 1, cur, n :: rest =>
    match kind_at s (cur ++ [n]) with
    | none => none
    | some .dir => walk s follow fuel (cur ++ [n]) rest
    | some .file => if rest.isEmpty then some (cur ++ [n]) else none
    | some (.link t) =>
      if rest.isEmpty && !follow then some (cur ++ [n])
      else walk s follow fuel [] (t ++ rest)

/-- The environment of the calls: the number of steps a path resolution may
take, and for each system call the paths on which it is made to fail (lack of
permission and the like); `lstat_fails` serves for the test of an entry,
`lstat` or, under `_WIN32`, `stat`. -/
structure Env where
  budget : Nat
  opendir_fails : Path → Bool
  lstat_fails : Path → Bool
  unlink_fails : Path → Bool
  rmdir_fails : Path → Bool

/-- The call `lstat (p, &s)`: what lies at `p`, a final link not followed; `none`
when the call fails. -/
def lstat (env : Env) (s : Store) (p : Path) : Option Kind :=
  if env.lstat_fails p then none
  else (walk s false env.budget [] p).bind (kind_at s)

/-- The call `stat (p, &s)`: the same with a final link followed. -/
def stat (env : Env) (s : Store) (p : Path) : Option Kind :=
  if env.lstat_fails p then none
  else (walk s true env.budget [] p).bind (kind_at s)

/-- The names of the entries of the directory lying at `d`. -/
def children (s : Store) (d : Path) : List CStr :=
  s.filterMap (fun e => if e.1.dropLast = d then e.1.getLast? else none)

/-- The call `opendir (p)` followed by the `readdir` calls: the names the directory holds
when it is opened (without `.` and `..`); `none` when `opendir` returns NULL.  Links
are followed. -/
def opendir (env : Env) (s : Store) (p : Path) : Option (List CStr) :=
  if env.opendir_fails p then none
  else
    match walk s true env.budget [] p with
    | none => none
    | some d => if kind_at s d = some .dir then some (children s d) else none

/-- The call `unlink (p)`: removes the file or the link lying at `p`, a final
link not followed. -/
def unlink (env : Env) (s : Store) (p : Path) : Int × Store :=
  if env.unlink_fails p then (-1, s)
  else
    match walk s false env.budget [] p with
    | none => (-1, s)
    | some r =>
      match kind_at s r with
      | some .file => (0, erase r s)
      | some (.link _) => (0, erase r s)
      | _ => (-1, s)

/-- The call `rmdir (p)`: removes the directory lying at `p` when it holds no
entry; a final link is not followed. -/
def rmdir (env : Env) (s : Store) (p : Path) : Int × Store :=
  if env.rmdir_fails p then (-1, s)
  else
    match walk s false env.budget [] p with
    | none => (-1, s)
    | some r =>
      if kind_at s r = some .dir ∧ children s r = [] then (0, erase r s) else (-1, s)

/-- The `while ((entry = readdir (dir)))` loop of `delete_directory` over the names
still to come.  `recurse` is the nested call `delete_directory (child, emptyOnly)`.
With `follow_links` unset the entry is examined with `lstat`, as the branch
without `_WIN32` does; when set, with `stat` as the other branch does.  Result:
`result` after the loop (`none`: the nested call did not return) and the
store. -/
def delete_directory_loop (env : Env) (follow_links emptyOnly : Bool)
    (recurse : Path → Store → Option Int × Store) (directory : Path) :
    List CStr → Store → Option Int × Store
  | [], s => (some 0, s)
  | name :: names, s =>
    let child := directory ++ [name]
    match (if follow_links then stat env s child else lstat env s child) with
    | none => delete_directory_loop env follow_links emptyOnly recurse directory names s
    | some .dir =>
      match recurse child s with
      | (none, s') => (none, s')
      | (some r, s') =>
        if r ≠ 0 then (some (-1), s')
        else delete_directory_loop env follow_links emptyOnly recurse directory names s'
    | some _ =>
      if emptyOnly then (some (-1), s)
      else
        match unlink env s child with
        | (r, s') =>
          if r ≠ 0 then (some (-1), s')
          else delete_directory_loop env follow_links emptyOnly recurse directory names s'

/-- The function `delete_directory (directory, emptyOnly)` for a non-NULL path.  The
fuel bounds the depth of the nested calls; `none` as return value: the fuel
is used up.  The final removal is `rmdir (directory)`, as in the branch without
`_WIN32`, whatever `follow_links` is (the `_WIN32` branch calls `SHFileOperation`,
which is not part of the source). -/
def delete_directory (env : Env) (follow_links emptyOnly : Bool) :
    Nat → Path → Store → Option Int × Store
  | 0, _, s => (none, s)
  | fuel + 1, directory, s =>
    match opendir env s directory with
    | none => (some (-1), s)
    | some names =>
      match delete_directory_loop env follow_links emptyOnly
          (delete_directory env follow_links emptyOnly fuel) directory names s with
      | (none, s') => (none, s')
      | (some result, s') =>
        if result = 0 then
          match rmdir env s' directory with
          | (r, s'') => (some r, s'')
        else (some result, s')

end Linked

/-! ## get_clsid (main.c 913-1035), compiled under `_WIN32` only -/

/-- The chain of `strcmp` tests of `get_clsid` in source order: the string each
test compares `clsid` with and the name of the constant its branch returns. -/
def clsid_table : List (CStr × CStr) :=
  [("CSIDL_ADMINTOOLS".toList, "CSIDL_ADMINTOOLS".toList),
   ("CSIDL_ALTSTARTUP".toList, "CSIDL_ALTSTARTUP".toList),
   ("CSIDL_APPDATA".toList, "CSIDL_APPDATA".toList),
   ("CSIDL_BITBUCKET".toList, "CSIDL_BITBUCKET".toList),
   ("CSIDL_STARTMENU".toList, "CSIDL_STARTMENU".toList),
   ("CSIDL_CDBURN_AREA".toList, "CSIDL_CDBURN_AREA".toList),
   ("CSIDL_COMMON_ADMINTOOLS".toList, "CSIDL_COMMON_ADMINTOOLS".toList),
   ("CSIDL_COMMON_ALTSTARTUP".toList, "CSIDL_COMMON_ALTSTARTUP".toList),
   ("CSIDL_COMMON_APPDATA".toList, "CSIDL_COMMON_APPDATA".toList),
   ("CSIDL_COMMON_DESKTOPDIRECTORY".toList, "CSIDL_COMMON_DESKTOPDIRECTORY".toList),
   ("CSIDL_COMMON_DOCUMENTS".toList, "CSIDL_COMMON_DOCUMENTS".toList),
   ("CSIDL_COMMON_FAVORITES".toList, "CSIDL_COMMON_FAVORITES".toList),
   ("CSIDL_COMMON_MUSIC".toList, "CSIDL_COMMON_MUSIC".toList),
   ("CSIDL_COMMON_OEM_LINKS".toList, "CSIDL_COMMON_OEM_LINKS".toList),
   ("CSIDL_COMMON_PICTURES".toList, "CSIDL_COMMON_PICTURES".toList),
   ("CSIDL_COMMON_PROGRAMS".toList, "CSIDL_COMMON_PROGRAMS".toList),
   ("CSIDL_COMMON_STARTMENU".toList, "CSIDL_COMMON_STARTMENU".toList),
   ("CSIDL_COMMON_STARTUP".toList, "CSIDL_COMMON_STARTUP".toList),
   ("CSIDL_COMMON_TEMPLATES".toList, "CSIDL_COMMON_TEMPLATES".toList),
   ("CSIDL_COMMON_VIDEO".toList, "CSIDL_COMMON_VIDEO".toList),
   ("CSIDL_COMPUTERSNEARME".toList, "CSIDL_COMPUTERSNEARME".toList),
   ("CSIDL_CONNECTIONS".toList, "CSIDL_CONNECTIONS".toList),
   ("CSIDL_CONTROLS".toList, "CSIDL_CONTROLS".toList),
   ("CSIDL_COOKIES".toList, "CSIDL_COOKIES".toList),
   ("CSIDL_DESKTOP".toList, "CSIDL_DESKTOP".toList),
   ("CSIDL_DESKTOPDIRECTORY".toList, "CSIDL_DESKTOPDIRECTORY".toList),
   ("CSIDL_DRIVES".toList, "CSIDL_DRIVES".toList),
   ("CSIDL_FAVORITES".toList, "CSIDL_FAVORITES".toList),
   ("CSIDL_FONTS".toList, "CSIDL_FONTS".toList),
   ("CSIDL_HISTORY".toList, "CSIDL_HISTORY".toList),
   ("CSIDL_INTERNET".toList, "CSIDL_INTERNET".toList),
   ("CSIDL_INTERNET_CACHE".toList, "CSIDL_INTERNET_CACHE".toList),
   ("CSIDL_LOCAL_APPDATA".toList, "CSIDL_LOCAL_APPDATA".toList),
   ("CSIDL_MYMUSIC".toList, "CSIDL_MYMUSIC".toList),
   ("CSIDL_MYPICTURES".toList, "CSIDL_MYPICTURES".toList),
   ("CSIDL_MYVIDEO".toList, "CSIDL_MYVIDEO".toList),
   ("CSIDL_NETHOOD".toList, "CSIDL_NETHOOD".toList),
   ("CSIDL_NETWORK".toList, "CSIDL_NETWORK".toList),
   ("CSIDL_PERSONAL".toList, "CSIDL_PERSONAL".toList),
   ("CSIDL_PRINTERS".toList, "CSIDL_PRINTERS".toList),
   ("CSIDL_PRINTHOOD".toList, "CSIDL_PRINTHOOD".toList),
   ("CSIDL_PROFILE".toList, "CSIDL_PROFILE".toList),
   ("CSIDL_PROGRAM_FILES".toList, "CSIDL_PROGRAM_FILES".toList),
   ("CSIDL_PROGRAM_FILESX86".toList, "CSIDL_PROGRAM_FILESX86".toList),
   ("CSIDL_PROGRAM_FILES_COMMON".toList, "CSIDL_PROGRAM_FILES_COMMON".toList),
   ("CSIDL_PROGRAM_FILES_COMMONX86".toList, "CSIDL_PROGRAM_FILES_COMMONX86".toList),
   ("CSIDL_PROGRAMS".toList, "CSIDL_PROGRAMS".toList),
   ("CSIDL_RECENT".toList, "CSIDL_RECENT".toList),
   ("CSIDL_RESOURCES".toList, "CSIDL_RESOURCES".toList),
   ("CSIDL_RESOURCES_LOCALIZED".toList, "CSIDL_STARTMENU".toList),
   ("CSIDL_RESOURCES_LOCALIZED".toList, "CSIDL_STARTMENU".toList),
   ("CSIDL_STARTMENU".toList, "CSIDL_STARTMENU".toList),
   ("CSIDL_STARTUP".toList, "CSIDL_STARTUP".toList),
   ("CSIDL_SYSTEM".toList, "CSIDL_SYSTEM".toList),
   ("CSIDL_SYSTEMX86".toList, "CSIDL_SYSTEMX86".toList),
   ("CSIDL_TEMPLATES".toList, "CSIDL_TEMPLATES".toList),
   ("CSIDL_WINDOWS".toList, "CSIDL_WINDOWS".toList)]

/-- The `if ... else if ...` chain of `get_clsid` from some test on: the first test
that succeeds decides; `return -1` after the last.  The `CSIDL_` constants are
declared in a Windows header; `csidl` gives the value of the constant of each
name. -/
def get_clsid_chain (csidl : CStr → Int) (clsid : CStr) : List (CStr × CStr) → Int
  | [] => -1
  | (name, constant) :: rest =>
    if clsid = name then csidl constant else get_clsid_chain csidl clsid rest

/-- The function `get_clsid (clsid)`; `none` is the NULL pointer. -/
def get_clsid (csidl : CStr → Int) : Option CStr → Int
  | none => -1
  | some clsid => get_clsid_chain csidl clsid clsid_table

/-! ## Vocabulary of the statements -/

/-- The comma-separated list naming the paths `p1, ..., pn`. -/
def join_commas : List CStr → CStr
  | [] => []
  | [p] => p
  | p :: q :: ps => p ++ ',' :: join_commas (q :: ps)

/-- Running the single-target delete on each path once, from left to right, whatever
the earlier outcomes: the outcomes in order and the final state. -/
def run_targets {σ : Type} (del : CStr → Bool → σ → Int × σ) (emptyOnly : Bool) :
    List CStr → σ → List Int × σ
  | [], st => ([], st)
  | p :: ps, st =>
    match del p emptyOnly st with
    | (r, st') =>
      match run_targets del emptyOnly ps st' with
      | (rs, st'') => (r :: rs, st'')

mutual
/-- The non-directory entries at or below a node, each with its path (the names
from the root of the tree), its kind and its `unlink` outcome, in enumeration
order. -/
def Node.leaves (path : List CStr) : Node → List (List CStr × LeafKind × Bool)
  | .leaf kind unlinkOk => [(path, kind, unlinkOk)]
  | .dir _ _ entries => Entries.leaves path entries
/-- The non-directory entries below a list of entries found at `path`. -/
def Entries.leaves (path : List CStr) : Entries → List (List CStr × LeafKind × Bool)
  | .nil => []
  | .cons name _ node rest => Node.leaves (path ++ [name]) node ++ Entries.leaves path rest
end

/-- The non-directory entries left at a path that may have become empty. -/
def leaves_left (path : List CStr) : Option Node → List (List CStr × LeafKind × Bool)
  | none => []
  | some n => Node.leaves path n

mutual
/-- No system call made on the tree fails: every directory can be opened and,
once empty, removed; every entry can be examined with `lstat`; every
non-directory can be unlinked. -/
def Node.all_ok : Node → Bool
  | .leaf _ unlinkOk => unlinkOk
  | .dir openOk rmdirOk entries => openOk && rmdirOk && Entries.all_ok entries
/-- The same for a list of entries. -/
def Entries.all_ok : Entries → Bool
  | .nil => true
  | .cons _ statOk node rest => statOk && Node.all_ok node && Entries.all_ok rest
end

mutual
/-- No `unlink` and no removal of an emptied directory fails on the tree (whether
the directories can be opened and the entries examined is left open). -/
def Node.removals_ok : Node → Bool
  | .leaf _ unlinkOk => unlinkOk
  | .dir _ rmdirOk entries => rmdirOk && Entries.removals_ok entries
/-- The same for a list of entries. -/
def Entries.removals_ok : Entries → Bool
  | .nil => true
  | .cons _ _ node rest => Node.removals_ok node && Entries.removals_ok rest
end

/-- A string with its leading and trailing double-quote, space and tab
characters removed and nothing else changed. -/
def strip_pad (s : CStr) : CStr :=
  (s.dropWhile is_pad).rdropWhile is_pad

/-- The outcome of looking for `name` in a vector from its first entry on: the
first entry equal to `name` decides. -/
def scan_args (name : CStr) (wantArgument : Bool) : List CStr → Outcome
  | [] => .absent
  | arg :: rest =>
    if name = arg then
      if wantArgument then
        match rest with
        | [] => .missing_argument
        | value :: _ =>
          match trim_argument value with
          | none => .out_of_bounds
          | some t => .ok (some t)
      else .ok none
    else scan_args name wantArgument rest

/-- The fields of a record: the pieces between its commas, from left to right
(one more piece than there are commas). -/
def split_commas : CStr → List CStr
  | [] => [[]]
  | c :: cs =>
    if c = ',' then [] :: split_commas cs
    else
      match split_commas cs with
      | [] => [[c]]
      | field :: fields => (c :: field) :: fields

/-- The paths a comma-separated list names: its non-empty fields, in order. -/
def named_paths (directories : CStr) : List CStr :=
  (split_commas directories).filter (fun p => !p.isEmpty)

/-- The entries one line of an options file contributes (the line is given
without its newline): the line itself when it holds no blank or tab, otherwise
the text before the first blank or tab and the text after the run of blanks
and tabs that starts there. -/
def line_entries (line : CStr) : List CStr :=
  match strpbrk [' ', Char.ofNat 9] line with
  | none => [line]
  | some (flag, sp) => [flag, sp.dropWhile (fun c => c == ' ' || c == Char.ofNat 9)]

/-- The entries of a sequence of lines, in file order. -/
def all_entries : List CStr → List CStr
  | [] => []
  | line :: lines => line_entries line ++ all_entries lines

/-- The text of a file: each of `lines` followed by a newline, then `last`, the
text after the final newline (empty when the file ends with a newline). -/
def file_text : List CStr → CStr → List Char
  | [], last => last
  | line :: lines, last => line ++ Char.ofNat 10 :: file_text lines last

/-- The lines of such a file: `lines`, and `last` when it is not empty. -/
def file_lines (lines : List CStr) (last : CStr) : List CStr :=
  lines ++ (if last = [] then [] else [last])

/-- The entries the bytes of one `fgets` contribute: those of the C string they
hold, without its final newline; `none` when that C string is empty, where the
code reads the byte before its buffer. -/
def buffer_entries (bytes : List Char) : Option (List CStr) :=
  if (c_string bytes).length = 0 then none
  else some (line_entries
    (if (c_string bytes)[(c_string bytes).length - 1]? = some (Char.ofNat 10)
      then (c_string bytes).take ((c_string bytes).length - 1) else c_string bytes))

/-- The entries a line of a file contributes (the line is given without its
newline): those of the line up to its first NUL byte, if it holds one; `none`
when the line starts with a NUL byte. -/
def entries_of_line (line : List Char) : Option (List CStr) :=
  if line.head? = some (Char.ofNat 0) then none else some (line_entries (c_string line))

/-- One load followed by another: the entries of both in order, or `none` as
soon as one of them is `none`. -/
def then_entries : Option (List CStr) → Option (List CStr) → Option (List CStr)
  | some a, some b => some (a ++ b)
  | _, _ => none

/-- The entries the second loop of `read_file_options` appends, by themselves:
`parse_options fuel fp` is what `read_options fuel fp` adds to its accumulator;
`none` when a read outside the buffer occurs. -/
def parse_options : Nat → List Char → Option (List CStr)
  | 0, _ => some []
  | fuel + 1, fp =>
    match fgets 2048 fp with
    | none => some []
    | some (bytes, fp') => then_entries (buffer_entries bytes) (parse_options fuel fp')

/-- The argument vector loaded from a file with the given bytes; `none` when
loading it reads outside the buffer. -/
def loaded_entries (text : List Char) : Option (List CStr) :=
  parse_options (text.length + 1) text

/-- What `read_file_options` comes to on a file that opens, given what it loads:
it returns 0 with the entries as `fargv` and their number as `fargc`. -/
def Loaded.of_entries : Option (List CStr) → Loaded
  | some fargv => .returned 0 ⟨fargv, fargv.length⟩
  | none => .out_of_bounds

/-- One list of entries followed by another, in enumeration order. -/
def Entries.append : Entries → Entries → Entries
  | .nil, tail => tail
  | .cons name statOk node rest, tail => .cons name statOk node (Entries.append rest tail)

/-- With `emptyOnly` unset, every entry of the list is dealt with without a
failure: its `lstat` fails (the entry is skipped), or it is a non-directory
whose `unlink` succeeds, or it is a directory whose nested `delete_directory`
returns 0. -/
def Entries.passes : Entries → Bool
  | .nil => true
  | .cons _ statOk node rest =>
    (!statOk ||
      match node with
      | .leaf _ unlinkOk => unlinkOk
      | .dir openOk rmdirOk entries =>
        (delete_directory false (.dir openOk rmdirOk entries)).1 == 0)
    && Entries.passes rest

/-- The entries whose `lstat` fails: the loop skips them, so they stay. -/
def Entries.skipped : Entries → Entries
  | .nil => .nil
  | .cons name statOk node rest =>
    if statOk then Entries.skipped rest else .cons name statOk node (Entries.skipped rest)

/-- The prefixes of a path that end just before a separator, shortest first;
`pre` is the text already read. -/
def separator_prefixes_from : CStr → CStr → List CStr
  | _, [] => []
  | pre, c :: cs =>
    if c = '/' then pre :: separator_prefixes_from (pre ++ [c]) cs
    else separator_prefixes_from (pre ++ [c]) cs

/-- The non-empty separator-delimited prefixes of a path, shortest first. -/
def path_prefixes (directory : CStr) : List CStr :=
  (separator_prefixes_from [] directory).filter (fun p => !p.isEmpty)

/-- Creating a directory unless the path exists: `mkdir` is called only when
`file_exists` says no. -/
def ensure_directory {σ : Type} (sys : PathSys σ) (p : CStr) (st : σ) : Int × σ :=
  if file_exists sys p st then (0, st) else sys.mkdir p st

/-- Running `ensure_directory` on each path in turn up to the first failure: the
path whose creation failed, if any, and the state reached. -/
def ensure_each {σ : Type} (sys : PathSys σ) : List CStr → σ → Option CStr × σ
  | [], st => (none, st)
  | p :: ps, st =>
    match ensure_directory sys p st with
    | (r, st') => if r ≠ 0 then (some p, st') else ensure_each sys ps st'

/-- A file system reduced to the texts of the paths that exist, with the record
of the `mkdir` calls made. -/
structure DirState where
  existing : List CStr
  attempts : List CStr
  deriving DecidableEq, Repr

/-- System calls on a `DirState`: `stat` succeeds on the listed paths; `mkdir`
is recorded, fails on the empty path, on a listed path and on the paths of
`deny`, and otherwise lists the path. -/
def dir_sys (deny : List CStr) : PathSys DirState where
  stat p st := if p ∈ st.existing then 0 else -1
  mkdir p st :=
    if p = [] ∨ p ∈ deny ∨ p ∈ st.existing then
      (-1, { st with attempts := st.attempts ++ [p] })
    else (0, { existing := st.existing ++ [p], attempts := st.attempts ++ [p] })

/-- An environment in which no call is made to fail and a path resolution may
take `budget` steps. -/
def Linked.plain_env (budget : Nat) : Linked.Env where
  budget := budget
  opendir_fails := fun _ => false
  lstat_fails := fun _ => false
  unlink_fails := fun _ => false
  rmdir_fails := fun _ => false

/-- The length of the longest path at which an object lies. -/
def Linked.depth : Linked.Store → Nat
  | [] => 0
  | e :: s => max e.1.length (Linked.depth s)

/-- A tree `/t` holding a link `l` to the directory `/v`, a file `g` and a directory
`d` with a file `h`; outside it the directory `/v` with a file `f`. -/
def Linked.linked_tree : Linked.Store :=
  [(["t".toList], .dir),
   (["t".toList, "l".toList], .link ["v".toList]),
   (["t".toList, "g".toList], .file),
   (["t".toList, "d".toList], .dir),
   (["t".toList, "d".toList, "h".toList], .file),
   (["v".toList], .dir),
   (["v".toList, "f".toList], .file)]

/-- A file system reduced to the texts of the paths that exist, each with whether
it is a directory (`true`) or a regular file (`false`). -/
abbrev FileState := List (CStr × Bool)

/-- What lies at a path: `none` when nothing does. -/
def kind_of : FileState → CStr → Option Bool
  | [], _ => none
  | (q, k) :: st, p => if q = p then some k else kind_of st p

/-- The text of a path before its last separator (empty when it has none). -/
def parent_path (p : CStr) : CStr :=
  ((p.reverse.dropWhile (fun c => c != '/')).drop 1).reverse

/-- System calls on a `FileState`: `stat` succeeds on whatever exists, file or
directory; `mkdir` fails on the empty path, on a path that exists, and when the
parent path is not empty and no directory lies at it; otherwise it adds the
path as a directory. -/
def file_sys : PathSys FileState where
  stat p st := if (kind_of st p).isSome then 0 else -1
  mkdir p st :=
    if p = [] ∨ (kind_of st p).isSome = true
        ∨ (parent_path p ≠ [] ∧ kind_of st (parent_path p) ≠ some true) then (-1, st)
    else (0, st ++ [(p, true)])

/-- The folder names that appear in the table of `get_clsid`. -/
def clsid_names : List CStr :=
  clsid_table.map Prod.fst

/-! # Theorems -/

/-! ## strpbrk and strtok on comma-separated lists -/

theorem strpbrk_none_of_not_mem (accept : List Char) (p : CStr)
    (h : ∀ c ∈ p, c ∉ accept) : strpbrk accept p = none := by
  induction p with
  | nil => rfl
  | cons c cs ih =>
    have hc : c ∉ accept := h c (List.mem_cons_self _ _)
    have hcs : ∀ d ∈ cs, d ∉ accept := fun d hd => h d (List.mem_cons_of_mem _ hd)
    simp [strpbrk, hc, ih hcs]

theorem strpbrk_append_of_not_mem (accept : List Char) (p : CStr) (d : Char) (rest : CStr)
    (h : ∀ c ∈ p, c ∉ accept) (hd : d ∈ accept) :
    strpbrk accept (p ++ d :: rest) = some (p, d :: rest) := by
  induction p with
  | nil => simp [strpbrk, hd]
  | cons c cs ih =>
    have hc : c ∉ accept := h c (List.mem_cons_self _ _)
    have hcs : ∀ e ∈ cs, e ∉ accept := fun e he => h e (List.mem_cons_of_mem _ he)
    simp [strpbrk, hc, ih hcs]

theorem strpbrk_comma_none (r : CStr) (h : strpbrk [','] r = none) : split_commas r = [r] := by
  induction r with
  | nil => rfl
  | cons c cs ih =>
    by_cases hc : c = ','
    · simp [strpbrk, hc] at h
    · have hc' : c ∉ [','] := by simpa using hc
      simp only [strpbrk, hc', if_false] at h
      cases hs : strpbrk [','] cs with
      | none => simp [split_commas, hc, ih hs]
      | some p => rw [hs] at h; simp at h

theorem strpbrk_comma_some (r pre suf : CStr) (h : strpbrk [','] r = some (pre, suf)) :
    r = pre ++ suf ∧ ',' ∉ pre ∧ suf = ',' :: suf.tail
      ∧ split_commas r = pre :: split_commas suf.tail := by
  induction r generalizing pre with
  | nil => simp [strpbrk] at h
  | cons c cs ih =>
    by_cases hc : c = ','
    · subst hc
      simp only [strpbrk, List.mem_singleton, if_true, Option.some.injEq, Prod.mk.injEq] at h
      obtain ⟨rfl, rfl⟩ := h
      simp [split_commas]
    · have hc' : c ∉ [','] := by simpa using hc
      simp only [strpbrk, hc', if_false] at h
      cases hs : strpbrk [','] cs with
      | none => rw [hs] at h; simp at h
      | some p =>
        obtain ⟨pre', suf'⟩ := p
        rw [hs] at h
        simp only [Option.some.injEq, Prod.mk.injEq] at h
        obtain ⟨rfl, rfl⟩ := h
        obtain ⟨h1, h2, h3, h4⟩ := ih pre' hs
        refine ⟨by rw [h1]; simp, ?_, h3, ?_⟩
        · intro hm
          rcases List.mem_cons.mp hm with e | m
          · exact hc e.symm
          · exact h2 m
        · simp [split_commas, hc, h4]

theorem length_split_commas (r : CStr) : (split_commas r).length = r.count ',' + 1 := by
  induction r with
  | nil => rfl
  | cons c cs ih =>
    by_cases hc : c = ','
    · subst hc
      simp [split_commas, ih]
    · have hc' : (c == ',') = false := by simpa using hc
      cases hs : split_commas cs with
      | nil => rw [hs] at ih; simp at ih
      | cons f fs =>
        rw [hs] at ih
        simp only [List.length_cons] at ih
        simp [split_commas, hc, hs, List.count_cons, hc']
        omega

theorem not_mem_split_commas (r : CStr) : ∀ f ∈ split_commas r, ',' ∉ f := by
  induction r with
  | nil => simp [split_commas]
  | cons c cs ih =>
    by_cases hc : c = ','
    · subst hc
      intro f hf
      simp only [split_commas, if_true, List.mem_cons] at hf
      rcases hf with rfl | hf
      · simp
      · exact ih f hf
    · cases hs : split_commas cs with
      | nil => simp [split_commas, hc, hs, Ne.symm hc]
      | cons g gs =>
        rw [hs] at ih
        intro f hf
        simp only [split_commas, hc, if_false, hs, List.mem_cons] at hf
        rcases hf with rfl | hf
        · intro hm
          rcases List.mem_cons.mp hm with e | m
          · exact hc e.symm
          · exact ih g (List.mem_cons_self _ _) m
        · exact ih f (List.mem_cons_of_mem _ hf)

theorem join_commas_split_commas (r : CStr) : join_commas (split_commas r) = r := by
  induction r with
  | nil => rfl
  | cons c cs ih =>
    by_cases hc : c = ','
    · subst hc
      cases hs : split_commas cs with
      | nil =>
        have := length_split_commas cs
        rw [hs] at this
        simp at this
      | cons g gs =>
        rw [hs] at ih
        simp [split_commas, hs, join_commas, ih]
    · cases hs : split_commas cs with
      | nil =>
        have := length_split_commas cs
        rw [hs] at this
        simp at this
      | cons g gs =>
        rw [hs] at ih
        cases gs with
        | nil =>
          simp only [join_commas] at ih
          simp [split_commas, hc, hs, join_commas, ih]
        | cons g' gs' =>
          simp only [join_commas] at ih
          simp [split_commas, hc, hs, join_commas, ih]

theorem named_paths_nil : named_paths [] = [] := rfl

theorem named_paths_comma (cs : CStr) : named_paths (',' :: cs) = named_paths cs := by
  simp [named_paths, split_commas, List.filter]

theorem named_paths_skip_delims (s : CStr) :
    named_paths (skip_delims [','] s) = named_paths s := by
  induction s with
  | nil => rfl
  | cons c cs ih =>
    by_cases hc : c = ','
    · subst hc
      simp [skip_delims, ih, named_paths_comma]
    · simp [skip_delims, hc]

theorem skip_delims_head_not_mem (delim : List Char) (s : CStr) (c : Char) (cs : CStr)
    (h : skip_delims delim s = c :: cs) : c ∉ delim := by
  induction s with
  | nil => simp [skip_delims] at h
  | cons d ds ih =>
    by_cases hd : d ∈ delim
    · simp only [skip_delims, hd, if_true] at h
      exact ih h
    · simp only [skip_delims, hd, if_false, List.cons.injEq] at h
      exact h.1 ▸ hd

theorem length_skip_delims_le (s : CStr) : (skip_delims [','] s).length ≤ s.length := by
  induction s with
  | nil => simp [skip_delims]
  | cons c cs ih =>
    by_cases hc : c ∈ [',']
    · simp only [skip_delims, hc, if_true, List.length_cons]
      omega
    · simp only [skip_delims, hc, if_false, List.length_cons]
      omega

/-- What `strtok` returns on any text: `NULL` when the text names no path,
otherwise the first named path, with the cursor on a shorter text that names
the remaining paths. -/
theorem strtok_named_paths (str : Option CStr) (save src : CStr)
    (hsrc : (match str with | some s => s | none => save) = src) :
    (named_paths src = [] ∧ strtok str [','] save = (none, []))
    ∨ ∃ p save', strtok str [','] save = (some p, save')
        ∧ named_paths src = p :: named_paths save' ∧ save'.length < src.length := by
  unfold strtok
  rw [hsrc]
  have hlen := length_skip_delims_le src
  have hnp := named_paths_skip_delims src
  cases hskip : skip_delims [','] src with
  | nil =>
    left
    rw [hskip] at hnp
    exact ⟨hnp.symm.trans named_paths_nil, rfl⟩
  | cons c cs =>
    right
    rw [hskip] at hnp hlen
    have hcd : c ∉ [','] := skip_delims_head_not_mem _ _ _ _ hskip
    cases hs : strpbrk [','] (c :: cs) with
    | none =>
      refine ⟨c :: cs, [], by simp only [hs], ?_, by simp at hlen ⊢; omega⟩
      rw [← hnp]
      simp [named_paths, strpbrk_comma_none _ hs, List.filter]
    | some p =>
      obtain ⟨pre, suf⟩ := p
      obtain ⟨h1, -, h3, h4⟩ := strpbrk_comma_some _ pre suf hs
      have hpre : pre ≠ [] := by
        intro hnil
        subst hnil
        rw [h3] at h1
        simp only [List.nil_append, List.cons.injEq] at h1
        exact hcd (by simp [h1.1])
      refine ⟨pre, suf.tail, by simp only [hs], ?_, ?_⟩
      · rw [← hnp]
        obtain ⟨x, xs, rfl⟩ := List.exists_cons_of_ne_nil hpre
        simp [named_paths, h4, List.filter]
      · have : (c :: cs).length = pre.length + (suf.tail.length + 1) := by
          rw [h1, h3]
          simp
        have hp : 0 < pre.length := List.length_pos.mpr hpre
        omega

/-- The loop of `delete_directories`, holding a token and with its cursor on any
text, runs the delete on that token and then on every path the text names. -/
theorem delete_directories_loop_named {σ : Type} (del : CStr → Bool → σ → Int × σ)
    (emptyOnly : Bool) :
    ∀ (fuel : Nat) (p save : CStr) (result : Int) (st : σ), save.length + 2 ≤ fuel →
      delete_directories_loop del emptyOnly fuel (some p) save result st
        = some (if (run_targets del emptyOnly (p :: named_paths save) st).1.all (fun r => r == 0)
                  then result else -1,
                (run_targets del emptyOnly (p :: named_paths save) st).2) := by
  intro fuel
  induction fuel with
  | zero => intro p save result st h; omega
  | succ fuel ih =>
    intro p save result st hf
    rcases strtok_named_paths none save save rfl with ⟨hnil, htok⟩ | ⟨q, save', htok, hcons, hlt⟩
    · obtain ⟨f, rfl⟩ : ∃ f, fuel = f + 1 := ⟨fuel - 1, by omega⟩
      simp only [delete_directories_loop, htok, hnil, run_targets]
      by_cases hr : (del p emptyOnly st).1 = 0
      · simp [hr]
      · simp [hr]
    · simp only [delete_directories_loop, htok]
      rw [ih q save' _ _ (by omega), hcons]
      simp only [run_targets]
      by_cases hr : (del p emptyOnly st).1 = 0
      · simp [hr]
      · simp [hr]

/-- The function `delete_directories` on any text runs the delete on every path the text
names, in order, and fails exactly when one of them failed. -/
theorem delete_directories_named {σ : Type} (del : CStr → Bool → σ → Int × σ)
    (emptyOnly : Bool) (directories : CStr) (st : σ) :
    delete_directories del directories emptyOnly st
      = some (if (run_targets del emptyOnly (named_paths directories) st).1.all
                  (fun r => r == 0) then 0 else -1,
              (run_targets del emptyOnly (named_paths directories) st).2) := by
  unfold delete_directories
  rcases strtok_named_paths (some directories) [] directories rfl with
    ⟨hnil, htok⟩ | ⟨q, save', htok, hcons, hlt⟩
  · simp [htok, hnil, delete_directories_loop, run_targets]
  · simp only [htok]
    rw [delete_directories_loop_named del emptyOnly _ q save' 0 st (by omega), hcons]

theorem named_paths_join_commas (ps : List CStr) (hps : ∀ p ∈ ps, p ≠ [] ∧ ',' ∉ p) :
    named_paths (join_commas ps) = ps := by
  match ps, hps with
  | [], _ => rfl
  | [p], hps =>
    obtain ⟨hne, hc⟩ := hps p (List.mem_singleton_self p)
    have hs : strpbrk [','] p = none :=
      strpbrk_none_of_not_mem _ _ (fun d hd h => hc (by simp at h; exact h ▸ hd))
    obtain ⟨x, xs, rfl⟩ := List.exists_cons_of_ne_nil hne
    simp [named_paths, join_commas, strpbrk_comma_none _ hs, List.filter]
  | p :: q :: ps, hps =>
    obtain ⟨hne, hc⟩ := hps p (List.mem_cons_self _ _)
    have ih := named_paths_join_commas (q :: ps) (fun x hx => hps x (List.mem_cons_of_mem _ hx))
    have hs : strpbrk [','] (p ++ ',' :: join_commas (q :: ps))
        = some (p, ',' :: join_commas (q :: ps)) :=
      strpbrk_append_of_not_mem _ p ',' _ (fun d hd h => hc (by simp at h; exact h ▸ hd))
        (List.mem_singleton_self _)
    obtain ⟨-, -, -, h4⟩ := strpbrk_comma_some _ _ _ hs
    obtain ⟨x, xs, rfl⟩ := List.exists_cons_of_ne_nil hne
    simp only [named_paths] at ih
    simp only [named_paths, join_commas, h4, List.tail_cons, List.filter, List.isEmpty_cons,
      Bool.not_false, ih]

theorem run_targets_log (outcome : CStr → Int) (emptyOnly : Bool) (ps : List CStr) :
    ∀ log : List CStr,
      run_targets (fun p _ (log : List CStr) => (outcome p, log ++ [p])) emptyOnly ps log
        = (ps.map outcome, log ++ ps) := by
  induction ps with
  | nil => intro log; simp [run_targets]
  | cons p ps ih => intro log; simp [run_targets, ih]

/-! ## C1 -/

/-- C1: for every single-target delete (any outcomes, any effect on the state)
and every text, `delete_directories` returns, its final state is the one obtained
by running the delete once on each path the text names, from left to right
and whatever the earlier outcomes, and it returns 0 when every outcome was 0
and -1 otherwise.  In particular for the comma-separated list naming the
non-empty, comma-free paths `p1, ..., pn` the delete runs on `p1, ..., pn`: with
a delete that only records its argument, the record is exactly
`p1, ..., pn`. -/
theorem delete_directories_runs_every_target {σ : Type} (del : CStr → Bool → σ → Int × σ)
    (emptyOnly : Bool) (st : σ) :
    (∀ directories : CStr,
      delete_directories del directories emptyOnly st
        = some (if (run_targets del emptyOnly (named_paths directories) st).1.all
                    (fun r => r == 0) then 0 else -1,
                (run_targets del emptyOnly (named_paths directories) st).2))
    ∧ (∀ ps : List CStr, (∀ p ∈ ps, p ≠ [] ∧ ',' ∉ p) →
        delete_directories del (join_commas ps) emptyOnly st
            = some (if (run_targets del emptyOnly ps st).1.all (fun r => r == 0) then 0 else -1,
                    (run_targets del emptyOnly ps st).2)
        ∧ ∀ outcome : CStr → Int,
            delete_directories (fun p _ (log : List CStr) => (outcome p, log ++ [p]))
                (join_commas ps) emptyOnly []
              = some (if ps.all (fun p => outcome p == 0) then 0 else -1, ps)) := by
  refine ⟨fun directories => delete_directories_named del emptyOnly directories st, ?_⟩
  intro ps hps
  constructor
  · rw [delete_directories_named, named_paths_join_commas ps hps]
  · intro outcome
    rw [delete_directories_named, named_paths_join_commas ps hps, run_targets_log]
    simp [List.all_map, Function.comp_def]

/-- C1 at the list `/a,/b,/c` where the delete of `/b` fails: all three
targets are visited in order and the call fails. -/
theorem delete_directories_runs_every_target_witness :
    (∀ p ∈ ["/a".toList, "/b".toList, "/c".toList], p ≠ [] ∧ ',' ∉ p)
    ∧ delete_directories
        (fun p _ (log : List CStr) => ((if p = "/b".toList then -1 else 0 : Int), log ++ [p]))
        (join_commas ["/a".toList, "/b".toList, "/c".toList]) false []
      = some (-1, ["/a".toList, "/b".toList, "/c".toList]) :=
  ⟨by decide,
   ((delete_directories_runs_every_target
      (fun p _ (log : List CStr) => ((if p = "/b".toList then -1 else 0 : Int), log ++ [p]))
      false []).2 ["/a".toList, "/b".toList, "/c".toList] (by decide)).1.trans (by decide)⟩

/-! ## delete_directory with emptyOnly set -/

theorem rmdir_cases (openOk rmdirOk : Bool) (entries : Entries) :
    rmdir openOk rmdirOk entries = (0, none) ∧ entries = .nil
    ∨ rmdir openOk rmdirOk entries = (-1, some (.dir openOk rmdirOk entries)) := by
  cases entries with
  | nil => cases rmdirOk <;> simp [rmdir]
  | cons name statOk n rest => simp [rmdir]

mutual
/-- With `emptyOnly` set, a call of `delete_directory` returns 0 or -1, leaves
either nothing or a directory with the same flags, and keeps every
non-directory entry. -/
theorem delete_directory_emptyOnly_inv (path : List CStr) :
    ∀ n : Node,
      ((delete_directory true n).1 = 0 ∨ (delete_directory true n).1 = -1)
      ∧ leaves_left path (delete_directory true n).2 = Node.leaves path n
      ∧ (∀ openOk rmdirOk entries, n = .dir openOk rmdirOk entries →
          (delete_directory true n).2 ≠ none →
          (delete_directory true n).1 = -1
          ∧ ∃ entries', (delete_directory true n).2 = some (.dir openOk rmdirOk entries'))
  | .leaf kind unlinkOk => by
    simp [delete_directory, leaves_left]
  | .dir openOk rmdirOk entries => by
    have ih := delete_directory_loop_emptyOnly_inv path entries
    cases openOk with
    | false => simp [delete_directory, leaves_left]
    | true =>
      simp only [delete_directory, if_true]
      rcases ih with ⟨hres, hleaves⟩
      rcases hres with h0 | h1
      · simp only [h0, if_true]
        rcases rmdir_cases true rmdirOk (delete_directory_loop true entries).2 with ⟨hr, he⟩ | hr
        · rw [hr]
          refine ⟨Or.inl rfl, ?_, ?_⟩
          · rw [he] at hleaves
            simpa [leaves_left, Node.leaves, Entries.leaves] using hleaves
          · intro _ _ _ _ hne
            exact absurd rfl hne
        · rw [hr]
          refine ⟨Or.inr rfl, ?_, ?_⟩
          · simpa [leaves_left, Node.leaves] using hleaves
          · intro o r es hn _
            cases hn
            exact ⟨rfl, _, rfl⟩
      · have hne : ¬ (delete_directory_loop true entries).1 = 0 := by rw [h1]; decide
        simp only [hne, if_false]
        refine ⟨Or.inr h1, ?_, ?_⟩
        · simpa [leaves_left, Node.leaves] using hleaves
        · intro o r es hn _
          cases hn
          exact ⟨h1, _, rfl⟩
/-- With `emptyOnly` set, the entry loop ends with `result` 0 or -1 and keeps
every non-directory entry. -/
theorem delete_directory_loop_emptyOnly_inv (path : List CStr) :
    ∀ es : Entries,
      ((delete_directory_loop true es).1 = 0 ∨ (delete_directory_loop true es).1 = -1)
      ∧ Entries.leaves path (delete_directory_loop true es).2 = Entries.leaves path es
  | .nil => by simp [delete_directory_loop]
  | .cons name statOk node rest => by
    have ihr := delete_directory_loop_emptyOnly_inv path rest
    cases statOk with
    | false =>
      simp only [delete_directory_loop, Bool.false_eq_true, if_false]
      exact ⟨ihr.1, by simp [Entries.leaves, ihr.2]⟩
    | true =>
      cases node with
      | leaf kind unlinkOk => simp [delete_directory_loop]
      | dir openOk rmdirOk entries =>
        have ihn := delete_directory_emptyOnly_inv (path ++ [name]) (.dir openOk rmdirOk entries)
        simp only [delete_directory_loop, if_true]
        rcases ihn with ⟨hres, hleaves, -⟩
        by_cases h0 : (delete_directory true (.dir openOk rmdirOk entries)).1 = 0
        · simp only [h0, ne_eq, not_true_eq_false, if_false]
          refine ⟨ihr.1, ?_⟩
          cases hleft : (delete_directory true (.dir openOk rmdirOk entries)).2 with
          | none =>
            rw [hleft] at hleaves
            simp only [Entries.put, Entries.leaves, ihr.2]
            rw [← hleaves]; simp [leaves_left]
          | some n' =>
            rw [hleft] at hleaves
            simp only [Entries.put, Entries.leaves, ihr.2]
            rw [← hleaves]; simp [leaves_left]
        · simp only [h0, ne_eq, not_false_eq_true, if_true]
          refine ⟨by simp, ?_⟩
          cases hleft : (delete_directory true (.dir openOk rmdirOk entries)).2 with
          | none =>
            rw [hleft] at hleaves
            simp only [Entries.put, Entries.leaves]
            rw [← hleaves]; simp [leaves_left]
          | some n' =>
            rw [hleft] at hleaves
            simp only [Entries.put, Entries.leaves]
            rw [← hleaves]; simp [leaves_left]
end

/-! ## C2 -/

/-- C2: for every directory that contains at least one non-directory entry
(file, symlink or special), directly or nested, and whatever the outcomes of
the system calls, `delete_directory (dir, 1)` returns -1, the directory is
still there, and the non-directory entries below it are exactly those from
before the call; when its only entry is one non-directory, the directory is
left exactly as it was. -/
theorem delete_directory_emptyOnly_keeps_files (openOk rmdirOk : Bool) (entries : Entries)
    (h : Entries.leaves [] entries ≠ []) :
    (∃ entries', delete_directory true (.dir openOk rmdirOk entries)
          = (-1, some (.dir openOk rmdirOk entries'))
        ∧ Entries.leaves [] entries' = Entries.leaves [] entries)
    ∧ (∀ name statOk kind unlinkOk, entries = .cons name statOk (.leaf kind unlinkOk) .nil →
        delete_directory true (.dir openOk rmdirOk entries)
          = (-1, some (.dir openOk rmdirOk entries))) := by
  constructor
  · obtain ⟨-, hleaves, hdir⟩ :=
      delete_directory_emptyOnly_inv [] (.dir openOk rmdirOk entries)
    have hne : (delete_directory true (.dir openOk rmdirOk entries)).2 ≠ none := by
      intro hnone
      rw [hnone] at hleaves
      exact h (by simpa [leaves_left, Node.leaves] using hleaves.symm)
    obtain ⟨h1, entries', h2⟩ := hdir openOk rmdirOk entries rfl hne
    refine ⟨entries', Prod.ext h1 h2, ?_⟩
    rw [h2] at hleaves
    simpa [leaves_left, Node.leaves] using hleaves
  · rintro name statOk kind unlinkOk rfl
    cases openOk <;> cases statOk <;> cases rmdirOk <;>
      simp [delete_directory, delete_directory_loop, rmdir]

/-- C2 on `dir/{empty/, sub/{f}, g}`: the hypothesis holds and the call fails
keeping `sub/f` and `g`. -/
theorem delete_directory_emptyOnly_keeps_files_witness :
    Entries.leaves []
        (.cons "empty".toList true (.dir true true .nil)
          (.cons "sub".toList true
            (.dir true true (.cons "f".toList true (.leaf .regular true) .nil))
            (.cons "g".toList true (.leaf .symlink true) .nil))) ≠ []
    ∧ (∃ entries', delete_directory true (.dir true true
          (.cons "empty".toList true (.dir true true .nil)
            (.cons "sub".toList true
              (.dir true true (.cons "f".toList true (.leaf .regular true) .nil))
              (.cons "g".toList true (.leaf .symlink true) .nil))))
          = (-1, some (.dir true true entries'))
        ∧ Entries.leaves [] entries' = Entries.leaves []
          (.cons "empty".toList true (.dir true true .nil)
            (.cons "sub".toList true
              (.dir true true (.cons "f".toList true (.leaf .regular true) .nil))
              (.cons "g".toList true (.leaf .symlink true) .nil)))) :=
  ⟨by decide, (delete_directory_emptyOnly_keeps_files true true _ (by decide)).1⟩

/-! ## C3 -/

mutual
/-- Without `emptyOnly`, on a tree where no system call fails, `delete_directory`
on a directory returns 0 and leaves nothing. -/
theorem delete_directory_all_ok :
    ∀ n : Node, Node.all_ok n = true →
      ∀ openOk rmdirOk entries, n = .dir openOk rmdirOk entries →
        delete_directory false n = (0, none)
  | .leaf kind unlinkOk => by
    intro _ _ _ _ hn
    cases hn
  | .dir openOk rmdirOk entries => by
    intro hok _ _ _ _
    simp only [Node.all_ok, Bool.and_eq_true] at hok
    obtain ⟨⟨ho, hr⟩, he⟩ := hok
    have ih := delete_directory_loop_all_ok entries he
    subst ho; subst hr
    simp [delete_directory, ih, rmdir]
/-- Without `emptyOnly`, on entries where no system call fails, the loop ends
with `result` 0 and no entry left. -/
theorem delete_directory_loop_all_ok :
    ∀ es : Entries, Entries.all_ok es = true → delete_directory_loop false es = (0, .nil)
  | .nil => by
    intro _
    simp [delete_directory_loop]
  | .cons name statOk node rest => by
    intro hok
    simp only [Entries.all_ok, Bool.and_eq_true] at hok
    obtain ⟨⟨hs, hn⟩, hrest⟩ := hok
    have ihr := delete_directory_loop_all_ok rest hrest
    subst hs
    cases node with
    | leaf kind unlinkOk =>
      simp only [Node.all_ok] at hn
      subst hn
      simp [delete_directory_loop, ihr]
    | dir openOk rmdirOk entries =>
      have ihn := delete_directory_all_ok (.dir openOk rmdirOk entries) hn _ _ _ rfl
      simp [delete_directory_loop, ihn, ihr, Entries.put]
end

mutual
/-- Without `emptyOnly`, a call that returns 0 met no failing system call. -/
theorem all_ok_of_delete_directory :
    ∀ n : Node, (delete_directory false n).1 = 0 → Node.all_ok n = true
  | .leaf kind unlinkOk => by
    intro h
    simp [delete_directory] at h
  | .dir openOk rmdirOk entries => by
    intro h
    have ih := all_ok_of_delete_directory_loop entries
    cases openOk with
    | false => simp [delete_directory] at h
    | true =>
      simp only [delete_directory, if_true] at h
      by_cases h0 : (delete_directory_loop false entries).1 = 0
      · simp only [h0, if_true] at h
        cases hes : (delete_directory_loop false entries).2 with
        | nil =>
          rw [hes] at h
          cases rmdirOk with
          | false => simp [rmdir] at h
          | true => simp [Node.all_ok, ih h0 hes]
        | cons name statOk n rest =>
          rw [hes] at h
          simp [rmdir] at h
      · simp only [h0, if_false] at h
/-- Without `emptyOnly`, a loop that ends with `result` 0 and no entry left met no
failing system call. -/
theorem all_ok_of_delete_directory_loop :
    ∀ es : Entries, (delete_directory_loop false es).1 = 0 →
      (delete_directory_loop false es).2 = .nil → Entries.all_ok es = true
  | .nil => by
    intro _ _
    rfl
  | .cons name statOk node rest => by
    intro h1 h2
    have ihr := all_ok_of_delete_directory_loop rest
    cases statOk with
    | false => simp [delete_directory_loop] at h2
    | true =>
      cases node with
      | leaf kind unlinkOk =>
        cases unlinkOk with
        | false => simp [delete_directory_loop] at h1
        | true =>
          simp only [delete_directory_loop, if_true, Bool.false_eq_true, if_false] at h1 h2
          simp [Entries.all_ok, Node.all_ok, ihr h1 h2]
      | dir openOk rmdirOk entries =>
        have ihn := all_ok_of_delete_directory (.dir openOk rmdirOk entries)
        simp only [delete_directory_loop, if_true] at h1 h2
        by_cases h0 : (delete_directory false (.dir openOk rmdirOk entries)).1 = 0
        · simp only [h0, ne_eq, not_true_eq_false, if_false] at h1 h2
          cases hleft : (delete_directory false (.dir openOk rmdirOk entries)).2 with
          | none =>
            rw [hleft] at h2
            simp only [Entries.put] at h2
            simp [Entries.all_ok, ihn h0, ihr h1 h2]
          | some n' =>
            rw [hleft] at h2
            simp [Entries.put] at h2
        · simp only [h0, ne_eq, not_false_eq_true, if_true] at h1
          simp at h1
end

/-- Without `emptyOnly`, `delete_directory` on a directory returns 0 with nothing
left exactly when no system call made on the tree fails. -/
theorem delete_directory_success_iff (openOk rmdirOk : Bool) (entries : Entries) :
    delete_directory false (.dir openOk rmdirOk entries) = (0, none)
      ↔ Node.all_ok (.dir openOk rmdirOk entries) = true :=
  ⟨fun h => all_ok_of_delete_directory _ (by rw [h]),
   fun h => delete_directory_all_ok _ h _ _ _ rfl⟩

/-- C3 as stated fails on `dir/{sub/}` when `sub` cannot be opened: no `unlink` and
no directory removal fails (none is even called), yet `delete_directory (dir, 0)`
returns -1 and the tree is left as it was.  It fails as well on `dir/{f}` when
`lstat` fails on `f`: the entry is skipped, no `unlink` is called, and the
directory, which may be removed once empty, is still there with `f` in it. -/
theorem delete_directory_unreadable_subdirectory :
    (Node.removals_ok
        (.dir true true (.cons "sub".toList true (.dir false true .nil) .nil)) = true
      ∧ delete_directory false
          (.dir true true (.cons "sub".toList true (.dir false true .nil) .nil))
        = (-1, some (.dir true true (.cons "sub".toList true (.dir false true .nil) .nil))))
    ∧ (Node.removals_ok
        (.dir true true (.cons "f".toList false (.leaf .regular true) .nil)) = true
      ∧ delete_directory false
          (.dir true true (.cons "f".toList false (.leaf .regular true) .nil))
        = (-1, some (.dir true true (.cons "f".toList false (.leaf .regular true) .nil)))) := by
  decide

/-- C3 (amended): for every finite directory tree in which no system call of the
deletion fails (every directory opens, every entry can be examined with
`lstat`, no `unlink` and no removal of an emptied directory fails),
`delete_directory (dir, 0)` returns, its return value is 0, and nothing is left at
the path: neither the directory nor any file or directory beneath it. -/
theorem delete_directory_removes_tree (openOk rmdirOk : Bool) (entries : Entries)
    (h : Node.all_ok (.dir openOk rmdirOk entries) = true) :
    delete_directory false (.dir openOk rmdirOk entries) = (0, none) :=
  delete_directory_all_ok _ h _ _ _ rfl

/-- C3 (amended) on `dir/{a, sub/{b, deep/{}}, c}`. -/
theorem delete_directory_removes_tree_witness :
    Node.all_ok (.dir true true
        (.cons "a".toList true (.leaf .regular true)
          (.cons "sub".toList true
            (.dir true true
              (.cons "b".toList true (.leaf .symlink true)
                (.cons "deep".toList true (.dir true true .nil) .nil)))
            (.cons "c".toList true (.leaf .special true) .nil)))) = true
    ∧ delete_directory false (.dir true true
        (.cons "a".toList true (.leaf .regular true)
          (.cons "sub".toList true
            (.dir true true
              (.cons "b".toList true (.leaf .symlink true)
                (.cons "deep".toList true (.dir true true .nil) .nil)))
            (.cons "c".toList true (.leaf .special true) .nil)))) = (0, none) :=
  ⟨by decide, delete_directory_removes_tree true true _ (by decide)⟩

/-! ## trim_argument -/

theorem trim_scan_append_singleton (l : CStr) (c : Char) :
    trim_scan (l.length + 1) (l ++ [c])
      = if is_pad c then trim_scan l.length l else some (l ++ [c]) := by
  simp [trim_scan]

/-- The trailing loop, run from the end of a buffer: out of bounds when every
character is a pad, otherwise the buffer without its trailing pad. -/
theorem trim_scan_eq (l : CStr) :
    trim_scan l.length l
      = if l.all is_pad then none else some (l.rdropWhile is_pad) := by
  induction l using List.reverseRecOn with
  | nil => simp [trim_scan]
  | append_singleton l c ih =>
    have hlen : (l ++ [c]).length = l.length + 1 := by simp
    rw [hlen, trim_scan_append_singleton]
    by_cases hc : is_pad c = true
    · simp only [hc, if_true, ih, List.all_append, List.all_cons, List.all_nil, Bool.and_true]
      rw [List.rdropWhile_concat_pos _ _ _ hc]
    · have hc' : is_pad c = false := by simpa using hc
      simp only [hc', Bool.false_eq_true, if_false, List.all_append, List.all_cons,
        Bool.false_and, Bool.and_false]
      rw [List.rdropWhile_concat_neg _ _ _ (by simp [hc'])]

/-- The function `trim_argument` reads out of bounds exactly on the strings made of pad
characters only (the empty string among them); on every other string it
returns the string stripped at both ends. -/
theorem trim_argument_eq (s : CStr) :
    trim_argument s = if s.all is_pad then none else some (strip_pad s) := by
  unfold trim_argument strip_pad
  simp only [trim_scan_eq]
  have h : (s.dropWhile is_pad).all is_pad = s.all is_pad := by
    induction s with
    | nil => rfl
    | cons c cs ih =>
      by_cases hc : is_pad c = true
      · simp [List.dropWhile, hc, ih]
      · have hc' : is_pad c = false := by simpa using hc
        simp [List.dropWhile, hc']
  rw [h]

/-! ## internal_get_option as a scan -/

theorem internal_get_option_loop_eq_scan (argv : List CStr) (name : CStr) (wantArgument : Bool) :
    ∀ (fuel index : Nat), index + fuel = argv.length →
      internal_get_option_loop argv argv.length name wantArgument fuel index
        = scan_args name wantArgument (argv.drop index) := by
  intro fuel
  induction fuel with
  | zero =>
    intro index h
    have : argv.drop index = [] := List.drop_eq_nil_of_le (by omega)
    simp [internal_get_option_loop, this, scan_args]
  | succ fuel ih =>
    intro index h
    have hlt : index < argv.length := by omega
    have hdrop : argv.drop index = argv[index] :: argv.drop (index + 1) :=
      List.drop_eq_getElem_cons hlt
    have hget : argv[index]? = some argv[index] := List.getElem?_eq_getElem hlt
    rw [hdrop]
    simp only [internal_get_option_loop, hget, scan_args]
    by_cases hname : name = argv[index]
    · simp only [hname, if_true]
      cases wantArgument with
      | false => simp
      | true =>
        by_cases hlast : index + 1 ≥ argv.length
        · have : argv.drop (index + 1) = [] := List.drop_eq_nil_of_le hlast
          simp [hlast, this]
        · have hlt' : index + 1 < argv.length := by omega
          have hdrop' : argv.drop (index + 1) = argv[index + 1] :: argv.drop (index + 1 + 1) :=
            List.drop_eq_getElem_cons hlt'
          have hget' : argv[index + 1]? = some argv[index + 1] := List.getElem?_eq_getElem hlt'
          rw [hdrop', hget']
          simp only [hlast, if_false, if_true]
    · simp only [hname, if_false]
      exact ih (index + 1) (by omega)

/-- On a vector of `argc` entries, `internal_get_option` is the scan of the
entries from `start` on. -/
theorem internal_get_option_eq_scan (argv : List CStr) (start : Nat) (name : CStr)
    (wantArgument : Bool) :
    internal_get_option argv argv.length start name wantArgument
      = scan_args name wantArgument (argv.drop start) := by
  unfold internal_get_option
  by_cases h : start ≤ argv.length
  · exact internal_get_option_loop_eq_scan argv name wantArgument _ _ (by omega)
  · have h0 : argv.length - start = 0 := by omega
    have : argv.drop start = [] := List.drop_eq_nil_of_le (by omega)
    simp [h0, this, internal_get_option_loop, scan_args]

theorem scan_args_absent (name : CStr) (wantArgument : Bool) (l : List CStr) (h : name ∉ l) :
    scan_args name wantArgument l = .absent := by
  induction l with
  | nil => rfl
  | cons a l ih =>
    have h1 : name ≠ a := fun e => h (e ▸ List.mem_cons_self _ _)
    have h2 : name ∉ l := fun m => h (List.mem_cons_of_mem _ m)
    simp [scan_args, h1, ih h2]

theorem scan_args_first (name : CStr) (wantArgument : Bool) (a post : List CStr)
    (h : name ∉ a) :
    scan_args name wantArgument (a ++ name :: post)
      = scan_args name wantArgument (name :: post) := by
  induction a with
  | nil => rfl
  | cons x a ih =>
    have h1 : name ≠ x := fun e => h (e ▸ List.mem_cons_self _ _)
    have h2 : name ∉ a := fun m => h (List.mem_cons_of_mem _ m)
    simp [scan_args, h1, ih h2]

theorem scan_args_ne_absent_of_mem (name : CStr) (wantArgument : Bool) (l : List CStr)
    (h : name ∈ l) : scan_args name wantArgument l ≠ .absent := by
  induction l with
  | nil => simp at h
  | cons a l ih =>
    by_cases h1 : name = a
    · subst h1
      cases wantArgument with
      | false => simp [scan_args]
      | true =>
        cases l with
        | nil => simp [scan_args]
        | cons v l' =>
          simp only [scan_args, if_true]
          cases trim_argument v <;> simp
    · have h2 : name ∈ l := by
        rcases List.mem_cons.mp h with e | m
        · exact absurd e h1
        · exact m
      simp [scan_args, h1, ih h2]

/-- The function `get_option` with the command line `argv` (`argc` entries) and the file
vector `fargv` (`fargc` entries): the scan of the command line after entry 0,
and only when that finds nothing the scan of the whole file vector. -/
theorem get_option_eq_scan (fargv argv : List CStr) (name : CStr) (wantArgument : Bool) :
    get_option ⟨fargv, fargv.length⟩ argv argv.length name wantArgument
      = if name ∈ argv.drop 1 then scan_args name wantArgument (argv.drop 1)
        else scan_args name wantArgument fargv := by
  unfold get_option
  simp only [internal_get_option_eq_scan, List.drop_zero]
  by_cases h : name ∈ argv.drop 1
  · simp only [h, if_true]
    have := scan_args_ne_absent_of_mem name wantArgument _ h
    cases hs : scan_args name wantArgument (argv.drop 1) <;> simp_all
  · simp only [h, if_false, scan_args_absent name wantArgument _ h]

theorem scan_args_missing_iff (name : CStr) (l : List CStr) :
    scan_args name true l = .missing_argument ↔ ∃ a, l = a ++ [name] ∧ name ∉ a := by
  induction l with
  | nil => simp [scan_args]
  | cons x l ih =>
    by_cases h : name = x
    · subst h
      cases l with
      | nil =>
        simp only [scan_args, if_true, true_iff]
        exact ⟨[], rfl, by simp⟩
      | cons v l' =>
        have hne : scan_args name true (name :: v :: l') ≠ .missing_argument := by
          simp only [scan_args, if_true]
          cases trim_argument v <;> simp
        simp only [hne, false_iff]
        rintro ⟨a, ha, hna⟩
        cases a with
        | nil => simp at ha
        | cons y a' =>
          simp only [List.cons_append, List.cons.injEq] at ha
          exact hna (ha.1 ▸ List.mem_cons_self _ _)
    · simp only [scan_args, h, if_false, ih]
      constructor
      · rintro ⟨a, rfl, hna⟩
        refine ⟨x :: a, rfl, ?_⟩
        intro hm
        rcases List.mem_cons.mp hm with e | m
        · exact h e
        · exact hna m
      · rintro ⟨a, ha, hna⟩
        cases a with
        | nil =>
          simp only [List.nil_append, List.cons.injEq] at ha
          exact absurd ha.1.symm h
        | cons y a' =>
          simp only [List.cons_append, List.cons.injEq] at ha
          exact ⟨a', ha.2, fun m => hna (List.mem_cons_of_mem _ m)⟩

theorem scan_args_absent_iff (name : CStr) (wantArgument : Bool) (l : List CStr) :
    scan_args name wantArgument l = .absent ↔ name ∉ l :=
  ⟨fun h m => scan_args_ne_absent_of_mem name wantArgument l m h,
   scan_args_absent name wantArgument l⟩

/-- On the command line, the first entry equal to the flag at an index of 1 or
more decides, whatever the file vector holds: when an entry follows it,
`get_option` hands that entry to `trim_argument`, which reads out of bounds
when the entry is made of pad characters only and otherwise returns it
stripped at both ends. -/
theorem get_option_command_line (fargv argv : List CStr) (f : CStr) (a : List CStr)
    (value : CStr) (post : List CStr)
    (hsplit : argv.drop 1 = a ++ f :: value :: post) (hfirst : f ∉ a) :
    get_option ⟨fargv, fargv.length⟩ argv argv.length f true
      = if value.all is_pad then .out_of_bounds else .ok (some (strip_pad value)) := by
  have hmem : f ∈ argv.drop 1 := by rw [hsplit]; simp
  rw [get_option_eq_scan, if_pos hmem, hsplit, scan_args_first _ _ _ _ hfirst]
  simp only [scan_args, if_true, trim_argument_eq]
  by_cases hv : value.all is_pad = true
  · simp [hv]
  · simp [hv]

/-! ## C4 -/

/-- C4 (failing input): with `-log out.txt` in the file vector and the command
line `instmon -log ""`, the flag `-log` is found on the command line and is
followed by a token, yet `get_option` does not return that token stripped (the
empty string): `trim_argument` reads the byte before its buffer. -/
theorem get_option_empty_value_out_of_bounds :
    get_option ⟨["-log".toList, "out.txt".toList], 2⟩
        ["instmon".toList, "-log".toList, []] 3 "-log".toList true
      = .out_of_bounds := by
  decide

/-! ## C5 -/

/-- C5: for a value-requiring flag `f`, `get_option` exits through
`fail` (missing argument) exactly when the first match of `f` is the last
token of its vector, the first match being sought among the command-line
entries after entry 0 and, only when `f` is not among them, among the file
entries from entry 0 on; and it reports the flag as not present (returns -1,
no exit) exactly when `f` matches in neither. -/
theorem get_option_missing_argument_iff (fargv argv : List CStr) (f : CStr) :
    (get_option ⟨fargv, fargv.length⟩ argv argv.length f true = .missing_argument
      ↔ (∃ a, argv.drop 1 = a ++ [f] ∧ f ∉ a)
        ∨ (f ∉ argv.drop 1 ∧ ∃ a, fargv = a ++ [f] ∧ f ∉ a))
    ∧ (get_option ⟨fargv, fargv.length⟩ argv argv.length f true = .absent
      ↔ f ∉ argv.drop 1 ∧ f ∉ fargv) := by
  rw [get_option_eq_scan]
  by_cases hmem : f ∈ argv.drop 1
  · simp only [hmem, if_true, scan_args_missing_iff, scan_args_absent_iff, not_true_eq_false,
      false_and, or_false, and_self]
  · simp only [hmem, if_false, scan_args_missing_iff, scan_args_absent_iff, not_false_eq_true,
      true_and, and_true]
    constructor
    · intro h
      exact Or.inr h
    · rintro (⟨a, ha, -⟩ | h)
      · exact absurd (by rw [ha]; simp) hmem
      · exact h

/-! ## libc `fgets` and the lines of a file -/

theorem fgets_loop_no_newline (l : CStr) (hl : ∀ c ∈ l, c ≠ Char.ofNat 10) :
    ∀ room, l.length ≤ room → fgets_loop room l = (l, []) := by
  induction l with
  | nil => intro room _; cases room <;> rfl
  | cons c cs ih =>
    intro room h
    obtain ⟨r, rfl⟩ : ∃ r, room = r + 1 := ⟨room - 1, by simp at h; omega⟩
    have hc : c ≠ Char.ofNat 10 := hl c (List.mem_cons_self _ _)
    have hcs : ∀ d ∈ cs, d ≠ Char.ofNat 10 := fun d hd => hl d (List.mem_cons_of_mem _ hd)
    simp only [fgets_loop, hc, if_false, ih hcs r (by simp at h; omega)]

theorem fgets_loop_newline (l : CStr) (hl : ∀ c ∈ l, c ≠ Char.ofNat 10) (rest : List Char) :
    ∀ room, l.length < room →
      fgets_loop room (l ++ Char.ofNat 10 :: rest) = (l ++ [Char.ofNat 10], rest) := by
  induction l with
  | nil =>
    intro room h
    obtain ⟨r, rfl⟩ : ∃ r, room = r + 1 := ⟨room - 1, by simp at h; omega⟩
    simp [fgets_loop]
  | cons c cs ih =>
    intro room h
    obtain ⟨r, rfl⟩ : ∃ r, room = r + 1 := ⟨room - 1, by simp at h; omega⟩
    have hc : c ≠ Char.ofNat 10 := hl c (List.mem_cons_self _ _)
    have hcs : ∀ d ∈ cs, d ≠ Char.ofNat 10 := fun d hd => hl d (List.mem_cons_of_mem _ hd)
    have ih' := ih hcs r (by simp at h; omega)
    show fgets_loop (r + 1) (c :: (cs ++ Char.ofNat 10 :: rest)) = _
    simp only [fgets_loop, hc, if_false, ih', List.cons_append]

theorem fgets_loop_full (l : CStr) (hl : ∀ c ∈ l, c ≠ Char.ofNat 10) (rest : List Char) :
    fgets_loop l.length (l ++ rest) = (l, rest) := by
  induction l with
  | nil => simp [fgets_loop]
  | cons c cs ih =>
    have hc : c ≠ Char.ofNat 10 := hl c (List.mem_cons_self _ _)
    have hcs : ∀ d ∈ cs, d ≠ Char.ofNat 10 := fun d hd => hl d (List.mem_cons_of_mem _ hd)
    have ih' := ih hcs
    show fgets_loop (cs.length + 1) (c :: (cs ++ rest)) = _
    simp only [fgets_loop, hc, if_false, ih']

/-- The newline test of `read_file_options` leaves a buffer without newline as it is. -/
theorem strip_newline_none (l : CStr) (hl : ∀ c ∈ l, c ≠ Char.ofNat 10) :
    (if l[l.length - 1]? = some (Char.ofNat 10) then l.take (l.length - 1) else l) = l := by
  have h : ¬ l[l.length - 1]? = some (Char.ofNat 10) := by
    intro h
    rw [← List.getLast?_eq_getElem?] at h
    exact hl _ (List.mem_of_getLast?_eq_some h) rfl
  simp only [h, if_false]

/-- The newline test of `read_file_options` removes a final newline. -/
theorem strip_newline_some (l : CStr) :
    (if (l ++ [Char.ofNat 10])[(l ++ [Char.ofNat 10]).length - 1]? = some (Char.ofNat 10)
      then (l ++ [Char.ofNat 10]).take ((l ++ [Char.ofNat 10]).length - 1)
      else l ++ [Char.ofNat 10]) = l := by
  have h : (l ++ [Char.ofNat 10])[(l ++ [Char.ofNat 10]).length - 1]? = some (Char.ofNat 10) := by
    rw [← List.getLast?_eq_getElem?]
    simp
  simp only [h, if_true]
  simp

theorem dropWhile_blank_cons (v : CStr) (hv : v ≠ [])
    (hvc : ∀ c ∈ v, c ≠ ' ' ∧ c ≠ Char.ofNat 9 ∧ c ≠ Char.ofNat 10) :
    (' ' :: v).dropWhile (fun c => c == ' ' || c == Char.ofNat 9) = v := by
  obtain ⟨c, cs, rfl⟩ := List.exists_cons_of_ne_nil hv
  have := hvc c (List.mem_cons_self _ _)
  have hb : (c == ' ' || c == Char.ofNat 9) = false := by
    simp [this.1, this.2.1]
  simp [List.dropWhile, hb]

theorem fgets_of_ne_nil (size : Nat) (fp : List Char) (h : fp ≠ []) :
    fgets size fp = some (fgets_loop (size - 1) fp) := by
  cases fp with
  | nil => exact absurd rfl h
  | cons c cs => rfl

theorem strip_pad_eq_self (v : CStr)
    (hhead : ∀ c, v.head? = some c → is_pad c = false)
    (hlast : ∀ c, v.getLast? = some c → is_pad c = false) : strip_pad v = v := by
  unfold strip_pad
  have h1 : v.dropWhile is_pad = v := by
    cases v with
    | nil => rfl
    | cons c cs => simp [List.dropWhile, hhead c rfl]
  rw [h1, List.rdropWhile_eq_self_iff]
  intro hne
  have := hlast (v.getLast hne) (List.getLast?_eq_getLast _ hne)
  simp [this]

/-- When the flag is not on the command line and the file vector starts with
the flag followed by a value whose first and last characters are not pad
characters, `get_option` returns that value unchanged. -/
theorem get_option_file_value (f v : CStr) (rest argv : List CStr) (hv : v ≠ [])
    (hhead : ∀ c, v.head? = some c → is_pad c = false)
    (hlast : ∀ c, v.getLast? = some c → is_pad c = false)
    (hcli : f ∉ argv.drop 1) :
    get_option ⟨f :: v :: rest, (f :: v :: rest).length⟩ argv argv.length f true
      = .ok (some v) := by
  have hall : v.all is_pad = false := by
    obtain ⟨c, cs, rfl⟩ := List.exists_cons_of_ne_nil hv
    simp [hhead c rfl]
  rw [get_option_eq_scan, if_neg hcli]
  simp [scan_args, trim_argument_eq, hall, strip_pad_eq_self v hhead hlast]

theorem replicate_x_ok (n : Nat) :
    ∀ c ∈ List.replicate n 'x', c ≠ ' ' ∧ c ≠ Char.ofNat 9 ∧ c ≠ Char.ofNat 10 := by
  intro c hc
  rw [List.eq_of_mem_replicate hc]
  decide

theorem replicate_x_ne_nil (n : Nat) : List.replicate (n + 1) 'x' ≠ [] := by
  intro h
  have := congrArg List.length h
  simp at this

theorem fgets_loop_rest_le (room : Nat) :
    ∀ fp : List Char, (fgets_loop room fp).2.length ≤ fp.length := by
  induction room with
  | zero => intro fp; simp [fgets_loop]
  | succ room ih =>
    intro fp
    cases fp with
    | nil => simp [fgets_loop]
    | cons c fp =>
      by_cases hc : c = Char.ofNat 10
      · simp [fgets_loop, hc]
      · have := ih fp
        simp only [fgets_loop, hc, if_false, List.length_cons]
        omega

/-- Every successful `fgets (buffer, 2048, fp)` consumes at least one character. -/
theorem fgets_rest_lt (fp buffer fp' : List Char) (h : fgets 2048 fp = some (buffer, fp')) :
    fp'.length < fp.length := by
  cases fp with
  | nil => simp [fgets] at h
  | cons c fp =>
    simp only [fgets, Option.some.injEq] at h
    have hrest : fp' = (fgets_loop (2048 - 1) (c :: fp)).2 := by rw [h]
    rw [hrest]
    by_cases hc : c = Char.ofNat 10
    · simp [fgets_loop, hc]
    · have := fgets_loop_rest_le 2046 fp
      simp only [fgets_loop, hc, if_false, List.length_cons]
      omega

theorem strpbrk_isSome_iff (accept : List Char) (l : CStr) :
    (strpbrk accept l).isSome = true ↔ ∃ c ∈ l, c ∈ accept := by
  induction l with
  | nil => simp [strpbrk]
  | cons c cs ih =>
    by_cases hc : c ∈ accept
    · simp only [strpbrk, hc, if_true, Option.isSome_some, true_iff]
      exact ⟨c, List.mem_cons_self _ _, hc⟩
    · simp only [strpbrk, hc, if_false]
      cases hs : strpbrk accept cs with
      | none =>
        rw [hs] at ih
        simp only [Option.isSome_none, Bool.false_eq_true, false_iff, not_exists, not_and] at ih ⊢
        intro d hd
        rcases List.mem_cons.mp hd with e | m
        · exact e ▸ hc
        · exact ih d m
      | some p =>
        rw [hs] at ih
        obtain ⟨d, hd, hda⟩ := ih.mp rfl
        simp only [Option.isSome_some, true_iff]
        exact ⟨d, List.mem_cons_of_mem _ hd, hda⟩

/-- Removing the final newline does not change whether a blank or tab occurs:
both loops of `read_file_options` take the same branch on a line. -/
theorem strpbrk_strip_newline (buffer : CStr) :
    (strpbrk [' ', Char.ofNat 9]
        (if buffer[buffer.length - 1]? = some (Char.ofNat 10)
          then buffer.take (buffer.length - 1) else buffer)).isSome
      = (strpbrk [' ', Char.ofNat 9] buffer).isSome := by
  by_cases h : buffer[buffer.length - 1]? = some (Char.ofNat 10)
  · simp only [h, if_true]
    have hlast : Char.ofNat 10 ∈ buffer.getLast? := by
      rw [List.getLast?_eq_getElem?]
      exact h
    have hsplit := List.dropLast_append_getLast? _ hlast
    rw [← List.dropLast_eq_take]
    apply Bool.eq_iff_iff.mpr
    rw [strpbrk_isSome_iff, strpbrk_isSome_iff]
    constructor
    · rintro ⟨c, hc, hca⟩
      exact ⟨c, List.mem_of_mem_dropLast hc, hca⟩
    · rintro ⟨c, hc, hca⟩
      rw [← hsplit] at hc
      rcases List.mem_append.mp hc with m | m
      · exact ⟨c, m, hca⟩
      · simp only [List.mem_singleton] at m
        rw [m] at hca
        exact absurd hca (by decide)
  · simp only [h, if_false]

/-! ## The entries of a line -/

theorem all_entries_append (a b : List CStr) :
    all_entries (a ++ b) = all_entries a ++ all_entries b := by
  induction a with
  | nil => rfl
  | cons l a ih => simp [all_entries, ih]

theorem length_file_text_pos (lines : List CStr) (last : CStr) (l : CStr) :
    0 < (file_text (l :: lines) last).length := by
  simp [file_text]

theorem fgets_loop_append (pre X : List Char) (h : Char.ofNat 10 ∈ pre) :
    ∀ room, fgets_loop room (pre ++ X)
      = ((fgets_loop room pre).1, (fgets_loop room pre).2 ++ X) := by
  induction pre with
  | nil => simp at h
  | cons c cs ih =>
    intro room
    cases room with
    | zero => simp [fgets_loop]
    | succ room =>
      by_cases hc : c = Char.ofNat 10
      · show fgets_loop (room + 1) (c :: (cs ++ X)) = _
        simp [fgets_loop, hc]
      · have hcs : Char.ofNat 10 ∈ cs := by
          rcases List.mem_cons.mp h with e | m
          · exact absurd e.symm hc
          · exact m
        show fgets_loop (room + 1) (c :: (cs ++ X)) = _
        simp only [fgets_loop, hc, if_false, ih hcs room]

theorem fgets_loop_split (room : Nat) :
    ∀ fp : List Char, (fgets_loop room fp).1 ++ (fgets_loop room fp).2 = fp := by
  induction room with
  | zero => intro fp; simp [fgets_loop]
  | succ room ih =>
    intro fp
    cases fp with
    | nil => simp [fgets_loop]
    | cons c fp =>
      by_cases hc : c = Char.ofNat 10
      · simp [fgets_loop, hc]
      · simp only [fgets_loop, hc, if_false, List.cons_append, ih fp]

theorem line_entries_no_blank (l : CStr) (h : ∀ c ∈ l, c ≠ ' ' ∧ c ≠ Char.ofNat 9) :
    line_entries l = [l] := by
  have hl : ∀ c ∈ l, c ∉ [' ', Char.ofNat 9] := by
    intro c hc hm
    have := h c hc
    simp at hm
    rcases hm with e | e
    · exact this.1 e
    · exact this.2 e
  simp [line_entries, strpbrk_none_of_not_mem _ _ hl]

theorem dropWhile_blank_run (run rest : CStr) (hrun : ∀ c ∈ run, c = ' ' ∨ c = Char.ofNat 9)
    (hrest : ∀ c, rest.head? = some c → c ≠ ' ' ∧ c ≠ Char.ofNat 9) :
    (run ++ rest).dropWhile (fun c => c == ' ' || c == Char.ofNat 9) = rest := by
  induction run with
  | nil =>
    cases rest with
    | nil => rfl
    | cons c cs =>
      have := hrest c rfl
      have hb : (c == ' ' || c == Char.ofNat 9) = false := by simp [this.1, this.2]
      simp [List.dropWhile, hb]
  | cons r rs ih =>
    have hr : (r == ' ' || r == Char.ofNat 9) = true := by
      rcases hrun r (List.mem_cons_self _ _) with e | e <;> simp [e]
    simp only [List.cons_append, List.dropWhile, hr]
    exact ih (fun c hc => hrun c (List.mem_cons_of_mem _ hc))

/-- A line made of a part without blank or tab, a non-empty run of blanks and
tabs, and a rest that does not start with a blank or tab (it may be empty)
contributes the two entries `flag` and `rest`. -/
theorem line_entries_flag_rest (flag run rest : CStr)
    (hflag : ∀ c ∈ flag, c ≠ ' ' ∧ c ≠ Char.ofNat 9) (hne : run ≠ [])
    (hrun : ∀ c ∈ run, c = ' ' ∨ c = Char.ofNat 9)
    (hrest : ∀ c, rest.head? = some c → c ≠ ' ' ∧ c ≠ Char.ofNat 9) :
    line_entries (flag ++ run ++ rest) = [flag, rest] := by
  obtain ⟨r, rs, rfl⟩ := List.exists_cons_of_ne_nil hne
  have hfa : ∀ c ∈ flag, c ∉ [' ', Char.ofNat 9] := by
    intro c hc hm
    have := hflag c hc
    simp at hm
    rcases hm with e | e
    · exact this.1 e
    · exact this.2 e
  have hr : r ∈ [' ', Char.ofNat 9] := by
    rcases hrun r (List.mem_cons_self _ _) with e | e <;> simp [e]
  have hbrk : strpbrk [' ', Char.ofNat 9] (flag ++ (r :: rs) ++ rest)
      = some (flag, (r :: rs) ++ rest) := by
    have := strpbrk_append_of_not_mem _ flag r (rs ++ rest) hfa hr
    simpa using this
  unfold line_entries
  rw [hbrk]
  simp only [dropWhile_blank_run (r :: rs) rest hrun hrest]

/-! ## read_file_options: the C string in the buffer -/

theorem c_string_eq_self (b : List Char) (h : ∀ c ∈ b, c ≠ Char.ofNat 0) : c_string b = b := by
  unfold c_string
  rw [List.takeWhile_eq_self_iff]
  intro c hc
  simp [h c hc]

theorem mem_of_mem_c_string (b : List Char) (c : Char) (h : c ∈ c_string b) : c ∈ b :=
  (List.takeWhile_prefix _).subset h

/-- The C string in a non-empty buffer is empty exactly when the buffer starts
with a NUL byte. -/
theorem c_string_eq_nil_iff (b : List Char) (hne : b ≠ []) :
    c_string b = [] ↔ b.head? = some (Char.ofNat 0) := by
  obtain ⟨c, cs, rfl⟩ := List.exists_cons_of_ne_nil hne
  by_cases hc : c = Char.ofNat 0
  · simp [c_string, List.takeWhile, hc]
  · have hb : (c != Char.ofNat 0) = true := by simp [hc]
    simp [c_string, List.takeWhile, hb, hc]

/-- The C string in a buffer that holds a line and its newline. -/
theorem c_string_append_newline (l : List Char) :
    c_string (l ++ [Char.ofNat 10])
      = if (∀ c ∈ l, c ≠ Char.ofNat 0) then l ++ [Char.ofNat 10] else c_string l := by
  induction l with
  | nil => simp [c_string, List.takeWhile]
  | cons c cs ih =>
    have ih' : List.takeWhile (fun c => c != Char.ofNat 0) (cs ++ [Char.ofNat 10])
        = if (∀ c ∈ cs, c ≠ Char.ofNat 0) then cs ++ [Char.ofNat 10]
          else List.takeWhile (fun c => c != Char.ofNat 0) cs := ih
    by_cases hc : c = Char.ofNat 0
    · subst hc
      simp [c_string, List.takeWhile]
    · have hb : (c != Char.ofNat 0) = true := by simp [hc]
      by_cases hall : ∀ d ∈ cs, d ≠ Char.ofNat 0
      · have hall' : ∀ d ∈ c :: cs, d ≠ Char.ofNat 0 := by
          intro d hd
          rcases List.mem_cons.mp hd with e | m
          · exact e ▸ hc
          · exact hall d m
        rw [if_pos hall']
        show List.takeWhile (fun c => c != Char.ofNat 0) (c :: (cs ++ [Char.ofNat 10])) = _
        simp only [List.takeWhile, hb, ih', if_pos hall, List.cons_append]
      · have hall' : ¬ ∀ d ∈ c :: cs, d ≠ Char.ofNat 0 :=
          fun h => hall (fun d hd => h d (List.mem_cons_of_mem _ hd))
        rw [if_neg hall']
        show List.takeWhile (fun c => c != Char.ofNat 0) (c :: (cs ++ [Char.ofNat 10]))
          = List.takeWhile (fun c => c != Char.ofNat 0) (c :: cs)
        simp only [List.takeWhile, hb, ih', if_neg hall]

/-- The entries of a buffer whose C string holds no newline. -/
theorem buffer_entries_no_newline (b : List Char) (h : ∀ c ∈ c_string b, c ≠ Char.ofNat 10) :
    buffer_entries b = if c_string b = [] then none else some (line_entries (c_string b)) := by
  unfold buffer_entries
  rw [strip_newline_none _ h]
  by_cases hnil : c_string b = []
  · simp [hnil]
  · have : (c_string b).length ≠ 0 := fun e => hnil (List.length_eq_zero.mp e)
    simp [hnil, this]

/-- The bytes of an unterminated line contribute the entries of the line. -/
theorem buffer_entries_last (l : List Char) (hne : l ≠ []) (hl : ∀ c ∈ l, c ≠ Char.ofNat 10) :
    buffer_entries l = entries_of_line l := by
  rw [buffer_entries_no_newline l (fun c hc => hl c (mem_of_mem_c_string l c hc))]
  unfold entries_of_line
  by_cases h0 : l.head? = some (Char.ofNat 0)
  · simp [h0, (c_string_eq_nil_iff l hne).mpr h0]
  · have : ¬ c_string l = [] := fun e => h0 ((c_string_eq_nil_iff l hne).mp e)
    simp [h0, this]

/-- The bytes of a line with its newline contribute the entries of the line. -/
theorem buffer_entries_line (l : List Char) (hl : ∀ c ∈ l, c ≠ Char.ofNat 10) :
    buffer_entries (l ++ [Char.ofNat 10]) = entries_of_line l := by
  by_cases hall : ∀ c ∈ l, c ≠ Char.ofNat 0
  · have hc : c_string (l ++ [Char.ofNat 10]) = l ++ [Char.ofNat 10] := by
      rw [c_string_append_newline, if_pos hall]
    have hhead : ¬ l.head? = some (Char.ofNat 0) := by
      intro h
      exact hall _ (List.mem_of_mem_head? h) rfl
    unfold buffer_entries entries_of_line
    rw [hc, strip_newline_some, c_string_eq_self l hall]
    simp [hhead]
  · have hc : c_string (l ++ [Char.ofNat 10]) = c_string l := by
      rw [c_string_append_newline, if_neg hall]
    have hne : l ≠ [] := by
      intro e
      apply hall
      simp [e]
    have hnl : ∀ c ∈ c_string (l ++ [Char.ofNat 10]), c ≠ Char.ofNat 10 := by
      rw [hc]
      exact fun c h => hl c (mem_of_mem_c_string l c h)
    rw [buffer_entries_no_newline _ hnl, hc]
    unfold entries_of_line
    by_cases h0 : l.head? = some (Char.ofNat 0)
    · simp [h0, (c_string_eq_nil_iff l hne).mpr h0]
    · have : ¬ c_string l = [] := fun e => h0 ((c_string_eq_nil_iff l hne).mp e)
      simp [h0, this]

/-- The entries of a line without NUL byte. -/
theorem entries_of_line_text (l : List Char) (h : ∀ c ∈ l, c ≠ Char.ofNat 0) :
    entries_of_line l = some (line_entries l) := by
  have hhead : ¬ l.head? = some (Char.ofNat 0) := by
    intro e
    exact h _ (List.mem_of_mem_head? e) rfl
  simp [entries_of_line, hhead, c_string_eq_self l h]

/-- The number of entries a buffer contributes is what the counting loop adds
for it. -/
theorem buffer_entries_length (bytes : List Char) (es : List CStr)
    (h : buffer_entries bytes = some es) :
    es.length = if (strpbrk [' ', Char.ofNat 9] (c_string bytes)).isSome then 2 else 1 := by
  unfold buffer_entries at h
  by_cases h0 : (c_string bytes).length = 0
  · simp [h0] at h
  · simp only [h0, if_false, Option.some.injEq] at h
    have hsame := strpbrk_strip_newline (c_string bytes)
    rw [← hsame, ← h]
    unfold line_entries
    cases strpbrk [' ', Char.ofNat 9]
        (if (c_string bytes)[(c_string bytes).length - 1]? = some (Char.ofNat 10)
          then (c_string bytes).take ((c_string bytes).length - 1) else c_string bytes) with
    | none => rfl
    | some p => rfl

/-! ## read_file_options: the two loops -/

/-- One round of the filling loop. -/
theorem read_options_round (fuel : Nat) (fp : List Char) (fargv : List CStr) :
    read_options (fuel + 1) fp fargv
      = match fgets 2048 fp with
        | none => some (some fargv)
        | some (bytes, fp') =>
          match buffer_entries bytes with
          | none => some none
          | some es => read_options fuel fp' (fargv ++ es) := by
  rw [read_options]
  cases hget : fgets 2048 fp with
  | none => rfl
  | some p =>
    obtain ⟨bytes, fp'⟩ := p
    simp only
    unfold buffer_entries line_entries
    by_cases h0 : (c_string bytes).length = 0
    · simp [h0]
    · simp only [h0, if_false]
      cases strpbrk [' ', Char.ofNat 9]
          (if (c_string bytes)[(c_string bytes).length - 1]? = some (Char.ofNat 10)
            then (c_string bytes).take ((c_string bytes).length - 1) else c_string bytes) with
      | none => rfl
      | some q => rfl

/-- One round of the counting loop. -/
theorem count_options_round (fuel : Nat) (fp : List Char) (fargc : Nat) :
    count_options (fuel + 1) fp fargc
      = match fgets 2048 fp with
        | none => some fargc
        | some (bytes, fp') =>
          count_options fuel fp'
            (fargc + (if (strpbrk [' ', Char.ofNat 9] (c_string bytes)).isSome then 2 else 1)) := by
  rw [count_options]
  cases hget : fgets 2048 fp with
  | none => rfl
  | some p =>
    obtain ⟨bytes, fp'⟩ := p
    simp only
    by_cases hs : (strpbrk [' ', Char.ofNat 9] (c_string bytes)).isSome = true
    · simp [hs]
    · simp [hs]

theorem then_entries_nil_left (x : Option (List CStr)) : then_entries (some []) x = x := by
  cases x <;> rfl

theorem then_entries_nil_right (x : Option (List CStr)) : then_entries x (some []) = x := by
  cases x with
  | none => rfl
  | some a => simp [then_entries]

theorem then_entries_assoc (x y z : Option (List CStr)) :
    then_entries (then_entries x y) z = then_entries x (then_entries y z) := by
  cases x <;> cases y <;> cases z <;> simp [then_entries]

/-- With more fuel than bytes in the stream the filling loop finishes: it reads
outside the buffer or appends the loaded entries. -/
theorem read_options_eq_parse (fuel : Nat) :
    ∀ (fp : List Char) (fargv : List CStr), fp.length < fuel →
      read_options fuel fp fargv = some ((parse_options fuel fp).map (fun es => fargv ++ es)) := by
  induction fuel with
  | zero => intro fp fargv h; omega
  | succ fuel ih =>
    intro fp fargv hf
    rw [read_options_round, parse_options]
    cases hget : fgets 2048 fp with
    | none => simp
    | some p =>
      obtain ⟨bytes, fp'⟩ := p
      have hlt := fgets_rest_lt fp bytes fp' hget
      simp only
      cases hb : buffer_entries bytes with
      | none => simp [then_entries]
      | some es =>
        simp only
        rw [ih fp' _ (by omega)]
        cases parse_options fuel fp' with
        | none => simp [then_entries]
        | some rest => simp [then_entries]

/-- With more fuel than bytes in the stream the counting loop finishes, and when
nothing is read outside the buffer its count is the number of loaded
entries. -/
theorem count_options_eq_parse (fuel : Nat) :
    ∀ (fp : List Char) (fargc : Nat), fp.length < fuel →
      ∃ n, count_options fuel fp fargc = some n
        ∧ ∀ es, parse_options fuel fp = some es → n = fargc + es.length := by
  induction fuel with
  | zero => intro fp fargc h; omega
  | succ fuel ih =>
    intro fp fargc hf
    rw [count_options_round, parse_options]
    cases hget : fgets 2048 fp with
    | none => exact ⟨fargc, rfl, by intro es h; simp at h; simp [← h]⟩
    | some p =>
      obtain ⟨bytes, fp'⟩ := p
      have hlt := fgets_rest_lt fp bytes fp' hget
      simp only
      obtain ⟨n, hn, hlen⟩ := ih fp'
        (fargc + (if (strpbrk [' ', Char.ofNat 9] (c_string bytes)).isSome then 2 else 1))
        (by omega)
      refine ⟨n, hn, ?_⟩
      intro es hes
      cases hb : buffer_entries bytes with
      | none => rw [hb] at hes; simp [then_entries] at hes
      | some first =>
        rw [hb] at hes
        cases hp : parse_options fuel fp' with
        | none => rw [hp] at hes; simp [then_entries] at hes
        | some rest =>
          rw [hp] at hes
          simp only [then_entries, Option.some.injEq] at hes
          rw [hlen rest hp, ← buffer_entries_length bytes first hb, ← hes]
          simp
          omega

theorem parse_options_fuel_eq (fuel : Nat) :
    ∀ (fuel' : Nat) (fp : List Char), fp.length < fuel → fp.length < fuel' →
      parse_options fuel fp = parse_options fuel' fp := by
  induction fuel with
  | zero => intro fuel' fp h; omega
  | succ fuel ih =>
    intro fuel' fp hf hf'
    obtain ⟨k, rfl⟩ : ∃ k, fuel' = k + 1 := ⟨fuel' - 1, by omega⟩
    cases hget : fgets 2048 fp with
    | none => simp [parse_options, hget]
    | some p =>
      obtain ⟨bytes, fp'⟩ := p
      have hlt := fgets_rest_lt fp bytes fp' hget
      simp only [parse_options, hget]
      rw [ih k fp' (by omega) (by omega)]

/-- The function `read_file_options` on a file that opens: it reads outside its buffer
when loading the bytes does, and otherwise returns 0 with the loaded entries as
`fargv` and their number as `fargc`. -/
theorem read_file_options_eq_loaded (text : List Char) (g : Globals) :
    read_file_options (some text) g = some (Loaded.of_entries (loaded_entries text)) := by
  have hread := read_options_eq_parse (text.length + 1) text [] (Nat.lt_succ_self _)
  obtain ⟨n, hn, hlen⟩ := count_options_eq_parse (text.length + 1) text 0 (Nat.lt_succ_self _)
  simp only [read_file_options, hn, hread, loaded_entries]
  cases hp : parse_options (text.length + 1) text with
  | none => rfl
  | some es =>
    have := hlen es hp
    simp [Loaded.of_entries, this]

/-- The function `read_file_options` returns or reads outside its buffer, on every
file: it returns -1 when the file cannot be opened; otherwise it returns 0 with
`fargc` equal to the number of entries of `fargv`, unless a line of the file
makes it read outside the buffer. -/
theorem read_file_options_returns (file : Option (List Char)) (g : Globals) :
    (file = none ∧ read_file_options file g = some (.returned (-1) { g with fargc := 0 }))
    ∨ (∃ fargv, read_file_options file g = some (.returned 0 ⟨fargv, fargv.length⟩))
    ∨ read_file_options file g = some .out_of_bounds := by
  cases file with
  | none => exact Or.inl ⟨rfl, rfl⟩
  | some text =>
    right
    rw [read_file_options_eq_loaded]
    cases loaded_entries text with
    | none => exact Or.inr rfl
    | some es => exact Or.inl ⟨es, rfl⟩

theorem loaded_entries_nil : loaded_entries [] = some [] := rfl

/-- The entries loaded from a stream that starts with the bytes one `fgets` reads. -/
theorem loaded_entries_fgets (fp bytes fp' : List Char)
    (hget : fgets 2048 fp = some (bytes, fp')) :
    loaded_entries fp = then_entries (buffer_entries bytes) (loaded_entries fp') := by
  have hlt := fgets_rest_lt fp bytes fp' hget
  have h1 : parse_options (fp.length + 1) fp
      = then_entries (buffer_entries bytes) (parse_options fp.length fp') := by
    simp only [parse_options, hget]
  unfold loaded_entries
  rw [h1, parse_options_fuel_eq fp.length (fp'.length + 1) fp' hlt (Nat.lt_succ_self _)]

/-- The entries loaded from a text are those loaded from a first part that ends
a line followed by those loaded from the rest. -/
theorem loaded_entries_append :
    ∀ (n : Nat) (pre : List Char), pre.length ≤ n →
      (pre = [] ∨ pre.getLast? = some (Char.ofNat 10)) →
      ∀ X : List Char,
        loaded_entries (pre ++ X) = then_entries (loaded_entries pre) (loaded_entries X) := by
  intro n
  induction n with
  | zero =>
    intro pre hlen _ X
    have : pre = [] := List.length_eq_zero.mp (Nat.le_zero.mp hlen)
    subst this
    simp [loaded_entries_nil, then_entries_nil_left]
  | succ n ih =>
    intro pre hlen hend X
    by_cases hnil : pre = []
    · subst hnil
      simp [loaded_entries_nil, then_entries_nil_left]
    · have hlast : pre.getLast? = some (Char.ofNat 10) := by
        rcases hend with h | h
        · exact absurd h hnil
        · exact h
      have hmem : Char.ofNat 10 ∈ pre := List.mem_of_getLast?_eq_some hlast
      have hne : pre ++ X ≠ [] := by simp [hnil]
      have hget1 : fgets 2048 pre
          = some ((fgets_loop (2048 - 1) pre).1, (fgets_loop (2048 - 1) pre).2) := by
        rw [fgets_of_ne_nil _ _ hnil]
      have hget2 : fgets 2048 (pre ++ X)
          = some ((fgets_loop (2048 - 1) pre).1, (fgets_loop (2048 - 1) pre).2 ++ X) := by
        rw [fgets_of_ne_nil _ _ hne, fgets_loop_append pre X hmem]
      have hlt := fgets_rest_lt pre _ _ hget1
      have hsplit := fgets_loop_split (2048 - 1) pre
      have hend' : (fgets_loop (2048 - 1) pre).2 = []
          ∨ (fgets_loop (2048 - 1) pre).2.getLast? = some (Char.ofNat 10) := by
        by_cases hr : (fgets_loop (2048 - 1) pre).2 = []
        · exact Or.inl hr
        · right
          rw [← hsplit, List.getLast?_append_of_ne_nil _ hr] at hlast
          exact hlast
      rw [loaded_entries_fgets _ _ _ hget1, loaded_entries_fgets _ _ _ hget2,
        ih _ (by omega) hend' X, then_entries_assoc]

/-- The entries loaded from a text that starts with a line fitting the read
buffer: the entries of that line, then those of the rest. -/
theorem loaded_entries_line (l : List Char) (X : List Char) (hl : ∀ c ∈ l, c ≠ Char.ofNat 10)
    (hfit : l.length + 1 < 2048) :
    loaded_entries (l ++ Char.ofNat 10 :: X)
      = then_entries (entries_of_line l) (loaded_entries X) := by
  have hne : l ++ Char.ofNat 10 :: X ≠ [] := by simp
  have hget : fgets 2048 (l ++ Char.ofNat 10 :: X) = some (l ++ [Char.ofNat 10], X) := by
    rw [fgets_of_ne_nil _ _ hne, fgets_loop_newline l hl _ _ (by omega)]
  rw [loaded_entries_fgets _ _ _ hget, buffer_entries_line l hl]

/-- The entries loaded from a text that is one unterminated line fitting the
read buffer. -/
theorem loaded_entries_last_line (l : List Char) (hne : l ≠ [])
    (hl : ∀ c ∈ l, c ≠ Char.ofNat 10) (hfit : l.length < 2048) :
    loaded_entries l = entries_of_line l := by
  have hget : fgets 2048 l = some (l, []) := by
    rw [fgets_of_ne_nil _ _ hne, fgets_loop_no_newline l hl _ (by omega)]
  rw [loaded_entries_fgets _ _ _ hget, buffer_entries_last l hne hl, loaded_entries_nil,
    then_entries_nil_right]

/-! ## read_file_options around one line -/

/-- A file made of a text that is empty or ends a line, followed by another
text, loads what the first text loads followed by what the second loads. -/
theorem read_file_options_two_parts (pre post : List Char) (g : Globals)
    (hpre : pre = [] ∨ pre.getLast? = some (Char.ofNat 10)) :
    read_file_options (some (pre ++ post)) g
      = some (Loaded.of_entries (then_entries (loaded_entries pre) (loaded_entries post))) := by
  rw [read_file_options_eq_loaded, loaded_entries_append _ pre (Nat.le_refl _) hpre]

/-- The same with a line that fits the read buffer between the two texts. -/
theorem read_file_options_around_line (pre l post : List Char) (g : Globals)
    (hpre : pre = [] ∨ pre.getLast? = some (Char.ofNat 10))
    (hl : ∀ c ∈ l, c ≠ Char.ofNat 10) (hfit : l.length + 1 < 2048) :
    read_file_options (some (pre ++ (l ++ Char.ofNat 10 :: post))) g
      = some (Loaded.of_entries (then_entries (loaded_entries pre)
          (then_entries (entries_of_line l) (loaded_entries post)))) := by
  rw [read_file_options_two_parts _ _ _ hpre, loaded_entries_line l post hl hfit]

/-- The same with an unterminated last line that fits the read buffer. -/
theorem read_file_options_before_last_line (pre l : List Char) (g : Globals)
    (hpre : pre = [] ∨ pre.getLast? = some (Char.ofNat 10)) (hne : l ≠ [])
    (hl : ∀ c ∈ l, c ≠ Char.ofNat 10) (hfit : l.length < 2048) :
    read_file_options (some (pre ++ l)) g
      = some (Loaded.of_entries (then_entries (loaded_entries pre) (entries_of_line l))) := by
  rw [read_file_options_two_parts _ _ _ hpre, loaded_entries_last_line l hne hl hfit]

/-- The line `flag value` of C strings without blank, tab or newline contributes the
two entries `flag` and `value`. -/
theorem entries_of_line_flag_value (f v : CStr)
    (hfc : ∀ c ∈ f, c ≠ ' ' ∧ c ≠ Char.ofNat 9 ∧ c ≠ Char.ofNat 10)
    (hvc : ∀ c ∈ v, c ≠ ' ' ∧ c ≠ Char.ofNat 9 ∧ c ≠ Char.ofNat 10)
    (hfz : ∀ c ∈ f, c ≠ Char.ofNat 0) (hvz : ∀ c ∈ v, c ≠ Char.ofNat 0) :
    entries_of_line (f ++ ' ' :: v) = some [f, v] := by
  have hz : ∀ c ∈ f ++ ' ' :: v, c ≠ Char.ofNat 0 := by
    intro c hc
    rcases List.mem_append.mp hc with h | h
    · exact hfz c h
    · rcases List.mem_cons.mp h with h | h
      · rw [h]; decide
      · exact hvz c h
  rw [entries_of_line_text _ hz]
  have := line_entries_flag_rest f [' '] v (fun c hc => ⟨(hfc c hc).1, (hfc c hc).2.1⟩)
    (by simp) (by simp)
    (fun c hc => ⟨(hvc c (List.mem_of_mem_head? hc)).1, (hvc c (List.mem_of_mem_head? hc)).2.1⟩)
  simpa using this

theorem flag_value_no_newline (f v : CStr)
    (hfc : ∀ c ∈ f, c ≠ ' ' ∧ c ≠ Char.ofNat 9 ∧ c ≠ Char.ofNat 10)
    (hvc : ∀ c ∈ v, c ≠ ' ' ∧ c ≠ Char.ofNat 9 ∧ c ≠ Char.ofNat 10) :
    ∀ c ∈ f ++ ' ' :: v, c ≠ Char.ofNat 10 := by
  intro c hc
  rcases List.mem_append.mp hc with h | h
  · exact (hfc c h).2.2
  · rcases List.mem_cons.mp h with h | h
    · rw [h]; decide
    · exact (hvc c h).2.2

/-- The file holding only a newline loads one empty entry. -/
theorem loaded_entries_newline : loaded_entries [Char.ofNat 10] = some [[]] := by
  decide

/-- The options file whose only line is `flag value`, with or without a final
newline and at most 2047 characters before it, loads as the vector
`flag, value`, followed by one empty entry when the newline did not fit into
the first read. -/
theorem read_file_options_flag_value (f v : CStr) (newline : Bool) (g0 : Globals)
    (hfc : ∀ c ∈ f, c ≠ ' ' ∧ c ≠ Char.ofNat 9 ∧ c ≠ Char.ofNat 10)
    (hvc : ∀ c ∈ v, c ≠ ' ' ∧ c ≠ Char.ofNat 9 ∧ c ≠ Char.ofNat 10)
    (hfz : ∀ c ∈ f, c ≠ Char.ofNat 0) (hvz : ∀ c ∈ v, c ≠ Char.ofNat 0)
    (hlen : f.length + 1 + v.length ≤ 2047) :
    ∃ extra, read_file_options
        (some (f ++ ' ' :: v ++ (if newline then [Char.ofNat 10] else []))) g0
      = some (.returned 0 ⟨f :: v :: extra, (f :: v :: extra).length⟩) := by
  have hline := flag_value_no_newline f v hfc hvc
  have hent := entries_of_line_flag_value f v hfc hvc hfz hvz
  have hlinelen : (f ++ ' ' :: v).length = f.length + 1 + v.length := by
    simp; omega
  have hne : f ++ ' ' :: v ≠ [] := by simp
  cases newline with
  | false =>
    refine ⟨[], ?_⟩
    simp only [Bool.false_eq_true, if_false, List.append_nil]
    rw [read_file_options_eq_loaded, loaded_entries_last_line _ hne hline (by omega), hent]
    rfl
  | true =>
    simp only [if_true]
    by_cases hfit : f.length + 1 + v.length < 2047
    · refine ⟨[], ?_⟩
      have htext : f ++ ' ' :: v ++ [Char.ofNat 10] = (f ++ ' ' :: v) ++ Char.ofNat 10 :: [] := by
        simp
      rw [read_file_options_eq_loaded, htext, loaded_entries_line _ [] hline (by omega), hent,
        loaded_entries_nil]
      rfl
    · refine ⟨[[]], ?_⟩
      have hfull : (f ++ ' ' :: v).length = 2048 - 1 := by omega
      have hne' : f ++ ' ' :: v ++ [Char.ofNat 10] ≠ [] := by simp
      have hget : fgets 2048 (f ++ ' ' :: v ++ [Char.ofNat 10])
          = some (f ++ ' ' :: v, [Char.ofNat 10]) := by
        rw [fgets_of_ne_nil _ _ hne', ← hfull]
        have := fgets_loop_full (f ++ ' ' :: v) hline [Char.ofNat 10]
        simpa using this
      rw [read_file_options_eq_loaded, loaded_entries_fgets _ _ _ hget,
        buffer_entries_last _ hne hline, hent, loaded_entries_newline]
      rfl

/-- A line that starts with a NUL byte: `strlen (buffer)` is 0 and the newline test
reads `buffer[-1]`, the byte before the buffer. -/
theorem read_file_options_nul_line :
    read_file_options (some (Char.ofNat 0 :: "-a".toList ++ [Char.ofNat 10])) Globals.initial
      = some .out_of_bounds := by
  decide

/-! ## C6 -/

/-- C6 (amended): for every non-empty flag token `f` and non-empty value token
`v`, C strings without space, tab or newline, `v` neither starting nor ending
with a double quote, and `f`, one blank and `v` together at most 2047
characters long (what one `fgets` into the 2048-byte buffer can hold), after
`read_file_options` has loaded the file whose only line is `f v` (with or
without a final newline), `get_option` for `f` on a command line where `f` does
not occur at an index of 1 or more returns exactly `v`. -/
theorem read_file_options_then_get_option (f v : CStr) (newline : Bool) (argv : List CStr)
    (g0 : Globals) (hf : f ≠ []) (hv : v ≠ [])
    (hfc : ∀ c ∈ f, c ≠ ' ' ∧ c ≠ Char.ofNat 9 ∧ c ≠ Char.ofNat 10)
    (hvc : ∀ c ∈ v, c ≠ ' ' ∧ c ≠ Char.ofNat 9 ∧ c ≠ Char.ofNat 10)
    (hfz : ∀ c ∈ f, c ≠ Char.ofNat 0) (hvz : ∀ c ∈ v, c ≠ Char.ofNat 0)
    (hquote : v.head? ≠ some (Char.ofNat 34) ∧ v.getLast? ≠ some (Char.ofNat 34))
    (hlen : f.length + 1 + v.length ≤ 2047)
    (hcli : f ∉ argv.drop 1) :
    ∃ g, read_file_options
          (some (f ++ ' ' :: v ++ (if newline then [Char.ofNat 10] else []))) g0
          = some (.returned 0 g)
      ∧ get_option g argv argv.length f true = .ok (some v) := by
  obtain ⟨extra, hread⟩ := read_file_options_flag_value f v newline g0 hfc hvc hfz hvz hlen
  have _hfpos : 0 < f.length := List.length_pos.mpr hf
  refine ⟨_, hread, ?_⟩
  have hpad : ∀ c ∈ v, c ≠ Char.ofNat 34 → is_pad c = false := by
    intro c hc hq
    have := hvc c hc
    simp [is_pad, hq, this.1, this.2.1]
  have hhead : ∀ c, v.head? = some c → is_pad c = false := by
    intro c hc
    refine hpad c (List.mem_of_mem_head? hc) ?_
    intro e
    exact hquote.1 (e ▸ hc)
  have hlast : ∀ c, v.getLast? = some c → is_pad c = false := by
    intro c hc
    refine hpad c (List.mem_of_getLast?_eq_some hc) ?_
    intro e
    exact hquote.2 (e ▸ hc)
  exact get_option_file_value f v extra argv hv hhead hlast hcli

/-- C6 (amended) at the file holding only `-pid 1234`. -/
theorem read_file_options_then_get_option_witness :
    ∃ g, read_file_options (some ("-pid".toList ++ ' ' :: "1234".toList ++
            (if true then [Char.ofNat 10] else []))) Globals.initial = some (.returned 0 g)
      ∧ get_option g ["instmon".toList, "-removeDir".toList, "/tmp/x".toList]
          ["instmon".toList, "-removeDir".toList, "/tmp/x".toList].length "-pid".toList true
        = .ok (some "1234".toList) :=
  read_file_options_then_get_option "-pid".toList "1234".toList true
    ["instmon".toList, "-removeDir".toList, "/tmp/x".toList] Globals.initial
    (by decide) (by decide) (by decide) (by decide) (by decide) (by decide) (by decide)
    (by decide) (by decide)

/-- A line `flag value` that overruns the read buffer: when `flag`, one blank and
the first part `v1` of the value fill the 2047 characters of one `fgets`, the
rest `v2` of the value is read as a line of its own and the file loads as the
three entries `flag`, `v1`, `v2`. -/
theorem read_file_options_overlong (f v1 v2 : CStr) (g0 : Globals)
    (hv2 : v2 ≠ [])
    (hfc : ∀ c ∈ f, c ≠ ' ' ∧ c ≠ Char.ofNat 9 ∧ c ≠ Char.ofNat 10)
    (hv1c : ∀ c ∈ v1, c ≠ ' ' ∧ c ≠ Char.ofNat 9 ∧ c ≠ Char.ofNat 10)
    (hv2c : ∀ c ∈ v2, c ≠ ' ' ∧ c ≠ Char.ofNat 9 ∧ c ≠ Char.ofNat 10)
    (hfz : ∀ c ∈ f, c ≠ Char.ofNat 0) (hv1z : ∀ c ∈ v1, c ≠ Char.ofNat 0)
    (hv2z : ∀ c ∈ v2, c ≠ Char.ofNat 0)
    (hfull : f.length + 1 + v1.length = 2047) (hrest : v2.length ≤ 2047) :
    read_file_options (some (f ++ ' ' :: (v1 ++ v2))) g0
      = some (.returned 0 ⟨[f, v1, v2], 3⟩) := by
  have hline := flag_value_no_newline f v1 hfc hv1c
  have hent := entries_of_line_flag_value f v1 hfc hv1c hfz hv1z
  have hlinelen : (f ++ ' ' :: v1).length = 2048 - 1 := by
    simp; omega
  have htext : f ++ ' ' :: (v1 ++ v2) = (f ++ ' ' :: v1) ++ v2 := by simp
  have hne : (f ++ ' ' :: v1) ++ v2 ≠ [] := by simp
  have hne1 : f ++ ' ' :: v1 ≠ [] := by simp
  have hget1 : fgets 2048 ((f ++ ' ' :: v1) ++ v2) = some (f ++ ' ' :: v1, v2) := by
    rw [fgets_of_ne_nil _ _ hne, ← hlinelen, fgets_loop_full _ hline]
  have hv2e : entries_of_line v2 = some [v2] := by
    rw [entries_of_line_text v2 hv2z,
      line_entries_no_blank v2 (fun c hc => ⟨(hv2c c hc).1, (hv2c c hc).2.1⟩)]
  rw [htext, read_file_options_eq_loaded, loaded_entries_fgets _ _ _ hget1,
    buffer_entries_last _ hne1 hline, hent,
    loaded_entries_last_line v2 hv2 (fun c hc => (hv2c c hc).2.2) (by omega), hv2e]
  rfl

/-- C6 as stated fails on a long line: with the flag `-f` and a value of 2045
characters `x` (no blank, no quote, `-f` not on the command line), the first
`fgets` holds only 2044 of them, and `get_option` returns that shorter
value. -/
theorem read_file_options_long_line :
    ("-f".toList ≠ [] ∧ List.replicate 2045 'x' ≠ []
      ∧ (∀ c ∈ "-f".toList, c ≠ ' ' ∧ c ≠ Char.ofNat 9 ∧ c ≠ Char.ofNat 10)
      ∧ (∀ c ∈ List.replicate 2045 'x', c ≠ ' ' ∧ c ≠ Char.ofNat 9 ∧ c ≠ Char.ofNat 10)
      ∧ (List.replicate 2045 'x').head? ≠ some (Char.ofNat 34)
      ∧ (List.replicate 2045 'x').getLast? ≠ some (Char.ofNat 34)
      ∧ "-f".toList ∉ ["instmon".toList].drop 1)
    ∧ ∃ g, read_file_options (some ("-f".toList ++ ' ' :: List.replicate 2045 'x'))
            Globals.initial = some (.returned 0 g)
        ∧ get_option g ["instmon".toList] 1 "-f".toList true
            = .ok (some (List.replicate 2044 'x'))
        ∧ get_option g ["instmon".toList] 1 "-f".toList true
            ≠ .ok (some (List.replicate 2045 'x')) := by
  have hx : ∀ n c, (c ∈ List.replicate n 'x') → c ≠ Char.ofNat 34 := by
    intro n c hc
    rw [List.eq_of_mem_replicate hc]
    decide
  have hz : ∀ n c, (c ∈ List.replicate n 'x') → c ≠ Char.ofNat 0 := by
    intro n c hc
    rw [List.eq_of_mem_replicate hc]
    decide
  have hsplit : List.replicate 2045 'x' = List.replicate 2044 'x' ++ ['x'] :=
    List.replicate_succ' (n := 2044) (a := 'x')
  have hfull : "-f".toList.length + 1 + (List.replicate 2044 'x').length = 2047 := by
    rw [List.length_replicate]
    rfl
  have hread := read_file_options_overlong "-f".toList (List.replicate 2044 'x') ['x']
    Globals.initial (List.cons_ne_nil _ _) (by decide)
    (replicate_x_ok _) (by decide) (by decide) (hz _) (by decide) hfull (by decide)
  have hhead : ∀ c, (List.replicate 2044 'x').head? = some c → is_pad c = false := by
    intro c hc
    rw [List.eq_of_mem_replicate (List.mem_of_mem_head? hc)]
    decide
  have hlast : ∀ c, (List.replicate 2044 'x').getLast? = some c → is_pad c = false := by
    intro c hc
    rw [List.eq_of_mem_replicate (List.mem_of_getLast?_eq_some hc)]
    decide
  have hget : get_option ⟨["-f".toList, List.replicate 2044 'x', ['x']], 3⟩
      ["instmon".toList] 1 "-f".toList true = .ok (some (List.replicate 2044 'x')) :=
    get_option_file_value "-f".toList (List.replicate 2044 'x') [['x']] ["instmon".toList]
      (replicate_x_ne_nil 2043) hhead hlast (by decide)
  refine ⟨⟨by decide, replicate_x_ne_nil 2044, by decide, replicate_x_ok _, ?_, ?_, by decide⟩,
    ⟨["-f".toList, List.replicate 2044 'x', ['x']], 3⟩, ?_, hget, ?_⟩
  · intro h
    exact hx _ _ (List.mem_of_mem_head? h) rfl
  · intro h
    exact hx _ _ (List.mem_of_getLast?_eq_some h) rfl
  · rw [hsplit]
    exact hread
  · rw [hget]
    intro h
    have := congrArg List.length (Option.some.inj (Outcome.ok.inj h))
    rw [List.length_replicate, List.length_replicate] at this
    exact absurd this (by decide)

/-! ## C7 -/

/-- While the process stays alive and `max` is 1 or more, the loop of
`wait_for_pid` never leaves: `num_seconds` stays 0, so the test
`num_seconds >= max` is never true. -/
theorem wait_for_pid_loop_alive (max : Int) (hmax : 0 < max) :
    ∀ fuel polls : Nat, wait_for_pid_loop (fun _ => true) max 0 fuel polls = none := by
  intro fuel
  induction fuel with
  | zero => intro polls; rfl
  | succ fuel ih =>
    intro polls
    have h : ¬ (max ≠ -1 ∧ (0 : Int) ≥ max) := by omega
    simp only [wait_for_pid_loop, if_true, h, if_false, ih]

/-- C7 (failing input): with a process 1234 that is alive at every poll and
`max = 5`, `wait_for_pid` has not returned after any number of polls: for every
bound `fuel` on the rounds observed the loop is still running. -/
theorem wait_for_pid_never_times_out :
    ∀ fuel : Nat, wait_for_pid (fun _ => true) 1234 5 fuel = none := by
  intro fuel
  have h : (1234 : Int) ≠ -1 := by decide
  simp only [wait_for_pid, h, ne_eq, not_false_eq_true, if_true]
  exact wait_for_pid_loop_alive 5 (by decide) fuel 0

/-! ## get_argument -/

theorem get_argument_calls_exhausted (m : Nat) :
    get_argument_calls m none none = List.replicate m none := by
  induction m with
  | zero => rfl
  | succ m ih => simp [get_argument_calls, get_argument, ih, List.replicate_succ]

theorem get_argument_calls_last (record : CStr) (hs : strpbrk [','] record = none)
    (first current : Option CStr) (m : Nat)
    (hcur : (match first with | some a => some a | none => current) = some record) :
    get_argument_calls ((split_commas record).length + m) first current
      = (split_commas record).map some ++ List.replicate m none := by
  rw [strpbrk_comma_none record hs]
  simp only [List.length_singleton, List.map_cons, List.map_nil, List.singleton_append]
  rw [Nat.add_comm 1 m]
  simp only [get_argument_calls, get_argument, hcur, hs, get_argument_calls_exhausted]

theorem get_argument_calls_bounded :
    ∀ (n : Nat) (record : CStr), record.length ≤ n →
      ∀ (first current : Option CStr) (m : Nat),
        (match first with | some a => some a | none => current) = some record →
        get_argument_calls ((split_commas record).length + m) first current
          = (split_commas record).map some ++ List.replicate m none := by
  intro n
  induction n with
  | zero =>
    intro record hlen first current m hcur
    have hnil : record = [] := List.length_eq_zero.mp (Nat.le_zero.mp hlen)
    subst hnil
    exact get_argument_calls_last [] rfl first current m hcur
  | succ n ih =>
    intro record hlen first current m hcur
    cases hs : strpbrk [','] record with
    | none => exact get_argument_calls_last record hs first current m hcur
    | some p =>
      obtain ⟨pre, suf⟩ := p
      obtain ⟨h1, -, h3, h4⟩ := strpbrk_comma_some record pre suf hs
      have hlen' : suf.tail.length ≤ n := by
        have : record.length = pre.length + (suf.tail.length + 1) := by
          rw [h1, h3]
          simp
        omega
      have ih' := ih suf.tail hlen' none (some suf.tail) m rfl
      rw [h4]
      simp only [List.length_cons, List.map_cons, List.cons_append]
      rw [show (split_commas suf.tail).length + 1 + m = (split_commas suf.tail).length + m + 1
        by omega]
      simp only [get_argument_calls, get_argument, hcur, hs, ih']

/-- The calls of `get_argument` return the fields of the record in order, then
`NULL` for ever; the value of `current` before the first call plays no part. -/
theorem get_argument_calls_eq (record : CStr) (current : Option CStr) (m : Nat) :
    get_argument_calls ((split_commas record).length + m) (some record) current
      = (split_commas record).map some ++ List.replicate m none :=
  get_argument_calls_bounded record.length record (Nat.le_refl _) (some record) current m rfl

/-! ## C8 -/

/-- C8: a record with `k` commas has `k + 1` fields, none of which contains a
comma and which joined by commas give the record back; the call
`get_argument (record)` followed by calls `get_argument (NULL)` returns these
`k + 1` fields from left to right and `NULL` at every later call.  The empty
record yields the empty string once and then `NULL`. -/
theorem get_argument_returns_fields (record : CStr) (current : Option CStr) :
    (split_commas record).length = record.count ',' + 1
    ∧ (∀ f ∈ split_commas record, ',' ∉ f)
    ∧ join_commas (split_commas record) = record
    ∧ (∀ m, get_argument_calls (record.count ',' + 1 + m) (some record) current
        = (split_commas record).map some ++ List.replicate m none)
    ∧ (∀ m, get_argument_calls (1 + m) (some []) current = some [] :: List.replicate m none) := by
  refine ⟨length_split_commas record, not_mem_split_commas record,
    join_commas_split_commas record, ?_, ?_⟩
  · intro m
    rw [← length_split_commas record]
    exact get_argument_calls_eq record current m
  · intro m
    exact get_argument_calls_eq [] current m

/-! ## C9 -/

/-- C9 as stated fails on the record `a, b`: the second field comes back as
` b`, with its leading blank, which is not that field stripped; the returned
fields joined by commas differ from the stripped fields joined by commas. -/
theorem get_argument_keeps_padding :
    get_argument_calls 2 (some "a, b".toList) none = [some "a".toList, some " b".toList]
    ∧ strip_pad " b".toList ≠ " b".toList
    ∧ join_commas ["a".toList, " b".toList]
        ≠ join_commas [strip_pad "a".toList, strip_pad " b".toList] := by
  decide

/-- The fields of a list of comma-free strings joined by commas are these
strings. -/
theorem split_commas_join_commas (fs : List CStr) (hne : fs ≠ []) (hfs : ∀ f ∈ fs, ',' ∉ f) :
    split_commas (join_commas fs) = fs := by
  match fs, hne, hfs with
  | [p], _, hfs =>
    have hc := hfs p (List.mem_singleton_self p)
    have hs : strpbrk [','] p = none :=
      strpbrk_none_of_not_mem _ _ (fun d hd h => hc (by simp at h; exact h ▸ hd))
    simp [join_commas, strpbrk_comma_none _ hs]
  | p :: q :: ps, _, hfs =>
    have hc := hfs p (List.mem_cons_self _ _)
    have ih := split_commas_join_commas (q :: ps) (List.cons_ne_nil _ _)
      (fun x hx => hfs x (List.mem_cons_of_mem _ hx))
    have hs : strpbrk [','] (p ++ ',' :: join_commas (q :: ps))
        = some (p, ',' :: join_commas (q :: ps)) :=
      strpbrk_append_of_not_mem _ p ',' _ (fun d hd h => hc (by simp at h; exact h ▸ hd))
        (List.mem_singleton_self _)
    obtain ⟨-, -, -, h4⟩ := strpbrk_comma_some _ _ _ hs
    simp only [join_commas, h4, List.tail_cons, ih]

/-- C9 (amended): `get_argument` returns each field verbatim.  For every list of
comma-free strings, whatever quotes, blanks and tabs they hold, the calls on
the record made by joining them with commas return exactly these strings, in
order, none of them altered; and for every record the calls return its fields
(the pieces between its commas, one more than it has commas), which joined by
commas are the record itself, unchanged. -/
theorem get_argument_fields_verbatim (record : CStr) (current : Option CStr) :
    (∀ fs : List CStr, fs ≠ [] → (∀ f ∈ fs, ',' ∉ f) →
      get_argument_calls fs.length (some (join_commas fs)) current = fs.map some)
    ∧ get_argument_calls (record.count ',' + 1) (some record) current
        = (split_commas record).map some
    ∧ (split_commas record).length = record.count ',' + 1
    ∧ (∀ f ∈ split_commas record, ',' ∉ f)
    ∧ join_commas
        ((get_argument_calls (record.count ',' + 1) (some record) current).filterMap id)
      = record := by
  have h := get_argument_calls_eq record current 0
  rw [Nat.add_zero, length_split_commas, List.replicate_zero, List.append_nil] at h
  refine ⟨?_, h, length_split_commas record, not_mem_split_commas record, ?_⟩
  · intro fs hne hfs
    have h' := get_argument_calls_eq (join_commas fs) current 0
    rw [split_commas_join_commas fs hne hfs, Nat.add_zero, List.replicate_zero,
      List.append_nil] at h'
    exact h'
  · rw [h]
    simp [List.filterMap_map, join_commas_split_commas]

/-- C9 (amended) on the fields `a`, a blank and `b`, and `c` in double quotes: the
calls on their join return them with the blank and the quotes in place. -/
theorem get_argument_fields_verbatim_witness :
    join_commas ["a".toList, " b".toList, [Char.ofNat 34, 'c', Char.ofNat 34]]
        = "a, b,".toList ++ [Char.ofNat 34, 'c', Char.ofNat 34]
    ∧ get_argument_calls 3
        (some (join_commas ["a".toList, " b".toList, [Char.ofNat 34, 'c', Char.ofNat 34]])) none
      = [some "a".toList, some " b".toList, some [Char.ofNat 34, 'c', Char.ofNat 34]] :=
  ⟨by decide,
   (get_argument_fields_verbatim [] none).1
     ["a".toList, " b".toList, [Char.ofNat 34, 'c', Char.ofNat 34]] (by decide) (by decide)⟩

/-! ## C10 -/

/-- C10 as stated fails on the record `dir,name,target` read nine times, as the
shortcut command does: the reads 4 to 9 return `NULL`, not the empty string. -/
theorem get_argument_absent_field_is_null :
    get_argument_calls 9 (some "dir,name,target".toList) none
      = [some "dir".toList, some "name".toList, some "target".toList,
          none, none, none, none, none, none]
    ∧ (get_argument_calls 9 (some "dir,name,target".toList) none)[3]? ≠ some (some []) := by
  decide

/-- C10 (amended): for every record with `n` fields (`n` is the number of its
commas plus one) read `n + m` times, each of the reads `n + 1` to `n + m`
returns the end marker `NULL`, not an empty string. -/
theorem get_argument_absent_fields (record : CStr) (current : Option CStr) (m : Nat) :
    (get_argument_calls (record.count ',' + 1 + m) (some record) current).drop
        (record.count ',' + 1)
      = List.replicate m none := by
  have h := get_argument_calls_eq record current m
  rw [length_split_commas] at h
  rw [h, ← length_split_commas record]
  have : (split_commas record).length = ((split_commas record).map some).length := by simp
  rw [this, List.drop_left]

/-! ## C11 -/

/-- The entries loaded from a file whose lines fit the read buffer and do not
start with a NUL byte: those of its lines, each up to its first NUL byte, in
order. -/
theorem loaded_entries_file_text (lines : List (List Char)) (last : List Char)
    (hlines : ∀ l ∈ lines, (∀ c ∈ l, c ≠ Char.ofNat 10) ∧ l.length + 1 < 2048
      ∧ l.head? ≠ some (Char.ofNat 0))
    (hlast : (∀ c ∈ last, c ≠ Char.ofNat 10) ∧ last.length < 2048
      ∧ last.head? ≠ some (Char.ofNat 0)) :
    loaded_entries (file_text lines last)
      = some (all_entries ((file_lines lines last).map c_string)) := by
  induction lines with
  | nil =>
    by_cases hnil : last = []
    · subst hnil
      simp [file_text, file_lines, all_entries, loaded_entries_nil]
    · simp only [file_text]
      rw [loaded_entries_last_line last hnil hlast.1 hlast.2.1]
      simp [entries_of_line, hlast.2.2, file_lines, hnil, all_entries]
  | cons l lines ih =>
    obtain ⟨hl, hlen, hhead⟩ := hlines l (List.mem_cons_self _ _)
    have ih' := ih (fun x hx => hlines x (List.mem_cons_of_mem _ hx))
    simp only [file_text]
    rw [loaded_entries_line l _ hl hlen, ih']
    simp [entries_of_line, hhead, then_entries, file_lines, all_entries]

/-- C11 as stated fails on the file with the lines `-a`, NUL, `b c` and `-d`: the
first line is a flag without blank or tab, a blank and the rest `c`, yet it
contributes the single entry `-a` (the C string in the buffer ends at the NUL
byte), and the file loads as the two entries `-a` and `-d`. -/
theorem read_file_options_line_with_nul :
    read_file_options
        (some (file_text ["-a".toList ++ Char.ofNat 0 :: "b c".toList, "-d".toList] []))
        Globals.initial
      = some (.returned 0 ⟨["-a".toList, "-d".toList], 2⟩)
    ∧ line_entries ("-a".toList ++ Char.ofNat 0 :: "b c".toList)
      = ["-a".toList ++ Char.ofNat 0 :: "b".toList, "c".toList] := by
  decide

/-- C11 (amended): for every options file whose lines, each with its newline, are
shorter than the 2048-byte read buffer and none of whose lines starts with a
NUL byte, `read_file_options` returns 0 and loads the entries of its lines in file
order (`fargc` is their number), a line counting up to its first NUL byte if it
holds one; here a non-blank line without blank, tab or NUL byte contributes the
line itself (without its newline) as its single entry, and a line without NUL
byte made of a flag, a run of blanks and tabs and a non-empty rest contributes
exactly the two entries flag and rest. -/
theorem read_file_options_entries (lines : List (List Char)) (last : List Char) (g : Globals)
    (hlines : ∀ l ∈ lines, (∀ c ∈ l, c ≠ Char.ofNat 10) ∧ l.length + 1 < 2048
      ∧ l.head? ≠ some (Char.ofNat 0))
    (hlast : (∀ c ∈ last, c ≠ Char.ofNat 10) ∧ last.length < 2048
      ∧ last.head? ≠ some (Char.ofNat 0)) :
    read_file_options (some (file_text lines last)) g
        = some (.returned 0 ⟨all_entries ((file_lines lines last).map c_string),
                    (all_entries ((file_lines lines last).map c_string)).length⟩)
    ∧ (∀ l : List Char, l ≠ [] →
        (∀ c ∈ l, c ≠ ' ' ∧ c ≠ Char.ofNat 9 ∧ c ≠ Char.ofNat 0) →
        line_entries (c_string l) = [l])
    ∧ (∀ flag run rest : List Char,
        (∀ c ∈ flag, c ≠ ' ' ∧ c ≠ Char.ofNat 9 ∧ c ≠ Char.ofNat 0) → run ≠ [] →
        (∀ c ∈ run, c = ' ' ∨ c = Char.ofNat 9) → rest ≠ [] →
        (∀ c, rest.head? = some c → c ≠ ' ' ∧ c ≠ Char.ofNat 9) →
        (∀ c ∈ rest, c ≠ Char.ofNat 0) →
        line_entries (c_string (flag ++ run ++ rest)) = [flag, rest]) := by
  refine ⟨?_, ?_, ?_⟩
  · rw [read_file_options_eq_loaded, loaded_entries_file_text lines last hlines hlast]
    rfl
  · intro l _ h
    rw [c_string_eq_self l (fun c hc => (h c hc).2.2)]
    exact line_entries_no_blank l (fun c hc => ⟨(h c hc).1, (h c hc).2.1⟩)
  · intro flag run rest hflag hne hrun _ hrest hz
    have hall : ∀ c ∈ flag ++ run ++ rest, c ≠ Char.ofNat 0 := by
      intro c hc
      rcases List.mem_append.mp hc with h | h
      · rcases List.mem_append.mp h with h | h
        · exact (hflag c h).2.2
        · rcases hrun c h with e | e <;> rw [e] <;> decide
      · exact hz c h
    rw [c_string_eq_self _ hall]
    exact line_entries_flag_rest flag run rest
      (fun c hc => ⟨(hflag c hc).1, (hflag c hc).2.1⟩) hne hrun hrest

/-- C11 (amended) on the file with the lines `-pid 1234`, `--help` and, without a
final newline, `-log`, a tab, a blank, `out.txt`. -/
theorem read_file_options_entries_witness :
    ((∀ l ∈ ["-pid 1234".toList, "--help".toList],
        (∀ c ∈ l, c ≠ Char.ofNat 10) ∧ l.length + 1 < 2048 ∧ l.head? ≠ some (Char.ofNat 0))
      ∧ (∀ c ∈ "-log".toList ++ Char.ofNat 9 :: " out.txt".toList, c ≠ Char.ofNat 10)
      ∧ ("-log".toList ++ Char.ofNat 9 :: " out.txt".toList).length < 2048
      ∧ ("-log".toList ++ Char.ofNat 9 :: " out.txt".toList).head? ≠ some (Char.ofNat 0))
    ∧ read_file_options
        (some (file_text ["-pid 1234".toList, "--help".toList]
          ("-log".toList ++ Char.ofNat 9 :: " out.txt".toList))) Globals.initial
      = some (.returned 0 ⟨["-pid".toList, "1234".toList, "--help".toList, "-log".toList,
                   "out.txt".toList], 5⟩) :=
  ⟨by decide,
   (read_file_options_entries ["-pid 1234".toList, "--help".toList]
      ("-log".toList ++ Char.ofNat 9 :: " out.txt".toList) Globals.initial
      (by decide) (by decide)).1.trans (by decide)⟩

/-! ## C12 -/

/-- C12 as stated fails on the file whose only line is `-x` followed by two
blanks: two entries are loaded, `-x` and the empty string. -/
theorem read_file_options_flag_blanks_two_entries :
    read_file_options (some ("-x  ".toList ++ [Char.ofNat 10])) Globals.initial
      = some (.returned 0 ⟨["-x".toList, []], 2⟩) := by
  decide

/-- C12 (amended): a line made of a flag token (a C string without blank, tab or
newline) followed only by blanks and tabs, fitting the read buffer, contributes
exactly two entries, the flag token and the empty string, wherever the line
stands in the file: after a text `pre` that is empty or ends a line and loads
the entries `a`, the file ending with that line unterminated loads `a`, the
flag and the empty string, and the file going on after the line with a text
that loads `b` loads `a`, the flag, the empty string and `b`; when `pre` or the
text after the line makes the code read outside its buffer, so does the
file. -/
theorem read_file_options_flag_blanks (pre post : List Char) (flag run : CStr) (g : Globals)
    (hpre : pre = [] ∨ pre.getLast? = some (Char.ofNat 10))
    (hflag : ∀ c ∈ flag, c ≠ ' ' ∧ c ≠ Char.ofNat 9 ∧ c ≠ Char.ofNat 10 ∧ c ≠ Char.ofNat 0)
    (hne : run ≠ []) (hrun : ∀ c ∈ run, c = ' ' ∨ c = Char.ofNat 9)
    (hfit : flag.length + run.length + 1 < 2048) :
    (∀ a, loaded_entries pre = some a →
      read_file_options (some (pre ++ (flag ++ run))) g
          = some (.returned 0 ⟨a ++ [flag, []], (a ++ [flag, []]).length⟩)
      ∧ ∀ b, loaded_entries post = some b →
        read_file_options (some (pre ++ (flag ++ run ++ Char.ofNat 10 :: post))) g
          = some (.returned 0 ⟨a ++ flag :: [] :: b, (a ++ flag :: [] :: b).length⟩))
    ∧ (loaded_entries pre = none →
        read_file_options (some (pre ++ (flag ++ run))) g = some .out_of_bounds)
    ∧ (loaded_entries pre = none ∨ loaded_entries post = none →
        read_file_options (some (pre ++ (flag ++ run ++ Char.ofNat 10 :: post))) g
          = some .out_of_bounds) := by
  have hl : ∀ c ∈ flag ++ run, c ≠ Char.ofNat 10 := by
    intro c hc
    rcases List.mem_append.mp hc with h | h
    · exact (hflag c h).2.2.1
    · rcases hrun c h with e | e <;> rw [e] <;> decide
  have hz : ∀ c ∈ flag ++ run, c ≠ Char.ofNat 0 := by
    intro c hc
    rcases List.mem_append.mp hc with h | h
    · exact (hflag c h).2.2.2
    · rcases hrun c h with e | e <;> rw [e] <;> decide
  have hline : entries_of_line (flag ++ run) = some [flag, []] := by
    rw [entries_of_line_text _ hz]
    have := line_entries_flag_rest flag run []
      (fun c hc => ⟨(hflag c hc).1, (hflag c hc).2.1⟩) hne hrun (fun c hc => by simp at hc)
    simpa using this
  have hlen : (flag ++ run).length = flag.length + run.length := by simp
  have hne' : flag ++ run ≠ [] := by simp [hne]
  have h1 := read_file_options_before_last_line pre (flag ++ run) g hpre hne' hl (by omega)
  have h2 := read_file_options_around_line pre (flag ++ run) post g hpre hl (by omega)
  rw [hline] at h1 h2
  refine ⟨?_, ?_, ?_⟩
  · intro a ha
    rw [ha] at h1 h2
    refine ⟨h1, ?_⟩
    intro b hb
    rw [hb] at h2
    rw [h2]
    simp [then_entries, Loaded.of_entries]
  · intro ha
    rw [ha] at h1
    exact h1
  · intro h
    rw [h2]
    rcases h with h | h
    · rw [h]; rfl
    · rw [h]
      cases loaded_entries pre <;> rfl

/-- C12 (amended) on the line `--help` followed by a blank and a tab, standing
after the line `-pid 1234` and before the line `-v`. -/
theorem read_file_options_flag_blanks_witness :
    loaded_entries ("-pid 1234".toList ++ [Char.ofNat 10])
        = some ["-pid".toList, "1234".toList]
    ∧ loaded_entries "-v".toList = some ["-v".toList]
    ∧ read_file_options (some (("-pid 1234".toList ++ [Char.ofNat 10])
        ++ ("--help".toList ++ [' ', Char.ofNat 9] ++ Char.ofNat 10 :: "-v".toList)))
        Globals.initial
      = some (.returned 0
          ⟨["-pid".toList, "1234".toList, "--help".toList, [], "-v".toList], 5⟩) :=
  ⟨by decide, by decide,
   (((read_file_options_flag_blanks ("-pid 1234".toList ++ [Char.ofNat 10]) "-v".toList
      "--help".toList [' ', Char.ofNat 9] Globals.initial (by decide) (by decide) (by decide)
      (by decide) (by decide)).1 ["-pid".toList, "1234".toList] (by decide)).2
      ["-v".toList] (by decide)).trans (by decide)⟩

/-! ## C13 -/

/-- C13 as stated fails on the file made of a blank line and the line
`-pid 1234`: it loads three entries, the first one empty, while the file
without the blank line loads two. -/
theorem read_file_options_blank_line_entry :
    read_file_options (some (Char.ofNat 10 :: ("-pid 1234".toList ++ [Char.ofNat 10])))
        Globals.initial
      = some (.returned 0 ⟨[[], "-pid".toList, "1234".toList], 3⟩)
    ∧ read_file_options (some ("-pid 1234".toList ++ [Char.ofNat 10])) Globals.initial
      = some (.returned 0 ⟨["-pid".toList, "1234".toList], 2⟩) := by
  decide

/-- C13 (amended): a blank line contributes exactly one entry, the empty string:
for every text `pre` that is empty or ends a line and every text `post`, when
the file without the blank line loads the entries `a` of `pre` followed by the
entries `b` of `post`, the file with a blank line between them loads the same
vector with one empty entry inserted at the place of the blank line, and `fargc`
is one more; and when one of the two texts makes the code read outside its
buffer, it does so with and without the blank line. -/
theorem read_file_options_blank_line (pre post : List Char) (g : Globals)
    (hpre : pre = [] ∨ pre.getLast? = some (Char.ofNat 10)) :
    (∀ a b, loaded_entries pre = some a → loaded_entries post = some b →
      read_file_options (some (pre ++ Char.ofNat 10 :: post)) g
          = some (.returned 0 ⟨a ++ [] :: b, (a ++ b).length + 1⟩)
      ∧ read_file_options (some (pre ++ post)) g
          = some (.returned 0 ⟨a ++ b, (a ++ b).length⟩))
    ∧ (loaded_entries pre = none ∨ loaded_entries post = none →
      read_file_options (some (pre ++ Char.ofNat 10 :: post)) g = some .out_of_bounds
      ∧ read_file_options (some (pre ++ post)) g = some .out_of_bounds) := by
  have h1 := read_file_options_around_line pre [] post g hpre (by simp) (by decide)
  have h2 := read_file_options_two_parts pre post g hpre
  have hblank : entries_of_line [] = some [[]] := by decide
  rw [List.nil_append, hblank] at h1
  constructor
  · intro a b ha hb
    rw [ha, hb] at h1 h2
    refine ⟨?_, h2⟩
    rw [h1]
    simp [then_entries, Loaded.of_entries]
    omega
  · intro h
    rw [h1, h2]
    rcases h with h | h
    · rw [h]; exact ⟨rfl, rfl⟩
    · rw [h]
      cases loaded_entries pre <;> exact ⟨rfl, rfl⟩

/-- C13 (amended) on a blank line between the lines `-a` and `-b`. -/
theorem read_file_options_blank_line_witness :
    loaded_entries ("-a".toList ++ [Char.ofNat 10]) = some ["-a".toList]
    ∧ loaded_entries ("-b".toList ++ [Char.ofNat 10]) = some ["-b".toList]
    ∧ read_file_options (some (("-a".toList ++ [Char.ofNat 10])
        ++ Char.ofNat 10 :: ("-b".toList ++ [Char.ofNat 10]))) Globals.initial
      = some (.returned 0 ⟨["-a".toList, [], "-b".toList], 3⟩) :=
  ⟨by decide, by decide,
   ((read_file_options_blank_line ("-a".toList ++ [Char.ofNat 10])
      ("-b".toList ++ [Char.ofNat 10]) Globals.initial (by decide)).1
      ["-a".toList] ["-b".toList] (by decide) (by decide)).1.trans (by decide)⟩

/-! ## C18 -/

theorem rdropWhile_append_rtakeWhile (p : Char → Bool) (l : CStr) :
    l.rdropWhile p ++ l.rtakeWhile p = l := by
  unfold List.rdropWhile List.rtakeWhile
  rw [← List.reverse_append, List.takeWhile_append_dropWhile, List.reverse_reverse]

/-- A string with a character that is not a pad: its stripped form starts and
ends with such a character, and the string is a run of pads, the stripped
form, and a run of pads. -/
theorem strip_pad_spec (s : CStr) (h : ∃ c ∈ s, is_pad c = false) :
    (∃ c, (strip_pad s).head? = some c ∧ is_pad c = false)
    ∧ (∃ c, (strip_pad s).getLast? = some c ∧ is_pad c = false)
    ∧ s = s.takeWhile is_pad ++ strip_pad s ++ (s.dropWhile is_pad).rtakeWhile is_pad := by
  obtain ⟨c, hc, hcp⟩ := h
  have hd : s.dropWhile is_pad ≠ [] := by
    intro hnil
    have := (List.dropWhile_eq_nil_iff.mp hnil) c hc
    rw [hcp] at this
    exact absurd this (by decide)
  obtain ⟨x, xs, hx⟩ := List.exists_cons_of_ne_nil hd
  have hxp : is_pad x = false := by
    have := List.head?_dropWhile_not is_pad s
    rw [hx] at this
    simpa using this
  have ht : strip_pad s ≠ [] := by
    unfold strip_pad
    intro hnil
    have := (List.rdropWhile_eq_nil_iff.mp hnil) x (by rw [hx]; exact List.mem_cons_self _ _)
    rw [hxp] at this
    exact absurd this (by decide)
  have hpre : strip_pad s <+: s.dropWhile is_pad := List.rdropWhile_prefix _ _
  refine ⟨⟨x, ?_, hxp⟩, ?_, ?_⟩
  · obtain ⟨y, ys, hy⟩ := List.exists_cons_of_ne_nil ht
    obtain ⟨r, hr⟩ := hpre
    rw [hy, hx] at hr
    simp only [List.cons_append, List.cons.injEq] at hr
    rw [hy, hr.1]
    rfl
  · refine ⟨(strip_pad s).getLast ht, List.getLast?_eq_getLast _ ht, ?_⟩
    have := List.rdropWhile_last_not is_pad (s.dropWhile is_pad) ht
    simpa using this
  · rw [List.append_assoc]
    unfold strip_pad
    rw [rdropWhile_append_rtakeWhile, List.takeWhile_append_dropWhile]

/-- C18: for every string `s` with at least one character other than
double-quote, space and tab, `trim_argument (s)` is `s` without its maximal
leading and trailing runs of those characters (`s` is a run of pads, the
result, and a run of pads; the result starts and ends with a character that is
not a pad), and trimming the result again returns it unchanged. -/
theorem trim_argument_idempotent (s : CStr) (h : ∃ c ∈ s, is_pad c = false) :
    trim_argument s = some (strip_pad s)
    ∧ trim_argument (strip_pad s) = some (strip_pad s)
    ∧ (∃ lead trail, s = lead ++ strip_pad s ++ trail
        ∧ lead.all is_pad = true ∧ trail.all is_pad = true
        ∧ (∃ c, (strip_pad s).head? = some c ∧ is_pad c = false)
        ∧ (∃ c, (strip_pad s).getLast? = some c ∧ is_pad c = false)) := by
  obtain ⟨⟨x, hx, hxp⟩, ⟨y, hy, hyp⟩, hsplit⟩ := strip_pad_spec s h
  have hall : s.all is_pad = false := by
    obtain ⟨c, hc, hcp⟩ := h
    exact List.all_eq_false.mpr ⟨c, hc, by simp [hcp]⟩
  have hall' : (strip_pad s).all is_pad = false :=
    List.all_eq_false.mpr ⟨x, List.mem_of_mem_head? hx, by simp [hxp]⟩
  have hself : strip_pad (strip_pad s) = strip_pad s :=
    strip_pad_eq_self _ (fun c hc => by rw [hx] at hc; cases hc; exact hxp)
      (fun c hc => by rw [hy] at hc; cases hc; exact hyp)
  refine ⟨by rw [trim_argument_eq, hall]; rfl, by rw [trim_argument_eq, hall', hself]; rfl,
    s.takeWhile is_pad, (s.dropWhile is_pad).rtakeWhile is_pad, hsplit, ?_, ?_,
    ⟨x, hx, hxp⟩, ⟨y, hy, hyp⟩⟩
  · rw [List.all_eq_true]
    intro c hc
    exact (List.mem_takeWhile_imp hc)
  · rw [List.all_eq_true]
    intro c hc
    exact List.mem_rtakeWhile_imp hc

/-- C18 at the string `  "a b" ` (two blanks, a quoted `a b`, one blank). -/
theorem trim_argument_idempotent_witness :
    (∃ c ∈ [' ', ' ', Char.ofNat 34, 'a', ' ', 'b', Char.ofNat 34, ' '], is_pad c = false)
    ∧ trim_argument [' ', ' ', Char.ofNat 34, 'a', ' ', 'b', Char.ofNat 34, ' ']
        = some ['a', ' ', 'b']
    ∧ trim_argument ['a', ' ', 'b'] = some ['a', ' ', 'b'] :=
  ⟨⟨'a', by decide, by decide⟩,
   (trim_argument_idempotent _ ⟨'a', by decide, by decide⟩).1.trans (by decide),
   by decide⟩

/-! ## C19 -/

/-- C19: for every `max` (and whatever the process table holds),
`wait_for_pid (-1, max)` returns 0 at once: no `kill` poll is made and no
round of the loop, with its `sleep`, is run (it returns even when no round is
allowed). -/
theorem wait_for_pid_no_process (alive : Nat → Bool) (max : Int) (fuel : Nat) :
    wait_for_pid alive (-1) max fuel = some (0, 0) := by
  simp [wait_for_pid]

/-! ## delete_directory: shape of the result -/

mutual
/-- A call of `delete_directory` returns 0 with nothing left at the path, or -1
with something left. -/
theorem delete_directory_result (emptyOnly : Bool) :
    ∀ n : Node,
      ((delete_directory emptyOnly n).1 = 0 ∧ (delete_directory emptyOnly n).2 = none)
      ∨ ((delete_directory emptyOnly n).1 = -1
          ∧ ∃ n', (delete_directory emptyOnly n).2 = some n')
  | .leaf kind unlinkOk => by
    right
    simp [delete_directory]
  | .dir openOk rmdirOk entries => by
    have ih := delete_directory_loop_result emptyOnly entries
    cases openOk with
    | false => right; simp [delete_directory]
    | true =>
      simp only [delete_directory, if_true]
      rcases ih with h0 | h1
      · simp only [h0, if_true]
        rcases rmdir_cases true rmdirOk (delete_directory_loop emptyOnly entries).2 with
          ⟨hr, -⟩ | hr
        · left; rw [hr]; exact ⟨rfl, rfl⟩
        · right; rw [hr]; exact ⟨rfl, _, rfl⟩
      · have hne : ¬ (delete_directory_loop emptyOnly entries).1 = 0 := by rw [h1]; decide
        simp only [hne, if_false]
        right
        exact ⟨h1, _, rfl⟩
/-- The entry loop of `delete_directory` ends with `result` 0 or -1. -/
theorem delete_directory_loop_result (emptyOnly : Bool) :
    ∀ es : Entries,
      (delete_directory_loop emptyOnly es).1 = 0 ∨ (delete_directory_loop emptyOnly es).1 = -1
  | .nil => by simp [delete_directory_loop]
  | .cons name statOk node rest => by
    have ihr := delete_directory_loop_result emptyOnly rest
    cases statOk with
    | false =>
      simp only [delete_directory_loop, Bool.false_eq_true, if_false]
      exact ihr
    | true =>
      cases node with
      | leaf kind unlinkOk =>
        cases emptyOnly <;> cases unlinkOk <;> simp [delete_directory_loop, ihr]
      | dir openOk rmdirOk entries =>
        simp only [delete_directory_loop, if_true]
        by_cases h0 : (delete_directory emptyOnly (.dir openOk rmdirOk entries)).1 = 0
        · simp only [h0, ne_eq, not_true_eq_false, if_false]
          exact ihr
        · simp only [h0, ne_eq, not_false_eq_true, if_true]
          right
          trivial
end

/-- With `emptyOnly` unset, entries that all pass are worked through: what the
loop does on a list that starts with them is what it does on the rest of the
list, and of the entries that passed only the skipped ones are left. -/
theorem delete_directory_loop_passes (tail : Entries) :
    ∀ before : Entries, Entries.passes before = true →
      delete_directory_loop false (Entries.append before tail)
        = ((delete_directory_loop false tail).1,
           Entries.append (Entries.skipped before) (delete_directory_loop false tail).2)
  | .nil => by
    intro _
    simp [Entries.append, Entries.skipped]
  | .cons name statOk node rest => by
    intro hpass
    simp only [Entries.passes, Bool.and_eq_true, Bool.or_eq_true, Bool.not_eq_true'] at hpass
    obtain ⟨hnode, hrest⟩ := hpass
    have ih := delete_directory_loop_passes tail rest hrest
    cases statOk with
    | false =>
      simp only [Entries.append, delete_directory_loop, Bool.false_eq_true, if_false, ih,
        Entries.skipped]
    | true =>
      simp only [Bool.true_eq_false, false_or] at hnode
      cases node with
      | leaf kind unlinkOk =>
        simp only at hnode
        subst hnode
        simp only [Entries.append, delete_directory_loop, if_true, Bool.false_eq_true, if_false,
          ih, Entries.skipped]
      | dir openOk rmdirOk entries =>
        simp only [beq_iff_eq] at hnode
        have hleft : (delete_directory false (.dir openOk rmdirOk entries)).2 = none := by
          rcases delete_directory_result false (.dir openOk rmdirOk entries) with ⟨-, h⟩ | ⟨h, -⟩
          · exact h
          · rw [hnode] at h; exact absurd h (by decide)
        simp only [Entries.append, delete_directory_loop, if_true, hnode, ne_eq,
          not_true_eq_false, if_false, ih, hleft, Entries.put, Entries.skipped]

/-! ## C20 -/

/-- C20: with `emptyOnly` unset and whatever the enumeration order, when the
entries before an entry all pass and that entry fails (its `unlink` fails, or it
is a directory whose nested `delete_directory` does not return 0), the call
returns -1, the directory is still there, the entries after the failing one
are exactly as before (none unlinked, none descended into), and what was
removed stays removed: of the entries before the failure only the skipped ones
are left, a failing non-directory is left as it was, and a failing directory
is left as its nested call left it. -/
theorem delete_directory_stops_at_failure (rmdirOk : Bool) (before rest : Entries)
    (name : CStr) (node : Node) (hpass : Entries.passes before = true)
    (hfail : (∃ kind, node = .leaf kind false)
      ∨ (∃ o r es, node = .dir o r es ∧ (delete_directory false node).1 ≠ 0)) :
    delete_directory false
        (.dir true rmdirOk (Entries.append before (.cons name true node rest)))
      = (-1, some (.dir true rmdirOk (Entries.append (Entries.skipped before)
          (Entries.put name true (delete_directory false node).2 rest))))
    ∧ ((∃ kind, node = .leaf kind false) →
        Entries.put name true (delete_directory false node).2 rest = .cons name true node rest)
    ∧ ((∃ o r es, node = .dir o r es) →
        ∃ left, (delete_directory false node).2 = some left) := by
  have hloop : delete_directory_loop false (.cons name true node rest)
      = (-1, Entries.put name true (delete_directory false node).2 rest) := by
    rcases hfail with ⟨kind, rfl⟩ | ⟨o, r, es, rfl, hne⟩
    · simp [delete_directory_loop, delete_directory, Entries.put]
    · simp only [delete_directory_loop, if_true, ne_eq, hne, not_false_eq_true]
  refine ⟨?_, ?_, ?_⟩
  · simp only [delete_directory, if_true, delete_directory_loop_passes _ before hpass, hloop]
    simp
  · rintro ⟨kind, rfl⟩
    simp [delete_directory, Entries.put]
  · rintro ⟨o, r, es, rfl⟩
    rcases hfail with ⟨kind, hk⟩ | ⟨_, _, _, -, hne⟩
    · cases hk
    · rcases delete_directory_result false (.dir o r es) with ⟨h0, -⟩ | ⟨-, h⟩
      · exact absurd h0 hne
      · exact h

/-- C20 on `dir/{a, sub/{x, y}, c}` where `a` is removed, then inside `sub` the
file `x` is removed and the `unlink` of `y` fails: `c` is untouched, `a` and
`sub/x` stay removed. -/
theorem delete_directory_stops_at_failure_witness :
    (Entries.passes (.cons "a".toList true (.leaf .regular true) .nil) = true
      ∧ ((∃ kind, Node.dir true true (.cons "x".toList true (.leaf .regular true)
              (.cons "y".toList true (.leaf .regular false) .nil)) = .leaf kind false)
        ∨ (∃ o r es, Node.dir true true (.cons "x".toList true (.leaf .regular true)
              (.cons "y".toList true (.leaf .regular false) .nil)) = .dir o r es
            ∧ (delete_directory false (.dir true true (.cons "x".toList true
                (.leaf .regular true) (.cons "y".toList true (.leaf .regular false) .nil)))).1
              ≠ 0)))
    ∧ delete_directory false
        (.dir true true (Entries.append (.cons "a".toList true (.leaf .regular true) .nil)
          (.cons "sub".toList true
            (.dir true true (.cons "x".toList true (.leaf .regular true)
              (.cons "y".toList true (.leaf .regular false) .nil)))
            (.cons "c".toList true (.leaf .regular true) .nil))))
      = (-1, some (.dir true true
          (.cons "sub".toList true
            (.dir true true (.cons "y".toList true (.leaf .regular false) .nil))
            (.cons "c".toList true (.leaf .regular true) .nil)))) :=
  ⟨⟨by decide, Or.inr ⟨_, _, _, rfl, by decide⟩⟩,
   (delete_directory_stops_at_failure true (.cons "a".toList true (.leaf .regular true) .nil)
      (.cons "c".toList true (.leaf .regular true) .nil) "sub".toList
      (.dir true true (.cons "x".toList true (.leaf .regular true)
        (.cons "y".toList true (.leaf .regular false) .nil)))
      (by decide) (Or.inr ⟨_, _, _, rfl, by decide⟩)).1.trans (by decide)⟩

/-! ## C17 -/

/-- C17 as stated fails: a directory whose only entry is an empty subdirectory is
removed together with it and the call returns 0; and in a directory holding an
empty subdirectory followed by a file, the subdirectory is removed before the
call fails on the file. -/
theorem delete_directory_emptyOnly_removes_subdirectories :
    delete_directory true (.dir true true (.cons "sub".toList true (.dir true true .nil) .nil))
      = (0, none)
    ∧ delete_directory true (.dir true true
        (.cons "sub".toList true (.dir true true .nil)
          (.cons "f".toList true (.leaf .regular true) .nil)))
      = (-1, some (.dir true true (.cons "f".toList true (.leaf .regular true) .nil))) := by
  decide

mutual
/-- With `emptyOnly` set, on a tree without non-directory entry where no system
call fails, `delete_directory` on a directory returns 0 and leaves nothing. -/
theorem delete_directory_emptyOnly_all_ok (path : List CStr) :
    ∀ n : Node, Node.all_ok n = true → Node.leaves path n = [] →
      delete_directory true n = (0, none)
  | .leaf kind unlinkOk => by
    intro _ hl
    simp [Node.leaves] at hl
  | .dir openOk rmdirOk entries => by
    intro hok hl
    simp only [Node.all_ok, Bool.and_eq_true] at hok
    obtain ⟨⟨ho, hr⟩, he⟩ := hok
    have ih := delete_directory_loop_emptyOnly_all_ok path entries he hl
    subst ho; subst hr
    simp [delete_directory, ih, rmdir]
/-- With `emptyOnly` set, on entries without non-directory entry where no system
call fails, the loop ends with `result` 0 and no entry left. -/
theorem delete_directory_loop_emptyOnly_all_ok (path : List CStr) :
    ∀ es : Entries, Entries.all_ok es = true → Entries.leaves path es = [] →
      delete_directory_loop true es = (0, .nil)
  | .nil => by
    intro _ _
    simp [delete_directory_loop]
  | .cons name statOk node rest => by
    intro hok hl
    simp only [Entries.all_ok, Bool.and_eq_true] at hok
    obtain ⟨⟨hs, hn⟩, hrest⟩ := hok
    simp only [Entries.leaves, List.append_eq_nil] at hl
    have ihr := delete_directory_loop_emptyOnly_all_ok path rest hrest hl.2
    subst hs
    cases node with
    | leaf kind unlinkOk => simp [Node.leaves] at hl
    | dir openOk rmdirOk entries =>
      have ihn := delete_directory_emptyOnly_all_ok (path ++ [name])
        (.dir openOk rmdirOk entries) hn hl.1
      simp [delete_directory_loop, ihn, ihr, Entries.put]
end

/-- C17 (amended): with `emptyOnly` set, a directory is removed only if its tree
holds no non-directory entry.  When no system call fails, `delete_directory (dir, 1)`
returns 0 and removes the directory with all its subdirectories exactly when
no non-directory entry lies in it, directly or nested; when one does, then
whatever the outcomes of the system calls, the call returns -1, the directory
stays and no non-directory entry is unlinked. -/
theorem delete_directory_emptyOnly_iff (openOk rmdirOk : Bool) (entries : Entries) :
    (Node.all_ok (.dir openOk rmdirOk entries) = true →
      (delete_directory true (.dir openOk rmdirOk entries) = (0, none)
        ↔ Entries.leaves [] entries = []))
    ∧ (Entries.leaves [] entries ≠ [] →
        ∃ entries', delete_directory true (.dir openOk rmdirOk entries)
            = (-1, some (.dir openOk rmdirOk entries'))
          ∧ Entries.leaves [] entries' = Entries.leaves [] entries) := by
  have hfail : Entries.leaves [] entries ≠ [] →
      ∃ entries', delete_directory true (.dir openOk rmdirOk entries)
          = (-1, some (.dir openOk rmdirOk entries'))
        ∧ Entries.leaves [] entries' = Entries.leaves [] entries := by
    intro hne
    obtain ⟨-, hleaves, hdir⟩ :=
      delete_directory_emptyOnly_inv [] (.dir openOk rmdirOk entries)
    have hsome : (delete_directory true (.dir openOk rmdirOk entries)).2 ≠ none := by
      intro hnone
      rw [hnone] at hleaves
      exact hne (by simpa [leaves_left, Node.leaves] using hleaves.symm)
    obtain ⟨h1, entries', h2⟩ := hdir openOk rmdirOk entries rfl hsome
    refine ⟨entries', Prod.ext h1 h2, ?_⟩
    rw [h2] at hleaves
    simpa [leaves_left, Node.leaves] using hleaves
  refine ⟨fun h => ⟨?_, ?_⟩, hfail⟩
  · intro hres
    by_contra hne
    obtain ⟨entries', h1, -⟩ := hfail hne
    rw [hres] at h1
    have h0 : (0 : Int) = -1 := congrArg Prod.fst h1
    exact absurd h0 (by decide)
  · intro hl
    exact delete_directory_emptyOnly_all_ok [] _ h (by simpa [Node.leaves] using hl)

/-- C17 (amended) on `dir/{a/{b/}, c/}`, which holds directories only and is
removed. -/
theorem delete_directory_emptyOnly_iff_witness :
    Node.all_ok (.dir true true
        (.cons "a".toList true (.dir true true (.cons "b".toList true (.dir true true .nil) .nil))
          (.cons "c".toList true (.dir true true .nil) .nil))) = true
    ∧ delete_directory true (.dir true true
        (.cons "a".toList true (.dir true true (.cons "b".toList true (.dir true true .nil) .nil))
          (.cons "c".toList true (.dir true true .nil) .nil))) = (0, none) :=
  ⟨by decide, ((delete_directory_emptyOnly_iff true true _).1 (by decide)).mpr (by decide)⟩

/-! ## make_path -/

theorem strpbrk_some_split (accept : List Char) :
    ∀ (r pre suf : CStr), strpbrk accept r = some (pre, suf) →
      r = pre ++ suf ∧ (∀ c ∈ pre, c ∉ accept) ∧ ∃ d rest, suf = d :: rest ∧ d ∈ accept := by
  intro r
  induction r with
  | nil => intro pre suf h; simp [strpbrk] at h
  | cons c cs ih =>
    intro pre suf h
    by_cases hc : c ∈ accept
    · simp only [strpbrk, hc, if_true, Option.some.injEq, Prod.mk.injEq] at h
      obtain ⟨rfl, rfl⟩ := h
      exact ⟨rfl, by simp, c, cs, rfl, hc⟩
    · simp only [strpbrk, hc, if_false] at h
      cases hs : strpbrk accept cs with
      | none => rw [hs] at h; simp at h
      | some p =>
        obtain ⟨pre', suf'⟩ := p
        rw [hs] at h
        simp only [Option.some.injEq, Prod.mk.injEq] at h
        obtain ⟨rfl, rfl⟩ := h
        obtain ⟨h1, h2, h3⟩ := ih pre' suf' hs
        refine ⟨by rw [h1]; simp, ?_, h3⟩
        intro d hd
        rcases List.mem_cons.mp hd with e | m
        · exact e ▸ hc
        · exact h2 d m

theorem separator_prefixes_from_no_separator (start : CStr) (h : ∀ c ∈ start, c ≠ '/') :
    ∀ pre, separator_prefixes_from pre start = [] := by
  induction start with
  | nil => intro pre; rfl
  | cons c cs ih =>
    intro pre
    have hc : c ≠ '/' := h c (List.mem_cons_self _ _)
    simp only [separator_prefixes_from, hc, if_false]
    exact ih (fun d hd => h d (List.mem_cons_of_mem _ hd)) _

theorem separator_prefixes_from_append (seg rest : CStr) (h : ∀ c ∈ seg, c ≠ '/') :
    ∀ pre, separator_prefixes_from pre (seg ++ '/' :: rest)
      = (pre ++ seg) :: separator_prefixes_from (pre ++ seg ++ ['/']) rest := by
  induction seg with
  | nil => intro pre; simp [separator_prefixes_from]
  | cons c cs ih =>
    intro pre
    have hc : c ≠ '/' := h c (List.mem_cons_self _ _)
    have := ih (fun d hd => h d (List.mem_cons_of_mem _ hd)) (pre ++ [c])
    show separator_prefixes_from pre (c :: (cs ++ '/' :: rest)) = _
    simp only [separator_prefixes_from, hc, if_false]
    rw [this]
    simp

theorem strpbrk_separator_none (start : CStr) (h : strpbrk ['/'] start = none) :
    ∀ c ∈ start, c ≠ '/' := by
  intro c hc e
  have hsome : (strpbrk ['/'] start).isSome = true :=
    (strpbrk_isSome_iff ['/'] start).mpr ⟨c, hc, by simp [e]⟩
  rw [h] at hsome
  exact absurd hsome (by decide)

theorem strpbrk_separator_some (start seg sp : CStr) (h : strpbrk ['/'] start = some (seg, sp)) :
    start = seg ++ '/' :: sp.tail ∧ (∀ c ∈ seg, c ≠ '/') := by
  obtain ⟨h1, h2, d, rest, h3, h4⟩ := strpbrk_some_split ['/'] start seg sp h
  have hd : d = '/' := by simpa using h4
  subst hd
  subst h3
  refine ⟨h1, ?_⟩
  intro c hc e
  exact h2 c hc (by simp [e])

/-- The loop of `make_path` ensures the non-empty separator-delimited prefixes in
turn: it ends with `result` 0 and `path` whole when none fails, and at the
first failure with `result` -1 and `path` cut to the failed prefix. -/
theorem make_path_loop_eq {σ : Type} (sys : PathSys σ) :
    ∀ (fuel : Nat) (pre start : CStr) (st : σ), start.length < fuel →
      make_path_loop sys fuel pre start st
        = some (match ensure_each sys
                  ((separator_prefixes_from pre start).filter (fun p => !p.isEmpty)) st with
                | (none, st') => (0, pre ++ start, st')
                | (some p, st') => (-1, p, st')) := by
  intro fuel
  induction fuel with
  | zero => intro pre start st h; omega
  | succ fuel ih =>
    intro pre start st hf
    cases hs : strpbrk ['/'] start with
    | none =>
      have := separator_prefixes_from_no_separator start (strpbrk_separator_none start hs) pre
      simp only [make_path_loop, hs, this, List.filter_nil, ensure_each]
    | some q =>
      obtain ⟨seg, sp⟩ := q
      obtain ⟨hstart, hseg⟩ := strpbrk_separator_some start seg sp hs
      have hlen : sp.tail.length < fuel := by
        have : start.length = seg.length + (sp.tail.length + 1) := by
          rw [hstart]
          simp
        omega
      have hpre : separator_prefixes_from pre start
          = (pre ++ seg) :: separator_prefixes_from (pre ++ seg ++ ['/']) sp.tail := by
        rw [hstart]
        exact separator_prefixes_from_append seg sp.tail hseg pre
      have hwhole : pre ++ seg ++ ['/'] ++ sp.tail = pre ++ start := by
        rw [hstart]
        simp
      have ih' := ih (pre ++ seg ++ ['/']) sp.tail
      rw [hwhole] at ih'
      simp only [make_path_loop, hs, hpre]
      generalize pre ++ seg = path at ih'
      cases path with
      | nil =>
        simp only [List.length_nil, bne_self_eq_false, Bool.false_and,
          Bool.false_eq_true, if_false, List.filter, List.isEmpty_nil, Bool.not_true]
        exact ih' st hlen
      | cons x xs =>
        have hne : ((x :: xs).length != 0) = true := by simp
        simp only [hne, Bool.true_and, List.filter, List.isEmpty_cons, Bool.not_false,
          ensure_each, ensure_directory]
        cases hex : file_exists sys (x :: xs) st with
        | true =>
          simp only [Bool.not_true, Bool.false_eq_true, if_false, if_true, ne_eq,
            not_true_eq_false]
          exact ih' st hlen
        | false =>
          simp only [Bool.not_false, if_true, Bool.false_eq_true, if_false]
          by_cases hr : (sys.mkdir (x :: xs) st).1 = 0
          · simp only [hr, ne_eq, not_true_eq_false, if_false]
            exact ih' _ hlen
          · simp only [hr, ne_eq, not_false_eq_true, if_true]

/-- What `make_path` does, in full: it ensures the non-empty separator-delimited
prefixes in turn up to the first failure; if none failed it then creates the
path itself unless it exists; if one failed it returns -1 after calling `mkdir`
once more on the failed prefix unless the whole path exists. -/
theorem make_path_eq {σ : Type} (sys : PathSys σ) (directory : CStr) (st : σ) :
    make_path sys directory st
      = some (match ensure_each sys (path_prefixes directory) st with
              | (none, st1) =>
                if file_exists sys directory st1 then (0, st1)
                else (if (sys.mkdir directory st1).1 ≠ 0 then -1 else 0,
                      (sys.mkdir directory st1).2)
              | (some p, stf) =>
                if file_exists sys directory stf then (-1, stf)
                else (-1, (sys.mkdir p stf).2)) := by
  unfold make_path path_prefixes
  rw [make_path_loop_eq sys _ [] directory st (Nat.lt_succ_self _)]
  cases hens : ensure_each sys
      ((separator_prefixes_from [] directory).filter (fun p => !p.isEmpty)) st with
  | mk failed st1 =>
    cases failed with
    | none =>
      cases hex : file_exists sys directory st1 <;> simp [hex]
    | some p =>
      cases hex : file_exists sys directory st1 with
      | true => simp [hex]
      | false =>
        simp only [hex, Bool.not_false, if_true, Bool.false_eq_true, if_false,
          Option.some.injEq, Prod.mk.injEq, and_true]
        by_cases hr : (sys.mkdir p st1).1 = 0 <;> simp [hr]

theorem ensure_each_append {σ : Type} (sys : PathSys σ) (ps qs : List CStr) :
    ∀ st : σ, (ensure_each sys ps st).1 = none →
      ensure_each sys (ps ++ qs) st = ensure_each sys qs (ensure_each sys ps st).2 := by
  induction ps with
  | nil => intro st _; rfl
  | cons p ps ih =>
    intro st h
    simp only [ensure_each, List.cons_append] at h ⊢
    by_cases hr : (ensure_directory sys p st).1 = 0
    · simp only [hr, ne_eq, not_true_eq_false, if_false] at h ⊢
      exact ih _ h
    · simp only [hr, ne_eq, not_false_eq_true, if_true] at h
      simp at h

theorem ensure_each_prefix_none {σ : Type} (sys : PathSys σ) (ps qs : List CStr) :
    ∀ st : σ, (ensure_each sys (ps ++ qs) st).1 = none → (ensure_each sys ps st).1 = none := by
  induction ps with
  | nil => intro st _; rfl
  | cons p ps ih =>
    intro st h
    simp only [ensure_each, List.cons_append] at h ⊢
    by_cases hr : (ensure_directory sys p st).1 = 0
    · simp only [hr, ne_eq, not_true_eq_false, if_false] at h ⊢
      exact ih _ h
    · simp only [hr, ne_eq, not_false_eq_true, if_true] at h
      simp at h

/-! ## C14 -/

/-- C14: for every path and every file system on which no needed directory
creation fails, `make_path (path)` returns 0 and its effect is that of
going through the non-empty separator-delimited prefixes of the path,
shortest first, and then the path itself, calling `mkdir` on exactly those
that `file_exists` reports missing and doing nothing else. -/
theorem make_path_creates_missing {σ : Type} (sys : PathSys σ) (directory : CStr) (st : σ)
    (h : (ensure_each sys (path_prefixes directory ++ [directory]) st).1 = none) :
    make_path sys directory st
      = some (0, (ensure_each sys (path_prefixes directory ++ [directory]) st).2) := by
  have hpre := ensure_each_prefix_none sys _ _ st h
  rw [ensure_each_append sys _ _ st hpre] at h ⊢
  rw [make_path_eq]
  cases hens : ensure_each sys (path_prefixes directory) st with
  | mk failed st1 =>
    rw [hens] at hpre h
    simp only at hpre
    subst hpre
    simp only [ensure_each, ensure_directory] at h ⊢
    cases hex : file_exists sys directory st1 with
    | true => simp
    | false =>
      rw [hex] at h
      simp only [Bool.false_eq_true, if_false] at h ⊢
      by_cases hr : (sys.mkdir directory st1).1 = 0
      · simp [hr]
      · simp [hr] at h

/-- C14 on `/a/b/c`: over the empty file system exactly `/a`, `/a/b` and
`/a/b/c` are created, in this order; when `/a` exists, exactly `/a/b` and
`/a/b/c`. -/
theorem make_path_creates_missing_witness :
    ((ensure_each (dir_sys []) (path_prefixes "/a/b/c".toList ++ ["/a/b/c".toList])
          ⟨[], []⟩).1 = none
      ∧ make_path (dir_sys []) "/a/b/c".toList ⟨[], []⟩
        = some (0, ⟨["/a".toList, "/a/b".toList, "/a/b/c".toList],
                    ["/a".toList, "/a/b".toList, "/a/b/c".toList]⟩))
    ∧ ((ensure_each (dir_sys []) (path_prefixes "/a/b/c".toList ++ ["/a/b/c".toList])
          ⟨["/a".toList], []⟩).1 = none
      ∧ make_path (dir_sys []) "/a/b/c".toList ⟨["/a".toList], []⟩
        = some (0, ⟨["/a".toList, "/a/b".toList, "/a/b/c".toList],
                    ["/a/b".toList, "/a/b/c".toList]⟩)) :=
  ⟨⟨by decide,
     (make_path_creates_missing (dir_sys []) "/a/b/c".toList ⟨[], []⟩ (by decide)).trans
       (by decide)⟩,
   ⟨by decide,
     (make_path_creates_missing (dir_sys []) "/a/b/c".toList ⟨["/a".toList], []⟩
       (by decide)).trans (by decide)⟩⟩

/-! ## C15 -/

/-- The return value of `make_path` is -1 exactly when one of the creations it
attempts on the non-empty prefixes and the path itself, in this order and up to
the first failure, fails; it is 0 otherwise. -/
theorem make_path_fails_iff {σ : Type} (sys : PathSys σ) (directory : CStr) (st : σ) :
    ((make_path sys directory st).map Prod.fst = some (-1)
        ↔ (ensure_each sys (path_prefixes directory ++ [directory]) st).1 ≠ none)
    ∧ ((make_path sys directory st).map Prod.fst = some 0
        ↔ (ensure_each sys (path_prefixes directory ++ [directory]) st).1 = none) := by
  rw [make_path_eq]
  cases hens : ensure_each sys (path_prefixes directory) st with
  | mk failed st1 =>
    cases failed with
    | none =>
      have hnone : (ensure_each sys (path_prefixes directory) st).1 = none := by rw [hens]
      rw [ensure_each_append sys _ _ st hnone, hens]
      simp only [ensure_each, ensure_directory]
      cases hex : file_exists sys directory st1 with
      | true => simp
      | false =>
        by_cases hr : (sys.mkdir directory st1).1 = 0
        · simp [hr]
        · simp [hr]
    | some p =>
      have hsome : (ensure_each sys (path_prefixes directory ++ [directory]) st).1 ≠ none := by
        intro h
        have := ensure_each_prefix_none sys _ _ st h
        rw [hens] at this
        simp at this
      cases hex : file_exists sys directory st1 <;> simp [hsome, hex]

/-- After a failed creation: when the creation of a prefix `p` fails inside the
loop and the whole path does not exist, `make_path` returns -1 only after
calling `mkdir` once more, on the same prefix `p`: the `break` leaves `path` cut
at `p`, and the final `mkdir (path, mode)` is not guarded by `result`. -/
theorem make_path_after_failed_creation {σ : Type} (sys : PathSys σ) (directory : CStr)
    (st : σ) (p : CStr) (stf : σ)
    (hfail : ensure_each sys (path_prefixes directory) st = (some p, stf))
    (hmissing : file_exists sys directory stf = false) :
    make_path sys directory st = some (-1, (sys.mkdir p stf).2) := by
  rw [make_path_eq, hfail]
  simp [hmissing]

/-- C15 (failing input): `make_path` on `/a/b/c` over the empty file system when
`mkdir` of `/a` fails.  The call returns -1 and creates nothing, but the calls
it makes are `mkdir /a` and then `mkdir /a` again: a directory creation is
attempted after the first failed one. -/
theorem make_path_retries_failed_creation :
    make_path (dir_sys ["/a".toList]) "/a/b/c".toList ⟨[], []⟩
      = some (-1, ⟨[], ["/a".toList, "/a".toList]⟩) :=
  (make_path_after_failed_creation (dir_sys ["/a".toList]) "/a/b/c".toList ⟨[], []⟩
      "/a".toList ⟨[], ["/a".toList]⟩ (by decide) (by decide)).trans (by decide)

/-! ## delete_directory over paths with symbolic links -/

theorem Linked.kind_at_erase (x : Linked.Path) :
    ∀ (s : Linked.Store) (p : Linked.Path),
      Linked.kind_at (Linked.erase x s) p = if p = x then none else Linked.kind_at s p := by
  intro s
  induction s with
  | nil => intro p; simp [Linked.erase, Linked.kind_at]
  | cons e s ih =>
    intro p
    obtain ⟨q, k⟩ := e
    have ih' := ih p
    unfold Linked.erase at ih' ⊢
    by_cases hq : q = x
    · subst hq
      simp only [List.filter, ne_eq, not_true_eq_false, decide_False, Linked.kind_at]
      rw [ih']
      by_cases hp : p = q
      · subst hp; simp
      · have : ¬ q = p := fun h => hp h.symm
        simp [hp, this]
    · simp only [List.filter, ne_eq, hq, not_false_eq_true, decide_True, Linked.kind_at]
      rw [ih']
      by_cases hp : q = p
      · subst hp; simp [hq]
      · simp [hp]

theorem Linked.kind_at_erase_some (x : Linked.Path) (s : Linked.Store) (p : Linked.Path)
    (k : Linked.Kind) (h : Linked.kind_at (Linked.erase x s) p = some k) :
    Linked.kind_at s p = some k := by
  rw [Linked.kind_at_erase] at h
  by_cases hp : p = x
  · simp [hp] at h
  · simpa [hp] using h

theorem Linked.kind_at_erase_of_ne (x : Linked.Path) (s : Linked.Store) (p : Linked.Path)
    (h : p ≠ x) : Linked.kind_at (Linked.erase x s) p = Linked.kind_at s p := by
  rw [Linked.kind_at_erase]
  simp [h]

/-- Erasing objects can make a path resolution fail but cannot lead it to
another place. -/
theorem Linked.walk_mono (s' s : Linked.Store) (follow : Bool)
    (hsub : ∀ q k, Linked.kind_at s' q = some k → Linked.kind_at s q = some k) :
    ∀ (fuel : Nat) (cur rest r : Linked.Path),
      Linked.walk s' follow fuel cur rest = some r → Linked.walk s follow fuel cur rest = some r := by
  intro fuel
  induction fuel with
  | zero => intro cur rest r h; simp [Linked.walk] at h
  | succ fuel ih =>
    intro cur rest r h
    cases rest with
    | nil => simpa [Linked.walk] using h
    | cons n rest =>
      simp only [Linked.walk] at h ⊢
      cases hk : Linked.kind_at s' (cur ++ [n]) with
      | none => rw [hk] at h; simp at h
      | some k =>
        rw [hk] at h
        rw [hsub _ _ hk]
        cases k with
        | file => exact h
        | dir => exact ih _ _ _ h
        | link t =>
          simp only at h ⊢
          by_cases hc : (rest.isEmpty && !follow) = true
          · simpa [hc] using h
          · simp only [hc, if_false] at h ⊢
            exact ih _ _ _ h

/-- A resolution that does not follow a final link and ends on something other
than a link is the resolution that follows links. -/
theorem Linked.walk_follow_of_not_link (s : Linked.Store) :
    ∀ (fuel : Nat) (cur rest r : Linked.Path),
      Linked.walk s false fuel cur rest = some r →
      (∀ t, Linked.kind_at s r ≠ some (.link t)) →
      Linked.walk s true fuel cur rest = some r := by
  intro fuel
  induction fuel with
  | zero => intro cur rest r h; simp [Linked.walk] at h
  | succ fuel ih =>
    intro cur rest r h hr
    cases rest with
    | nil => simpa [Linked.walk] using h
    | cons n rest =>
      simp only [Linked.walk] at h ⊢
      cases hk : Linked.kind_at s (cur ++ [n]) with
      | none => rw [hk] at h; simp at h
      | some k =>
        rw [hk] at h
        cases k with
        | file => exact h
        | dir => exact ih _ _ _ h hr
        | link t =>
          simp only [Bool.not_false, Bool.and_true, Bool.not_true, Bool.and_false,
            Bool.false_eq_true, if_false] at h ⊢
          by_cases hc : rest.isEmpty = true
          · simp only [hc, if_true, Option.some.injEq] at h
            subst h
            exact absurd hk (hr t)
          · simp only [hc, if_false] at h
            exact ih _ _ _ h hr

/-- The path of an entry, resolved without following a final link, is the
resolution of the directory path followed by the name of the entry. -/
theorem Linked.walk_child (s : Linked.Store) (n : CStr) :
    ∀ (fuel : Nat) (cur a r : Linked.Path),
      Linked.walk s false fuel cur (a ++ [n]) = some r →
      ∃ d, Linked.walk s true fuel cur a = some d ∧ r = d ++ [n] := by
  intro fuel
  induction fuel with
  | zero => intro cur a r h; simp [Linked.walk] at h
  | succ fuel ih =>
    intro cur a r h
    cases a with
    | nil =>
      refine ⟨cur, by simp [Linked.walk], ?_⟩
      simp only [List.nil_append, Linked.walk, List.isEmpty_nil, Bool.not_false, Bool.and_self,
        if_true] at h
      cases hk : Linked.kind_at s (cur ++ [n]) with
      | none => rw [hk] at h; simp at h
      | some k =>
        rw [hk] at h
        cases k with
        | file => simpa using h.symm
        | link t => simpa using h.symm
        | dir =>
          simp only at h
          cases fuel with
          | zero => simp [Linked.walk] at h
          | succ fuel => simpa [Linked.walk] using h.symm
    | cons m a =>
      have hne : (a ++ [n]).isEmpty = false := by cases a <;> rfl
      replace h : Linked.walk s false (fuel + 1) cur (m :: (a ++ [n])) = some r := h
      simp only [Linked.walk, hne, Bool.false_and, Bool.false_eq_true, if_false] at h ⊢
      cases hk : Linked.kind_at s (cur ++ [m]) with
      | none => rw [hk] at h; simp at h
      | some k =>
        rw [hk] at h
        cases k with
        | file => simp at h
        | dir => exact ih _ _ _ h
        | link t =>
          simp only [Bool.not_true, Bool.and_false, Bool.false_eq_true, if_false] at h ⊢
          rw [← List.append_assoc] at h
          exact ih _ _ _ h

/-- What `lstat` reporting something for an entry tells: the entry lies at the
resolution of the directory path followed by its name. -/
theorem Linked.lstat_child (env : Linked.Env) (s : Linked.Store) (directory : Linked.Path)
    (n : CStr) (k : Linked.Kind) (h : Linked.lstat env s (directory ++ [n]) = some k) :
    ∃ d, Linked.walk s true env.budget [] directory = some d
      ∧ Linked.walk s false env.budget [] (directory ++ [n]) = some (d ++ [n])
      ∧ Linked.kind_at s (d ++ [n]) = some k := by
  unfold Linked.lstat at h
  by_cases hf : env.lstat_fails (directory ++ [n]) = true
  · simp [hf] at h
  · simp only [hf, if_false, Bool.false_eq_true] at h
    cases hw : Linked.walk s false env.budget [] (directory ++ [n]) with
    | none => rw [hw] at h; simp at h
    | some r =>
      rw [hw] at h
      obtain ⟨d, hd, rfl⟩ := Linked.walk_child s n _ _ _ _ hw
      exact ⟨d, hd, rfl, by simpa using h⟩

/-- The call `unlink` on an entry changes nothing but the object lying at the
resolution of the directory path followed by the name of the entry. -/
theorem Linked.unlink_child (env : Linked.Env) (s : Linked.Store) (directory : Linked.Path)
    (n : CStr) :
    (Linked.unlink env s (directory ++ [n])).2 = s
      ∨ ∃ d, Linked.walk s true env.budget [] directory = some d
          ∧ (Linked.unlink env s (directory ++ [n])).2 = Linked.erase (d ++ [n]) s := by
  unfold Linked.unlink
  by_cases hf : env.unlink_fails (directory ++ [n]) = true
  · simp [hf]
  · simp only [hf, if_false, Bool.false_eq_true]
    cases hw : Linked.walk s false env.budget [] (directory ++ [n]) with
    | none => simp
    | some r =>
      obtain ⟨d, hd, rfl⟩ := Linked.walk_child s n _ _ _ _ hw
      simp only
      cases hk : Linked.kind_at s (d ++ [n]) with
      | none => simp
      | some k =>
        cases k with
        | dir => simp
        | file => exact Or.inr ⟨d, hd, rfl⟩
        | link t => exact Or.inr ⟨d, hd, rfl⟩

/-- The call `rmdir` changes nothing but the object lying at the resolution of its path. -/
theorem Linked.rmdir_erases_at (env : Linked.Env) (s : Linked.Store) (directory : Linked.Path) :
    (Linked.rmdir env s directory).2 = s
      ∨ ∃ d, Linked.walk s true env.budget [] directory = some d
          ∧ (Linked.rmdir env s directory).2 = Linked.erase d s := by
  unfold Linked.rmdir
  by_cases hf : env.rmdir_fails directory = true
  · simp [hf]
  · simp only [hf, if_false, Bool.false_eq_true]
    cases hw : Linked.walk s false env.budget [] directory with
    | none => simp
    | some r =>
      simp only
      by_cases hc : Linked.kind_at s r = some .dir ∧ Linked.children s r = []
      · simp only [hc, and_self, if_true]
        refine Or.inr ⟨r, ?_, rfl⟩
        apply Linked.walk_follow_of_not_link s _ _ _ _ hw
        intro t ht
        rw [hc.1] at ht
        simp at ht
      · simp [hc]

/-- The loop of `delete_directory` with `lstat`: when the nested call changes
nothing outside the resolution of its path, the loop erases objects only, and
none lying outside the resolution of `directory`. -/
theorem Linked.delete_directory_loop_frame (env : Linked.Env) (emptyOnly : Bool)
    (recurse : Linked.Path → Linked.Store → Option Int × Linked.Store)
    (directory : Linked.Path) (O : Linked.Path → Prop)
    (hrec : ∀ child s,
      (∀ q k, Linked.kind_at (recurse child s).2 q = some k → Linked.kind_at s q = some k)
      ∧ ∀ q, (∀ d, Linked.walk s true env.budget [] child = some d → ¬ d <+: q) →
          Linked.kind_at (recurse child s).2 q = Linked.kind_at s q) :
    ∀ (names : List CStr) (s : Linked.Store),
      (∀ d, Linked.walk s true env.budget [] directory = some d → ∀ q, O q → ¬ d <+: q) →
      (∀ q k, Linked.kind_at
            (Linked.delete_directory_loop env false emptyOnly recurse directory names s).2 q
            = some k → Linked.kind_at s q = some k)
      ∧ ∀ q, O q → Linked.kind_at
            (Linked.delete_directory_loop env false emptyOnly recurse directory names s).2 q
            = Linked.kind_at s q := by
  intro names
  induction names with
  | nil => intro s _; simp [Linked.delete_directory_loop]
  | cons n names ih =>
    intro s hO
    -- what the rest of the loop does from a store `s1` reached by erasing
    have hnext : ∀ s1 : Linked.Store,
        (∀ q k, Linked.kind_at s1 q = some k → Linked.kind_at s q = some k) →
        (∀ q, O q → Linked.kind_at s1 q = Linked.kind_at s q) →
        (∀ q k, Linked.kind_at
              (Linked.delete_directory_loop env false emptyOnly recurse directory names s1).2 q
              = some k → Linked.kind_at s q = some k)
        ∧ ∀ q, O q → Linked.kind_at
              (Linked.delete_directory_loop env false emptyOnly recurse directory names s1).2 q
              = Linked.kind_at s q := by
      intro s1 hsub hfr
      have hO1 : ∀ d, Linked.walk s1 true env.budget [] directory = some d →
          ∀ q, O q → ¬ d <+: q :=
        fun d hd => hO d (Linked.walk_mono s1 s true hsub _ _ _ _ hd)
      obtain ⟨h1, h2⟩ := ih s1 hO1
      exact ⟨fun q k h => hsub q k (h1 q k h), fun q hq => (h2 q hq).trans (hfr q hq)⟩
    simp only [Linked.delete_directory_loop, Bool.false_eq_true, if_false]
    cases hl : Linked.lstat env s (directory ++ [n]) with
    | none => exact hnext s (fun _ _ h => h) (fun _ _ => rfl)
    | some k =>
      obtain ⟨d, hd, hw, hk⟩ := Linked.lstat_child env s directory n k hl
      -- the state after `unlink (child)`
      have hunlink :
          (∀ q k, Linked.kind_at (Linked.unlink env s (directory ++ [n])).2 q = some k →
            Linked.kind_at s q = some k)
          ∧ ∀ q, O q → Linked.kind_at (Linked.unlink env s (directory ++ [n])).2 q
              = Linked.kind_at s q := by
        rcases Linked.unlink_child env s directory n with h | ⟨d', hd', h⟩
        · rw [h]; exact ⟨fun _ _ h => h, fun _ _ => rfl⟩
        · rw [h]
          refine ⟨fun q k hq => Linked.kind_at_erase_some _ _ _ _ hq, fun q hq => ?_⟩
          apply Linked.kind_at_erase_of_ne
          intro e
          exact hO d' hd' q hq (e ▸ List.prefix_append d' [n])
      have hleaf :
          (∀ q k', Linked.kind_at
              (if emptyOnly = true then ((some (-1) : Option Int), s)
               else
                 match Linked.unlink env s (directory ++ [n]) with
                 | (r, s') =>
                   if r ≠ 0 then (some (-1), s')
                   else Linked.delete_directory_loop env false emptyOnly recurse directory
                     names s').2 q = some k' → Linked.kind_at s q = some k')
          ∧ ∀ q, O q → Linked.kind_at
              (if emptyOnly = true then ((some (-1) : Option Int), s)
               else
                 match Linked.unlink env s (directory ++ [n]) with
                 | (r, s') =>
                   if r ≠ 0 then (some (-1), s')
                   else Linked.delete_directory_loop env false emptyOnly recurse directory
                     names s').2 q = Linked.kind_at s q := by
        by_cases he : emptyOnly = true
        · rw [if_pos he]
          exact ⟨fun _ _ h => h, fun _ _ => rfl⟩
        · rw [if_neg he]
          by_cases hr : (Linked.unlink env s (directory ++ [n])).1 = 0
          · simp only [hr, ne_eq, not_true_eq_false, if_false]
            exact hnext _ hunlink.1 hunlink.2
          · simp only [hr, ne_eq, not_false_eq_true, if_true]
            exact hunlink
      cases k with
      | file => exact hleaf
      | link t => exact hleaf
      | dir =>
        simp only
        have hchild : Linked.walk s true env.budget [] (directory ++ [n]) = some (d ++ [n]) := by
          apply Linked.walk_follow_of_not_link s _ _ _ _ hw
          intro t ht
          rw [hk] at ht
          simp at ht
        obtain ⟨hr1, hr2⟩ := hrec (directory ++ [n]) s
        have hfr : ∀ q, O q →
            Linked.kind_at (recurse (directory ++ [n]) s).2 q = Linked.kind_at s q := by
          intro q hq
          apply hr2
          intro d' hd' hpre
          rw [hchild] at hd'
          simp only [Option.some.injEq] at hd'
          subst hd'
          exact hO d hd q hq ((List.prefix_append d [n]).trans hpre)
        cases hres : recurse (directory ++ [n]) s with
        | mk r s' =>
          rw [hres] at hr1 hfr
          simp only at hr1 hfr
          cases r with
          | none => exact ⟨hr1, hfr⟩
          | some r =>
            simp only
            by_cases hr0 : r = 0
            · simp only [hr0, ne_eq, not_true_eq_false, if_false]
              exact hnext s' hr1 hfr
            · simp only [hr0, ne_eq, not_false_eq_true, if_true]
              exact ⟨hr1, hfr⟩

/-- The function `delete_directory` with `lstat`, whatever the fuel: it erases objects
only, and none lying outside the resolution of `directory`. -/
theorem Linked.delete_directory_frame (env : Linked.Env) (emptyOnly : Bool) :
    ∀ (fuel : Nat) (directory : Linked.Path) (s : Linked.Store),
      (∀ q k, Linked.kind_at (Linked.delete_directory env false emptyOnly fuel directory s).2 q
            = some k → Linked.kind_at s q = some k)
      ∧ ∀ q, (∀ d, Linked.walk s true env.budget [] directory = some d → ¬ d <+: q) →
          Linked.kind_at (Linked.delete_directory env false emptyOnly fuel directory s).2 q
            = Linked.kind_at s q := by
  intro fuel
  induction fuel with
  | zero => intro directory s; simp [Linked.delete_directory]
  | succ fuel ih =>
    intro directory s
    simp only [Linked.delete_directory]
    cases ho : Linked.opendir env s directory with
    | none => exact ⟨fun _ _ h => h, fun _ _ => rfl⟩
    | some names =>
      simp only
      obtain ⟨h1, h2⟩ := Linked.delete_directory_loop_frame env emptyOnly
        (Linked.delete_directory env false emptyOnly fuel) directory
        (fun q => ∀ d, Linked.walk s true env.budget [] directory = some d → ¬ d <+: q)
        ih names s (fun d hd q hq => hq d hd)
      cases hres : Linked.delete_directory_loop env false emptyOnly
          (Linked.delete_directory env false emptyOnly fuel) directory names s with
      | mk r s1 =>
        rw [hres] at h1 h2
        simp only at h1 h2
        cases r with
        | none => exact ⟨h1, h2⟩
        | some result =>
          simp only
          by_cases h0 : result = 0
          · simp only [h0, if_true]
            rcases Linked.rmdir_erases_at env s1 directory with h | ⟨d, hd, h⟩
            · rw [h]; exact ⟨h1, h2⟩
            · rw [h]
              refine ⟨fun q k hq => h1 q k (Linked.kind_at_erase_some _ _ _ _ hq), fun q hq => ?_⟩
              rw [Linked.kind_at_erase_of_ne _ _ _ ?_]
              · exact h2 q hq
              · intro e
                have hd' := Linked.walk_mono s1 s true h1 _ _ _ _ hd
                exact hq d hd' (e ▸ List.prefix_refl d)
          · simp only [h0, if_false]
            exact ⟨h1, h2⟩

/-! ## delete_directory over paths returns -/

theorem Linked.length_le_depth :
    ∀ (s : Linked.Store) (q : Linked.Path) (k : Linked.Kind),
      Linked.kind_at s q = some k → q.length ≤ Linked.depth s := by
  intro s
  induction s with
  | nil => intro q k h; simp [Linked.kind_at] at h
  | cons e s ih =>
    intro q k h
    obtain ⟨p, kp⟩ := e
    simp only [Linked.kind_at] at h
    simp only [Linked.depth]
    by_cases hp : p = q
    · subst hp; exact Nat.le_max_left _ _
    · simp only [hp, if_false] at h
      exact (ih q k h).trans (Nat.le_max_right _ _)

/-- The loop of `delete_directory` with `lstat` returns when the nested calls it makes
return. -/
theorem Linked.delete_directory_loop_returns (env : Linked.Env) (emptyOnly : Bool)
    (recurse : Linked.Path → Linked.Store → Option Int × Linked.Store)
    (directory : Linked.Path) (s0 : Linked.Store)
    (hsub : ∀ child s q k,
      Linked.kind_at (recurse child s).2 q = some k → Linked.kind_at s q = some k)
    (hrec : ∀ s1 n, (∀ q k, Linked.kind_at s1 q = some k → Linked.kind_at s0 q = some k) →
      Linked.lstat env s1 (directory ++ [n]) = some .dir →
      (recurse (directory ++ [n]) s1).1 ≠ none) :
    ∀ (names : List CStr) (s1 : Linked.Store),
      (∀ q k, Linked.kind_at s1 q = some k → Linked.kind_at s0 q = some k) →
      (Linked.delete_directory_loop env false emptyOnly recurse directory names s1).1 ≠ none := by
  intro names
  induction names with
  | nil => intro s1 _; simp [Linked.delete_directory_loop]
  | cons n names ih =>
    intro s1 h1
    simp only [Linked.delete_directory_loop, Bool.false_eq_true, if_false]
    have hleaf :
        (if emptyOnly = true then ((some (-1) : Option Int), s1)
         else
           match Linked.unlink env s1 (directory ++ [n]) with
           | (r, s') =>
             if r ≠ 0 then (some (-1), s')
             else Linked.delete_directory_loop env false emptyOnly recurse directory
               names s').1 ≠ none := by
      by_cases he : emptyOnly = true
      · rw [if_pos he]; simp
      · rw [if_neg he]
        by_cases hr : (Linked.unlink env s1 (directory ++ [n])).1 = 0
        · simp only [hr, ne_eq, not_true_eq_false, if_false]
          apply ih
          rcases Linked.unlink_child env s1 directory n with h | ⟨d, _, h⟩
          · rw [h]; exact h1
          · rw [h]; exact fun q k hq => h1 q k (Linked.kind_at_erase_some _ _ _ _ hq)
        · simp [hr]
    cases hl : Linked.lstat env s1 (directory ++ [n]) with
    | none => exact ih s1 h1
    | some k =>
      cases k with
      | file => exact hleaf
      | link t => exact hleaf
      | dir =>
        simp only
        have hne := hrec s1 n h1 hl
        have hs := hsub (directory ++ [n]) s1
        cases hres : recurse (directory ++ [n]) s1 with
        | mk r s' =>
          rw [hres] at hne hs
          simp only at hne hs
          cases r with
          | none => exact absurd rfl hne
          | some r =>
            simp only
            by_cases hr0 : r = 0
            · simp only [hr0, ne_eq, not_true_eq_false, if_false]
              exact ih s' (fun q k hq => h1 q k (hs q k hq))
            · simp [hr0]

/-- The function `delete_directory` with `lstat` returns when the fuel covers the levels
of directories below the one it is called on. -/
theorem Linked.delete_directory_returns_of_fuel (env : Linked.Env) (emptyOnly : Bool)
    (s0 : Linked.Store) :
    ∀ (fuel : Nat) (directory : Linked.Path) (s : Linked.Store),
      (∀ q k, Linked.kind_at s q = some k → Linked.kind_at s0 q = some k) →
      (∀ d, Linked.walk s true env.budget [] directory = some d →
        Linked.depth s0 ≤ d.length + fuel) →
      (Linked.delete_directory env false emptyOnly (fuel + 1) directory s).1 ≠ none := by
  intro fuel
  induction fuel with
  | zero =>
    intro directory s hs hfuel
    rw [Linked.delete_directory]
    cases ho : Linked.opendir env s directory with
    | none => simp
    | some names =>
      simp only
      have hloop := Linked.delete_directory_loop_returns env emptyOnly
        (Linked.delete_directory env false emptyOnly 0) directory s
        (fun child s1 => (Linked.delete_directory_frame env emptyOnly 0 child s1).1)
        (by
          intro s1 n h1 hl
          obtain ⟨d, hd, _, hk⟩ := Linked.lstat_child env s1 directory n _ hl
          have hlen := Linked.length_le_depth s0 _ _ (hs _ _ (h1 _ _ hk))
          have := hfuel d (Linked.walk_mono s1 s true h1 _ _ _ _ hd)
          simp at hlen
          omega)
        names s (fun _ _ h => h)
      cases hres : Linked.delete_directory_loop env false emptyOnly
          (Linked.delete_directory env false emptyOnly 0) directory names s with
      | mk r s1 =>
        rw [hres] at hloop
        cases r with
        | none => exact absurd rfl hloop
        | some result => by_cases h0 : result = 0 <;> simp [h0]
  | succ fuel ih =>
    intro directory s hs hfuel
    rw [Linked.delete_directory]
    cases ho : Linked.opendir env s directory with
    | none => simp
    | some names =>
      simp only
      have hloop := Linked.delete_directory_loop_returns env emptyOnly
        (Linked.delete_directory env false emptyOnly (fuel + 1)) directory s
        (fun child s1 => (Linked.delete_directory_frame env emptyOnly (fuel + 1) child s1).1)
        (by
          intro s1 n h1 hl
          obtain ⟨d, hd, hw, hk⟩ := Linked.lstat_child env s1 directory n _ hl
          have hchild : Linked.walk s1 true env.budget [] (directory ++ [n]) = some (d ++ [n]) := by
            apply Linked.walk_follow_of_not_link s1 _ _ _ _ hw
            intro t ht
            rw [hk] at ht
            simp at ht
          apply ih (directory ++ [n]) s1 (fun q k hq => hs q k (h1 q k hq))
          intro dc hdc
          rw [hchild] at hdc
          simp only [Option.some.injEq] at hdc
          subst hdc
          have := hfuel d (Linked.walk_mono s1 s true h1 _ _ _ _ hd)
          simp
          omega)
        names s (fun _ _ h => h)
      cases hres : Linked.delete_directory_loop env false emptyOnly
          (Linked.delete_directory env false emptyOnly (fuel + 1)) directory names s with
      | mk r s1 =>
        rw [hres] at hloop
        cases r with
        | none => exact absurd rfl hloop
        | some result => by_cases h0 : result = 0 <;> simp [h0]

/-- The function `delete_directory` with `lstat` returns on every store and every path:
fuel for one level more than the longest path of the store is enough. -/
theorem Linked.delete_directory_returns (env : Linked.Env) (emptyOnly : Bool)
    (directory : Linked.Path) (s : Linked.Store) :
    (Linked.delete_directory env false emptyOnly (Linked.depth s + 1) directory s).1 ≠ none :=
  Linked.delete_directory_returns_of_fuel env emptyOnly s (Linked.depth s) directory s
    (fun _ _ h => h) (fun _ _ => Nat.le_add_left _ _)

/-! ## C16 -/

/-- C16 as stated fails on the `_WIN32` build, which examines an entry with `stat`:
on `linked_tree` the entry `/t/l`, a link to the directory `/v`, is classified
as a directory (`lstat` would say link), the nested call on `/t/l` opens the
referent `/v`, and its loop, whatever the calls nested in it do, unlinks the file
`/v/f`, outside `/t`; after the whole call `/v/f` is gone. -/
theorem delete_directory_with_stat_empties_referent :
    Linked.stat (Linked.plain_env 8) Linked.linked_tree ["t".toList, "l".toList] = some .dir
    ∧ Linked.lstat (Linked.plain_env 8) Linked.linked_tree ["t".toList, "l".toList]
        = some (.link ["v".toList])
    ∧ Linked.opendir (Linked.plain_env 8) Linked.linked_tree ["t".toList, "l".toList]
        = some ["f".toList]
    ∧ (∀ recurse, Linked.delete_directory_loop (Linked.plain_env 8) true false recurse
          ["t".toList, "l".toList] ["f".toList] Linked.linked_tree
        = (some 0, Linked.erase ["v".toList, "f".toList] Linked.linked_tree))
    ∧ Linked.kind_at Linked.linked_tree ["v".toList, "f".toList] = some .file
    ∧ Linked.delete_directory (Linked.plain_env 8) true false 3 ["t".toList] Linked.linked_tree
      = (some (-1),
          [(["t".toList], .dir),
           (["t".toList, "l".toList], .link ["v".toList]),
           (["t".toList, "g".toList], .file),
           (["t".toList, "d".toList], .dir),
           (["t".toList, "d".toList, "h".toList], .file),
           (["v".toList], .dir)]) := by
  refine ⟨by decide, by decide, by decide, ?_, by decide, by decide⟩
  intro recurse
  have h1 : Linked.stat (Linked.plain_env 8) Linked.linked_tree
      (["t".toList, "l".toList] ++ ["f".toList]) = some .file := by decide
  have h2 : Linked.unlink (Linked.plain_env 8) Linked.linked_tree
      (["t".toList, "l".toList] ++ ["f".toList])
      = (0, Linked.erase ["v".toList, "f".toList] Linked.linked_tree) := by decide
  simp only [Linked.delete_directory_loop, if_true, h1, h2]
  simp

/-- C16 (amended): in the build without `_WIN32`, where an entry is examined with
`lstat`, let `directory` name (through path resolution) the directory lying at
`d`.  (1) When the loop of `delete_directory` comes to an entry `name` that is a
symbolic link, whatever its target, and `lstat` on it succeeds, the nested call
is not made (the equation holds for every `recurse`): with emptyOnly set the
loop stops with -1 and the store unchanged; with emptyOnly unset `unlink` is
called, and unless it is made to fail the loop goes on from the store in which
only the object at `d/name`, the link itself, is erased.  (2) For every fuel,
stopped or returned, the whole call leaves every path that does not lie at or
below `d` as it was, the referent of a link included.  (3) The call returns
when the fuel covers one level more than the longest path of the store. -/
theorem delete_directory_does_not_follow_links (env : Linked.Env) (emptyOnly : Bool)
    (directory d : Linked.Path) (s : Linked.Store)
    (hd : Linked.walk s true env.budget [] directory = some d) :
    (∀ (name : CStr) (target : Linked.Path) (names : List CStr)
        (recurse : Linked.Path → Linked.Store → Option Int × Linked.Store),
        Linked.kind_at s (d ++ [name]) = some (.link target) →
        Linked.lstat env s (directory ++ [name]) ≠ none →
        Linked.delete_directory_loop env false emptyOnly recurse directory (name :: names) s
          = if emptyOnly then (some (-1), s)
            else if env.unlink_fails (directory ++ [name]) then (some (-1), s)
            else Linked.delete_directory_loop env false emptyOnly recurse directory names
              (Linked.erase (d ++ [name]) s))
    ∧ (∀ (fuel : Nat) (q : Linked.Path), ¬ d <+: q →
        Linked.kind_at (Linked.delete_directory env false emptyOnly fuel directory s).2 q
          = Linked.kind_at s q)
    ∧ (Linked.delete_directory env false emptyOnly (Linked.depth s + 1) directory s).1
        ≠ none := by
  refine ⟨?_, ?_, Linked.delete_directory_returns env emptyOnly directory s⟩
  · intro name target names recurse hlink hstat
    cases hl : Linked.lstat env s (directory ++ [name]) with
    | none => exact absurd hl hstat
    | some k =>
      obtain ⟨d', hd', hw, hk⟩ := Linked.lstat_child env s directory name k hl
      rw [hd] at hd'
      simp only [Option.some.injEq] at hd'
      subst hd'
      rw [hlink] at hk
      simp only [Option.some.injEq] at hk
      subst hk
      simp only [Linked.delete_directory_loop, Bool.false_eq_true, if_false, hl, Linked.unlink,
        hw, hlink]
      cases emptyOnly with
      | true => simp
      | false =>
        cases hu : env.unlink_fails (directory ++ [name]) <;> simp
  · intro fuel q hq
    apply (Linked.delete_directory_frame env emptyOnly fuel directory s).2
    intro d' hd'
    rw [hd] at hd'
    simp only [Option.some.injEq] at hd'
    subst hd'
    exact hq

/-- C16 (amended) on `linked_tree`: erasing `/t` unlinks the link `/t/l` and leaves `/v` and
`/v/f` in place; the call returns 0 and nothing but `/v` and `/v/f` is left. -/
theorem delete_directory_does_not_follow_links_witness :
    Linked.walk Linked.linked_tree true 8 [] ["t".toList] = some ["t".toList]
    ∧ Linked.delete_directory_loop (Linked.plain_env 8) false false
          (Linked.delete_directory (Linked.plain_env 8) false false 2) ["t".toList]
          ["l".toList, "g".toList, "d".toList] Linked.linked_tree
        = Linked.delete_directory_loop (Linked.plain_env 8) false false
          (Linked.delete_directory (Linked.plain_env 8) false false 2) ["t".toList]
          ["g".toList, "d".toList]
          (Linked.erase ["t".toList, "l".toList] Linked.linked_tree)
    ∧ Linked.kind_at (Linked.delete_directory (Linked.plain_env 8) false false 3
          ["t".toList] Linked.linked_tree).2 ["v".toList, "f".toList] = some .file
    ∧ Linked.delete_directory (Linked.plain_env 8) false false 3 ["t".toList]
          Linked.linked_tree
        = (some 0, [(["v".toList], .dir), (["v".toList, "f".toList], .file)]) :=
  ⟨by decide,
   (delete_directory_does_not_follow_links (Linked.plain_env 8) false ["t".toList]
      ["t".toList] Linked.linked_tree (by decide)).1 "l".toList ["v".toList]
      ["g".toList, "d".toList] (Linked.delete_directory (Linked.plain_env 8) false false 2)
      (by decide) (by decide),
   ((delete_directory_does_not_follow_links (Linked.plain_env 8) false ["t".toList]
      ["t".toList] Linked.linked_tree (by decide)).2.1 3 ["v".toList, "f".toList]
      (by decide)).trans (by decide),
   by decide⟩

/-! ## C21 -/

/-- C21 (failing inputs): on the empty string, on a lone double quote and on a
string of blanks, and in general on exactly the strings made up only of
double-quote, space and tab characters, the trailing scan of `trim_argument` reads
the position before the first character of the copy: no result is defined. -/
theorem trim_argument_all_padding_out_of_bounds :
    trim_argument [] = none
    ∧ trim_argument [Char.ofNat 34] = none
    ∧ trim_argument [' ', Char.ofNat 9, ' '] = none
    ∧ ∀ s : CStr, trim_argument s = none ↔ s.all is_pad = true := by
  refine ⟨by decide, by decide, by decide, ?_⟩
  intro s
  rw [trim_argument_eq]
  by_cases h : s.all is_pad = true
  · simp [h]
  · simp [h]

/-! ## make_path and regular files -/

/-- When a prefix of the path is a regular file, here `/a` for the path `/a/b`, the
creation of the next directory fails and `make_path` returns -1. -/
theorem make_path_fails_below_regular_file :
    make_path file_sys "/a/b".toList [("/a".toList, false)]
      = some (-1, [("/a".toList, false)]) := by
  decide

/-- The chain returns what the first entry with the given name says, and -1 when
no entry has that name. -/
theorem get_clsid_chain_eq (csidl : CStr → Int) (clsid : CStr) :
    ∀ table : List (CStr × CStr),
      get_clsid_chain csidl clsid table
        = match table.find? (fun e => decide (e.1 = clsid)) with
          | some e => csidl e.2
          | none => -1 := by
  intro table
  induction table with
  | nil => rfl
  | cons e rest ih =>
    obtain ⟨name, constant⟩ := e
    by_cases h : clsid = name
    · subst h
      simp [get_clsid_chain, List.find?]
    · have h' : ¬ name = clsid := fun e => h e.symm
      simp only [get_clsid_chain, h, if_false, List.find?, h', decide_False]
      exact ih

/-- Every name of the table other than `CSIDL_RESOURCES_LOCALIZED` is first met in
a test whose branch returns the constant of that name. -/
theorem clsid_table_first_entry :
    ∀ name ∈ clsid_names, name ≠ "CSIDL_RESOURCES_LOCALIZED".toList →
      (clsid_table.find? (fun e => decide (e.1 = name))).map Prod.snd = some name := by
  decide

/-- For a name of the table other than `CSIDL_RESOURCES_LOCALIZED`, `get_clsid` returns
the constant of that name. -/
theorem get_clsid_known (csidl : CStr → Int) (name : CStr) (hmem : name ∈ clsid_names)
    (hne : name ≠ "CSIDL_RESOURCES_LOCALIZED".toList) :
    get_clsid csidl (some name) = csidl name := by
  have h := clsid_table_first_entry name hmem hne
  simp only [get_clsid, get_clsid_chain_eq]
  cases hf : clsid_table.find? (fun e => decide (e.1 = name)) with
  | none => rw [hf] at h; simp at h
  | some e =>
    rw [hf] at h
    simp only [Option.map_some', Option.some.injEq] at h
    simp [h]

/-- For a name that is not in the table, and for the NULL pointer, `get_clsid` returns
-1. -/
theorem get_clsid_unknown (csidl : CStr → Int) :
    get_clsid csidl none = -1
    ∧ ∀ name, name ∉ clsid_names → get_clsid csidl (some name) = -1 := by
  refine ⟨rfl, ?_⟩
  intro name hmem
  simp only [get_clsid, get_clsid_chain_eq]
  cases hf : clsid_table.find? (fun e => decide (e.1 = name)) with
  | none => rfl
  | some e =>
    exfalso
    apply hmem
    have h1 := List.find?_some hf
    have h2 := List.mem_of_find?_eq_some hf
    simp only [decide_eq_true_eq] at h1
    rw [← h1]
    exact List.mem_map_of_mem Prod.fst h2

/-! ## C23 -/

/-- C23 (failing input): the name `CSIDL_RESOURCES_LOCALIZED` is in the table of
`get_clsid`, and for it `get_clsid` returns the constant `CSIDL_STARTMENU`, whatever the
values of the constants, not the constant `CSIDL_RESOURCES_LOCALIZED`. -/
theorem get_clsid_resources_localized (csidl : CStr → Int) :
    "CSIDL_RESOURCES_LOCALIZED".toList ∈ clsid_names
    ∧ get_clsid csidl (some "CSIDL_RESOURCES_LOCALIZED".toList)
        = csidl "CSIDL_STARTMENU".toList := by
  refine ⟨by decide, ?_⟩
  rw [get_clsid, get_clsid_chain_eq]
  have h : clsid_table.find? (fun e => decide (e.1 = "CSIDL_RESOURCES_LOCALIZED".toList))
      = some ("CSIDL_RESOURCES_LOCALIZED".toList, "CSIDL_STARTMENU".toList) := by decide
  rw [h]

end Instmon
